import Mathlib

/-!
# AI code likelihood detector and rewrite engine (`src/js/plagiarism-detector.js`)

A shallow embedding of the detector in Lean.

* A JavaScript string is modelled as the list of its UTF-16 code units (`Text`).
* A JavaScript Number is modelled by `JSNum`: IEEE-754 binary64 with NaN and the
  two infinities, every finite value carried as a sign, a mantissa and a binary
  exponent.  Each arithmetic operation computes the exact result and rounds it
  to the nearest representable value, ties to even.
* The two built-ins that ECMAScript leaves implementation-approximated
  (`Math.log2` and the `**` operator) are parameters, bundled in `Platform`.
* Regular expressions are values of `Re`, run by a backtracking matcher that
  follows the ECMAScript matching rules (priority of alternatives, greedy and
  lazy repetition, `\b`, `^`, `$`, one capture group, the `i`, `m`, `g` flags).
-/

namespace PlagiarismDetector

/-! ## Numbers

The arithmetic below is written with the functions `Nat.add`, `Nat.mul`,
`Nat.pow`, `Nat.blt`, ... instead of the usual operators, and with Boolean
tests (`bif`), so that closed terms evaluate quickly.  `Nat.sub` is truncated
subtraction. -/

/-- Evaluate a natural number before handing it on: `strictNat n k = k n`.
Only the order of evaluation is fixed, so that a value used several times is
computed once. -/
def strictNat {α : Type} (n : Nat) (k : Nat → α) : α :=
  match n with
  | 0 => k 0
  | Nat.succ m => k (Nat.succ m)

/-- A JavaScript Number (IEEE-754 binary64).  `fin neg m e` is the finite value
`(-1)^neg * m * 2^(e - 1074)`: every finite binary64 is a multiple of `2^-1074`.
A value is canonical when `m < 2^53`, and `2^52 ≤ m` unless `e = 0`. -/
inductive JSNum where
  | nan : JSNum
  | inf (neg : Bool) : JSNum
  | fin (neg : Bool) (m : Nat) (e : Nat) : JSNum
  deriving DecidableEq, Repr

namespace JSNum

/-- One step of the binary search for the highest set bit of `n`: `lo` is a
lower bound of its place, `s` the stride. -/
def bitLogStep (n s lo : Nat) (k : Nat → Nat) : Nat :=
  bif Nat.blt n (Nat.pow 2 (Nat.add lo s)) then k lo else k (Nat.add lo s)

/-- The place of the highest set bit of `n`, for `2^lo ≤ n < 2^(lo + 64)`. -/
def bitLogWord (n lo : Nat) : Nat :=
  bitLogStep n 32 lo fun lo => bitLogStep n 16 lo fun lo => bitLogStep n 8 lo fun lo =>
  bitLogStep n 4 lo fun lo => bitLogStep n 2 lo fun lo => bitLogStep n 1 lo fun lo => lo

/-- Find the 64-bit word holding the highest set bit of `n ≥ 2^lo`, then search it. -/
def bitLogLoop : Nat → Nat → Nat → Nat
  | 0, _, lo => lo
  | fuel + 1, n, lo =>
    bif Nat.blt n (Nat.pow 2 (Nat.add lo 64)) then bitLogWord n lo
    else strictNat (Nat.add lo 64) fun lo1 => bitLogLoop fuel n lo1

/-- The floor of the base-2 logarithm of `n` (0 for `n = 0`). -/
def bitLog (n : Nat) : Nat :=
  bif Nat.blt n (Nat.pow 2 64) then bitLogWord n 0 else bitLogLoop n n 64

/-- Round the quotient `num / den` to the nearest integer, ties to even. -/
def roundQuotient (num den : Nat) : Nat :=
  bif Nat.blt den (Nat.mul 2 (Nat.mod num den)) ||
      (Nat.beq (Nat.mul 2 (Nat.mod num den)) den && Nat.beq (Nat.mod (Nat.div num den) 2) 1)
  then Nat.succ (Nat.div num den) else Nat.div num den

/-- Pack a rounded mantissa `m ≤ 2^53` with exponent field `eb`: a carry to
`2^53` moves to the next exponent, and an exponent field above 2045 overflows. -/
def pack (neg : Bool) (eb m : Nat) : JSNum :=
  bif Nat.beq m (Nat.pow 2 53) then
    (bif Nat.blt 2044 eb then inf neg else fin neg (Nat.pow 2 52) (Nat.succ eb))
  else bif Nat.blt 2045 eb then inf neg
  else fin neg m eb

/-- Round `(n / d) * 2^(p - q)` given the exponent field `eb` of the result:
the unit in the last place is `2^(eb - 1074)`. -/
def roundAt (neg : Bool) (n d p q eb : Nat) : JSNum :=
  strictNat
    (roundQuotient (Nat.mul n (Nat.pow 2 (Nat.sub (Nat.add p 1074) (Nat.add q eb))))
      (Nat.mul d (Nat.pow 2 (Nat.sub (Nat.add q eb) (Nat.add p 1074)))))
    fun m => pack neg eb m

/-- The exponent field of the rounding of `(n / d) * 2^(p - q)`, where
`ln = bitLog n` and `ld = bitLog d`: the floor of the binary logarithm of
`n / d` is `ln - ld`, less one when `n / 2^ln < d / 2^ld`; the field is that
logarithm plus `p - q + 1022`, and 0 in the subnormal range. -/
def expField (n d p q ln ld : Nat) : Nat :=
  Nat.sub (Nat.add (Nat.add ln p) 1022)
    (Nat.add (Nat.add ld q)
      (bif Nat.blt (Nat.mul n (Nat.pow 2 ld)) (Nat.mul d (Nat.pow 2 ln)) then 1 else 0))

/-- Nearest binary64 to the exact value `(-1)^neg * (n / d) * 2^(p - q)` (for
`d > 0`), ties to even, with gradual underflow below `2^-1022` and overflow to
infinity.  The result is canonical. -/
def round (neg : Bool) (n d p q : Nat) : JSNum :=
  strictNat n fun n =>
  bif Nat.beq n 0 then fin neg 0 0 else
  strictNat (bitLog n) fun ln => strictNat (bitLog d) fun ld =>
  strictNat (expField n d p q ln ld) fun eb => roundAt neg n d p q eb

/-- The Number of a natural number, such as a length or a count (exact below `2^53`). -/
def ofNat (n : Nat) : JSNum := round false n 1 0 0

/-- The Number of an integer (exact below `2^53` in magnitude). -/
def ofInt (k : Int) : JSNum := round (decide (k < 0)) k.natAbs 1 0 0

/-- The Number denoted by the decimal literal whose exact value is `n / d`. -/
def lit (n d : Nat) : JSNum := round false n d 0 0

/-- The mantissa `m` of exponent field `e` rescaled to the smaller exponent
field of `e` and `e'`. -/
def align (m e e' : Nat) : Nat :=
  Nat.mul m (Nat.pow 2 (Nat.sub e (bif Nat.ble e e' then e else e')))

/-- JavaScript `a + b`.  Both operands are exact multiples of the unit of the
smaller exponent field and so is their sum; adding a zero changes nothing, and
a zero sum is `-0` only when both operands are negative zeros. -/
def add : JSNum → JSNum → JSNum
  | nan, _ => nan
  | _, nan => nan
  | inf a, inf b => if a = b then inf a else nan
  | inf a, fin _ _ _ => inf a
  | fin _ _ _, inf b => inf b
  | fin s1 m1 e1, fin s2 m2 e2 =>
    bif Nat.beq m2 0 then (bif Nat.beq m1 0 then fin (s1 && s2) 0 0 else fin s1 m1 e1)
    else bif Nat.beq m1 0 then fin s2 m2 e2
    else bif s1 == s2 then
      round s1 (Nat.add (align m1 e1 e2) (align m2 e2 e1)) 1 (bif Nat.ble e1 e2 then e1 else e2) 1074
    else bif Nat.beq (align m1 e1 e2) (align m2 e2 e1) then fin false 0 0
    else bif Nat.blt (align m2 e2 e1) (align m1 e1 e2) then
      round s1 (Nat.sub (align m1 e1 e2) (align m2 e2 e1)) 1 (bif Nat.ble e1 e2 then e1 else e2) 1074
    else
      round s2 (Nat.sub (align m2 e2 e1) (align m1 e1 e2)) 1 (bif Nat.ble e1 e2 then e1 else e2) 1074

/-- JavaScript unary minus. -/
def neg : JSNum → JSNum
  | nan => nan
  | inf a => inf (!a)
  | fin s m e => fin (!s) m e

/-- JavaScript `a - b`. -/
def sub (a b : JSNum) : JSNum := add a (neg b)

/-- JavaScript `a * b`. -/
def mul : JSNum → JSNum → JSNum
  | nan, _ => nan
  | _, nan => nan
  | inf a, inf b => inf (a != b)
  | inf a, fin s m _ => bif Nat.beq m 0 then nan else inf (a != s)
  | fin s m _, inf b => bif Nat.beq m 0 then nan else inf (s != b)
  | fin s1 m1 e1, fin s2 m2 e2 => round (s1 != s2) (Nat.mul m1 m2) 1 (Nat.add e1 e2) 2148

/-- JavaScript `a / b`. -/
def div : JSNum → JSNum → JSNum
  | nan, _ => nan
  | _, nan => nan
  | inf _, inf _ => nan
  | inf a, fin s _ _ => inf (a != s)
  | fin s _ _, inf b => fin (s != b) 0 0
  | fin s1 m1 e1, fin s2 m2 e2 =>
    bif Nat.beq m2 0 then (bif Nat.beq m1 0 then nan else inf (s1 != s2))
    else round (s1 != s2) m1 m2 e1 e2

/-- JavaScript `a < b` (false as soon as one side is NaN). -/
def lt : JSNum → JSNum → Bool
  | nan, _ => false
  | _, nan => false
  | inf a, inf b => a && !b
  | inf a, fin _ _ _ => a
  | fin _ _ _, inf b => !b
  | fin s1 m1 e1, fin s2 m2 e2 =>
    match s1, s2 with
    | false, false => Nat.blt (align m1 e1 e2) (align m2 e2 e1)
    | false, true => false
    | true, false => Nat.blt 0 m1 || Nat.blt 0 m2
    | true, true => Nat.blt (align m2 e2 e1) (align m1 e1 e2)

/-- JavaScript `a == b` on Numbers (false as soon as one side is NaN; the two
zeros are equal). -/
def eq : JSNum → JSNum → Bool
  | nan, _ => false
  | _, nan => false
  | inf a, inf b => a == b
  | inf _, fin _ _ _ => false
  | fin _ _ _, inf _ => false
  | fin s1 m1 e1, fin s2 m2 e2 =>
    Nat.beq (align m1 e1 e2) (align m2 e2 e1) && (s1 == s2 || Nat.beq m1 0)

/-- JavaScript `a > b`. -/
def gt (a b : JSNum) : Bool := lt b a

/-- JavaScript `a >= b`. -/
def ge (a b : JSNum) : Bool := lt b a || eq a b

/-- JavaScript `a <= b`. -/
def le (a b : JSNum) : Bool := lt a b || eq a b

/-- Whether a Number is the zero of negative sign. -/
def isNegZero : JSNum → Bool
  | fin true 0 _ => true
  | _ => false

/-- JavaScript `Math.min(a, b)`; `-0` counts as smaller than `+0`. -/
def min (a b : JSNum) : JSNum :=
  match a, b with
  | nan, _ => nan
  | _, nan => nan
  | a, b => bif lt b a then b else bif lt a b then a else bif isNegZero a then a else b

/-- JavaScript `Math.max(a, b)`; `+0` counts as larger than `-0`. -/
def max (a b : JSNum) : JSNum :=
  match a, b with
  | nan, _ => nan
  | _, nan => nan
  | a, b => bif lt a b then b else bif lt b a then a else bif isNegZero a then b else a

/-- JavaScript `Math.round(a)`: the integer nearest to `a`, ties toward `+∞`,
that is `floor(a + 1/2)` computed exactly; a result of zero keeps the sign of a
negative argument.  With `h = 2^(1073 - e)` the argument is `±m / (2 * h)`. -/
def mathRound : JSNum → JSNum
  | nan => nan
  | inf a => inf a
  | fin s m e =>
    bif Nat.ble 1074 e then fin s m e
    else
      strictNat (Nat.pow 2 (Nat.sub 1073 e)) fun h =>
      bif s then round true (Nat.div (Nat.sub (Nat.add m h) 1) (Nat.mul 2 h)) 1 0 0
      else round false (Nat.div (Nat.add m h) (Nat.mul 2 h)) 1 0 0

/-- Truthiness of a Number: false for the zeros and NaN. -/
def truthy : JSNum → Bool
  | nan => false
  | inf _ => true
  | fin _ m _ => !Nat.beq m 0

/-- Integer square root by Newton iteration from above. -/
def isqrtLoop : Nat → Nat → Nat → Nat
  | 0, _, x => x
  | fuel + 1, n, x =>
    strictNat (Nat.div (Nat.add x (Nat.div n x)) 2) fun y =>
    bif Nat.blt y x then isqrtLoop fuel n y else x

/-- The floor of the square root of `n`. -/
def isqrt (n : Nat) : Nat :=
  bif Nat.beq n 0 then 0
  else strictNat (bitLog n) fun b =>
    strictNat (Nat.pow 2 (Nat.succ (Nat.div b 2))) fun x0 => isqrtLoop (Nat.add b 2) n x0

/-- JavaScript `Math.sqrt(a)`: the correctly rounded square root.  The mantissa
is first scaled by `2^sh` to more than 110 bits with an even exponent; the
integer root `r` of the scaled mantissa, doubled, with a last bit telling
whether the root is inexact, then rounds like the real root. -/
def sqrt : JSNum → JSNum
  | nan => nan
  | inf a => bif a then nan else inf false
  | fin s m e =>
    bif Nat.beq m 0 then fin s 0 0
    else bif s then nan
    else
      strictNat (Nat.add 120 (Nat.mod e 2)) fun sh =>
      strictNat (Nat.mul m (Nat.pow 2 sh)) fun big =>
      strictNat (isqrt big) fun r =>
      round false (Nat.add (Nat.mul 2 r) (bif Nat.beq (Nat.mul r r) big then 0 else 1)) 2
        (Nat.div (Nat.sub (Nat.add e 1074) sh) 2) 1074

/-- The exact rational value of a finite Number. -/
def toRat? : JSNum → Option ℚ
  | fin s m e => some ((if s then -1 else 1) * (m : ℚ) * (2 : ℚ) ^ ((e : Int) - 1074))
  | _ => none

end JSNum

/-- The built-ins whose results ECMAScript leaves implementation-approximated. -/
structure Platform where
  log2 : JSNum → JSNum
  pow : JSNum → JSNum → JSNum

/-- The binary logarithm rounded down to an integer: exact on the powers of
two, `-∞` on the zeros, NaN on negative arguments. -/
def log2Floor : JSNum → JSNum
  | .fin false m e =>
    bif Nat.beq m 0 then .inf true
    else JSNum.ofInt ((JSNum.bitLog m : Int) + (e : Int) - 1074)
  | .fin true m _ => bif Nat.beq m 0 then .inf true else .nan
  | .inf false => .inf false
  | _ => .nan

/-- A platform to evaluate concrete inputs with.  `pow`, which the program only
calls with the exponent 2, is the correctly rounded square.  `log2` is exact on
the powers of two and rounds down elsewhere; the entropy it enters decides a
score only on a text of more than 200 code units, and the one example of that
length has probabilities that are powers of two. -/
def referencePlatform : Platform :=
  { log2 := log2Floor, pow := fun a _ => JSNum.mul a a }

/-! ## Strings -/

/-- A JavaScript string: the list of its UTF-16 code units. -/
abbrev Text := List Nat

/-- The code units of a string literal whose characters all lie in the Basic
Multilingual Plane. -/
def str (s : String) : Text := s.toList.map Char.toNat

/-- The apostrophe. -/
def chApostrophe : Char := Char.ofNat 39

/-- The double quote. -/
def chQuote : Char := Char.ofNat 34

/-- The backquote. -/
def chBackquote : Char := Char.ofNat 96

/-- The opening brace. -/
def chLBrace : Char := Char.ofNat 123

/-- The closing brace. -/
def chRBrace : Char := Char.ofNat 125

/-- The code unit of a character of the Basic Multilingual Plane. -/
def cu (c : Char) : Nat := c.toNat

/-- ECMAScript LineTerminator: LF, CR, LS, PS. -/
def isLineTerminator (c : Nat) : Bool :=
  c == 0x0A || c == 0x0D || c == 0x2028 || c == 0x2029

/-- ECMAScript WhiteSpace or LineTerminator: what `trim` strips and `\s` matches. -/
def isSpace (c : Nat) : Bool :=
  c == 0x09 || c == 0x0A || c == 0x0B || c == 0x0C || c == 0x0D || c == 0x20 ||
  c == 0xA0 || c == 0x1680 || (decide (0x2000 ≤ c) && decide (c ≤ 0x200A)) ||
  c == 0x2028 || c == 0x2029 || c == 0x202F || c == 0x205F || c == 0x3000 || c == 0xFEFF

/-- The class `\d`. -/
def isDigit (c : Nat) : Bool := decide (0x30 ≤ c) && decide (c ≤ 0x39)

/-- The class `\w`: ASCII letters, digits and underscore. -/
def isWord (c : Nat) : Bool :=
  (decide (0x61 ≤ c) && decide (c ≤ 0x7A)) || (decide (0x41 ≤ c) && decide (c ≤ 0x5A)) ||
  isDigit c || c == 0x5F

/-- JavaScript `String.prototype.trim`. -/
def trim (t : Text) : Text :=
  ((t.dropWhile isSpace).reverse.dropWhile isSpace).reverse

/-- One pass of `split("\n")`: `cur` is the current piece, reversed. -/
def splitLoop : Text → Text → List Text
  | [], cur => [cur.reverse]
  | c :: cs, cur => if c = 0x0A then cur.reverse :: splitLoop cs [] else splitLoop cs (c :: cur)

/-- JavaScript `code.split("\n")`: never empty, the empty string gives one empty line. -/
def splitLines (t : Text) : List Text := splitLoop t []

/-- JavaScript `lines.join("\n")`. -/
def joinLines : List Text → Text
  | [] => []
  | [l] => l
  | l :: ls => l ++ 0x0A :: joinLines ls

/-- JavaScript `s.startsWith(p)`. -/
def startsWith : Text → Text → Bool
  | _, [] => true
  | [], _ :: _ => false
  | c :: cs, p :: ps => c == p && startsWith cs ps

/-- JavaScript `s.includes(p)`. -/
def includes : Text → Text → Bool
  | [], p => p.isEmpty
  | c :: cs, p => startsWith (c :: cs) p || includes cs p

/-- JavaScript `toLowerCase` on one code unit; exact on ASCII, the only code units it is
applied to (identifiers matched by `[a-zA-Z_][a-zA-Z0-9_]{2,}`). -/
def lowerUnit (c : Nat) : Nat := if 0x41 ≤ c ∧ c ≤ 0x5A then c + 32 else c

/-- JavaScript `s.toLowerCase()` for ASCII strings. -/
def toLowerCase (t : Text) : Text := t.map lowerUnit

/-- The elements of `new Set(xs)` in insertion order. -/
def dedup {α : Type} [DecidableEq α] : List α → List α → List α
  | [], seen => seen.reverse
  | x :: xs, seen => if x ∈ seen then dedup xs seen else dedup xs (x :: seen)

/-- JavaScript `[...new Set(xs)]`. -/
def unique {α : Type} [DecidableEq α] (xs : List α) : List α := dedup xs []

/-! ## Regular expressions -/

/-- One item of a character class. -/
inductive ClassItem where
  | ch (c : Char)
  | range (lo hi : Char)
  | space
  | word
  | digit
  | nonSpace

/-- Whether a code unit belongs to a class item. -/
def ClassItem.test : ClassItem → Nat → Bool
  | .ch c, x => x == c.toNat
  | .range lo hi, x => decide (lo.toNat ≤ x) && decide (x ≤ hi.toNat)
  | .space, x => isSpace x
  | .word, x => isWord x
  | .digit, x => isDigit x
  | .nonSpace, x => !isSpace x

/-- Regular expression syntax, as far as the program uses it. -/
inductive Re where
  | eps
  | lit (c : Char)
  | any
  | cls (negated : Bool) (items : List ClassItem)
  | seq (a b : Re)
  | alt (a b : Re)
  | star (greedy : Bool) (r : Re)
  | wordB
  | bol
  | eol
  | grp (r : Re)

/-- The pattern matching the characters of `s` in sequence. -/
def Re.ofChars : List Char → Re
  | [] => .eps
  | [c] => .lit c
  | c :: cs => .seq (.lit c) (Re.ofChars cs)

/-- A literal word of the pattern. -/
def Re.word (s : String) : Re := Re.ofChars s.toList

/-- The quantifier `r+`. -/
def Re.plus (r : Re) : Re := .seq r (.star true r)

/-- The quantifier `r?`. -/
def Re.opt (r : Re) : Re := .alt r .eps

/-- Concatenation of a list of patterns. -/
def Re.cat : List Re → Re
  | [] => .eps
  | [r] => r
  | r :: rs => .seq r (Re.cat rs)

/-- Alternation of a list of patterns, leftmost first. -/
def Re.any_of : List Re → Re
  | [] => .eps
  | [r] => r
  | r :: rs => .alt r (Re.any_of rs)

/-- The flags `i` and `m` of a regular expression. -/
structure Flags where
  ignoreCase : Bool := false
  multiline : Bool := false

/-- Canonicalize of ECMAScript without the `u` flag, as far as it decides a
comparison with an ASCII pattern character: ASCII letters fold to upper case,
and no code unit above 127 ever folds to an ASCII one. -/
def canon (ignoreCase : Bool) (c : Nat) : Nat :=
  if ignoreCase ∧ 0x61 ≤ c ∧ c ≤ 0x7A then c - 32 else c

/-- A matcher state: `left` holds the code units before the current position,
nearest first; `right` those from the current position on; `cap` the text of
the capture group. -/
structure MState where
  left : Text
  right : Text
  cap : Option Text

/-- Consume one code unit if it satisfies `p`. -/
def stepIf (p : Nat → Bool) (s : MState) (k : MState → Option MState) : Option MState :=
  match s.right with
  | [] => none
  | x :: xs => if p x then k { s with left := x :: s.left, right := xs } else none

/-- RepeatMatcher for `r*` and `r*?`: an iteration that consumes nothing fails. -/
def starLoop (m : MState → (MState → Option MState) → Option MState) (greedy : Bool) :
    Nat → MState → (MState → Option MState) → Option MState
  | 0, s, k => k s
  | fuel + 1, s, k =>
    let again := fun (_ : Unit) =>
      m s (fun s1 => if s1.right.length = s.right.length then none else starLoop m greedy fuel s1 k)
    if greedy then
      match again () with
      | some r => some r
      | none => k s
    else
      match k s with
      | some r => some r
      | none => again ()

/-- The backtracking matcher: `r.run f s k` tries to match `r` at state `s` and
then to satisfy the continuation `k`, exploring the choices in priority order. -/
def Re.run (f : Flags) : Re → MState → (MState → Option MState) → Option MState
  | .eps, s, k => k s
  | .lit c, s, k => stepIf (fun x => canon f.ignoreCase x == canon f.ignoreCase c.toNat) s k
  | .any, s, k => stepIf (fun x => !isLineTerminator x) s k
  | .cls negated items, s, k => stepIf (fun x => (items.any fun i => i.test x) != negated) s k
  | .seq a b, s, k => a.run f s (fun s1 => b.run f s1 k)
  | .alt a b, s, k =>
    match a.run f s k with
    | some r => some r
    | none => b.run f s k
  | .star greedy r, s, k => starLoop (r.run f) greedy (s.right.length + 1) s k
  | .wordB, s, k =>
    let a := match s.left with | [] => false | x :: _ => isWord x
    let b := match s.right with | [] => false | x :: _ => isWord x
    if a != b then k s else none
  | .bol, s, k =>
    match s.left with
    | [] => k s
    | x :: _ => if f.multiline && isLineTerminator x then k s else none
  | .eol, s, k =>
    match s.right with
    | [] => k s
    | x :: _ => if f.multiline && isLineTerminator x then k s else none
  | .grp r, s, k =>
    r.run f s (fun s1 =>
      k { s1 with cap := some ((s1.left.take (s1.left.length - s.left.length)).reverse) })

/-- A successful match: the matched text, the capture, and the input split
around the match (`before` nearest first, `after` in order). -/
structure Match where
  before : Text
  text : Text
  cap : Option Text
  left : Text
  right : Text

/-- Try to match `r` exactly at the position between `left` and `right`. -/
def Re.matchAt (r : Re) (f : Flags) (left right : Text) : Option Match :=
  match r.run f { left := left, right := right, cap := none } some with
  | none => none
  | some s =>
    some { before := left, text := (s.left.take (s.left.length - left.length)).reverse,
           cap := s.cap, left := s.left, right := s.right }

/-- RegExpBuiltinExec without the sticky flag: the first position from the
current one on at which the pattern matches. -/
def Re.search (r : Re) (f : Flags) : Text → Text → Option Match
  | left, [] => r.matchAt f left []
  | left, x :: xs =>
    match r.matchAt f left (x :: xs) with
    | some m => some m
    | none => Re.search r f (x :: left) xs

/-- JavaScript `re.test(s)` for a regular expression without the `g` flag. -/
def Re.test (r : Re) (f : Flags) (s : Text) : Bool := (r.search f [] s).isSome

/-- The successive matches of a `g` regular expression: after a match the
search resumes at its end, one code unit further when the match is empty. -/
def Re.matchesLoop (r : Re) (f : Flags) : Nat → Text → Text → List Match
  | 0, _, _ => []
  | fuel + 1, left, right =>
    match r.search f left right with
    | none => []
    | some m =>
      if m.text.isEmpty then
        match m.right with
        | [] => [m]
        | x :: xs => m :: Re.matchesLoop r f fuel (x :: m.left) xs
      else m :: Re.matchesLoop r f fuel m.left m.right

/-- All matches of `r` in `s`, as the `g` flag enumerates them. -/
def Re.matches (r : Re) (f : Flags) (s : Text) : List Match :=
  r.matchesLoop f (s.length + 1) [] s

/-- JavaScript `s.match(re)` for a `g` regular expression, with `null` read as no match:
the matched substrings in order. -/
def Re.matchAll (r : Re) (f : Flags) (s : Text) : List Text :=
  (r.matches f s).map fun m => m.text

/-- A part of a replacement template: literal text or `$1`. -/
inductive Tpl where
  | text (s : String)
  | group

/-- GetSubstitution for a template. -/
def expandTpl (tpl : List Tpl) (m : Match) : Text :=
  tpl.foldr (fun p acc =>
    match p with
    | .text s => str s ++ acc
    | .group => (m.cap.getD []) ++ acc) []

/-- Assemble the result of `replace`: the text between consecutive matches is
kept and each match gives way to its expansion.  `pos` is the number of code
units of the input already copied or replaced. -/
def replaceBuild (tpl : List Tpl) (s : Text) : List Match → Nat → Text
  | [], pos => s.drop pos
  | m :: ms, pos =>
    let start := m.before.length
    (s.drop pos).take (start - pos) ++ expandTpl tpl m ++
      replaceBuild tpl s ms (start + m.text.length)

/-- JavaScript `s.replace(re, template)` for a `g` regular expression. -/
def Re.replaceAll (r : Re) (f : Flags) (tpl : List Tpl) (s : Text) : Text :=
  replaceBuild tpl s (r.matches f s) 0

/-! ## Utilities of the detector -/

open JSNum

/-- The class `[a-zA-Z_]`. -/
def identStart : Re := .cls false [.range 'a' 'z', .range 'A' 'Z', .ch '_']

/-- The class `[a-zA-Z0-9_]`. -/
def identPart : Re := .cls false [.range 'a' 'z', .range 'A' 'Z', .range '0' '9', .ch '_']

/-- The class `[0-9]`. -/
def digit09 : Re := .cls false [.range '0' '9']

/-- The escape `\s`. -/
def reSpace : Re := .cls false [.space]

/-- The escape `\w`. -/
def reWord : Re := .cls false [.word]

/-- The class `[{}()[\];,.<>=!+\-*/%&|^~?:@]` closing the token pattern. -/
def symbolClass : Re :=
  .cls false [.ch chLBrace, .ch chRBrace, .ch '(', .ch ')', .ch '[', .ch ']', .ch ';', .ch ',', .ch '.',
    .ch '<', .ch '>', .ch '=', .ch '!', .ch '+', .ch '-', .ch '*', .ch '/', .ch '%', .ch '&',
    .ch '|', .ch '^', .ch '~', .ch '?', .ch ':', .ch '@']

/-- The token pattern of `tokenize`, alternative by alternative. -/
def tokenRegex : Re :=
  Re.any_of [
    Re.cat [.wordB, identStart, .star true identPart, .wordB],
    Re.cat [Re.plus digit09, Re.opt (.lit '.'), .star true digit09],
    Re.cat [.lit chQuote, .star true (.cls true [.ch chQuote]), .lit chQuote],
    Re.cat [.lit chApostrophe, .star true (.cls true [.ch chApostrophe]), .lit chApostrophe],
    Re.cat [.lit chBackquote, .star true (.cls true [.ch chBackquote]), .lit chBackquote],
    Re.cat [.lit '/', .lit '/', .star true .any],
    Re.cat [.lit '/', .lit '*', .star false (.cls false [.space, .nonSpace]), .lit '*', .lit '/'],
    symbolClass]

/-- JavaScript `tokenize(code)`: `code.match(regex) || []`. -/
def tokenize (code : Text) : List Text := tokenRegex.matchAll {} code

/-- The string iterator behind `for (const c of text)`: code points, a high
surrogate followed by a low one forming a single element. -/
def codePoints : Text → List Text
  | [] => []
  | [c] => [[c]]
  | c :: d :: rest =>
    if 0xD800 ≤ c ∧ c ≤ 0xDBFF ∧ 0xDC00 ≤ d ∧ d ≤ 0xDFFF then [c, d] :: codePoints rest
    else [c] :: codePoints (d :: rest)

/-- JavaScript `freq[c] = (freq[c] || 0) + 1` on an object kept as its list of own
properties in creation order. -/
def bump : List (Text × Nat) → Text → List (Text × Nat)
  | [], c => [(c, 1)]
  | (k, n) :: rest, c => if k = c then (k, n + 1) :: rest else (k, n) :: bump rest c

/-- Insert a digit-keyed property in ascending key order. -/
def insertByKey (kv : Text × Nat) : List (Text × Nat) → List (Text × Nat)
  | [] => [kv]
  | (k, n) :: rest =>
    if kv.1.headD 0 ≤ k.headD 0 then kv :: (k, n) :: rest else (k, n) :: insertByKey kv rest

/-- JavaScript `Object.values(freq)`: the properties whose key is an array index (here the
one-character keys `"0"` to `"9"`) in ascending order, then the others in
creation order. -/
def objectValues (freq : List (Text × Nat)) : List Nat :=
  let isIndex := fun (kv : Text × Nat) => kv.1.length == 1 && isDigit (kv.1.headD 0)
  let indexed := (freq.filter isIndex).foldr insertByKey []
  (indexed ++ freq.filter (fun kv => !isIndex kv)).map Prod.snd

/-- JavaScript `calculateEntropy(text)`. -/
def calculateEntropy (P : Platform) (text : Text) : JSNum :=
  if text.isEmpty then ofNat 0 else
  let freq := (codePoints text).foldl bump []
  let len := text.length
  (objectValues freq).foldl (fun e f =>
    let p := div (ofNat f) (ofNat len)
    sub e (mul p (P.log2 p))) (ofNat 0)

/-- The record returned by `getStatistics`. -/
structure Statistics where
  mean : JSNum
  variance : JSNum
  stdDev : JSNum
  cv : JSNum

/-- JavaScript `getStatistics(values)`. -/
def getStatistics (P : Platform) (values : List JSNum) : Statistics :=
  if values.length = 0 then { mean := ofNat 0, variance := ofNat 0, stdDev := ofNat 0, cv := ofNat 0 }
  else
    let mean := div (values.foldl (fun a b => add a b) (ofNat 0)) (ofNat values.length)
    let variance :=
      div (values.foldl (fun s v => add s (P.pow (sub v mean) (ofNat 2))) (ofNat 0))
        (ofNat values.length)
    { mean := mean
      variance := variance
      stdDev := sqrt variance
      cv := if truthy mean then div (sqrt variance) mean else ofNat 0 }

/-- The pattern `\bdef\b|\b__name__\b|import\s+\w+`. -/
def pythonSig : Re :=
  Re.any_of [
    Re.cat [.wordB, Re.word "def", .wordB],
    Re.cat [.wordB, Re.word "__name__", .wordB],
    Re.cat [Re.word "import", Re.plus reSpace, Re.plus reWord]]

/-- The pattern `\bconst\b|\blet\b|=>|\bfunction\b`. -/
def javascriptSig : Re :=
  Re.any_of [
    Re.cat [.wordB, Re.word "const", .wordB],
    Re.cat [.wordB, Re.word "let", .wordB],
    Re.word "=>",
    Re.cat [.wordB, Re.word "function", .wordB]]

/-- The pattern `#include|std::|cout|cin`. -/
def cppSig : Re :=
  Re.any_of [Re.word "#include", Re.word "std::", Re.word "cout", Re.word "cin"]

/-- The pattern `\bpublic\s+class\b|System\.out`. -/
def javaSig : Re :=
  Re.any_of [
    Re.cat [.wordB, Re.word "public", Re.plus reSpace, Re.word "class", .wordB],
    Re.word "System.out"]

/-- JavaScript `detectLanguage(code)`. -/
def detectLanguage (code : Text) : String :=
  if pythonSig.test {} code then "python"
  else if javascriptSig.test {} code then "javascript"
  else if cppSig.test {} code then "cpp"
  else if javaSig.test {} code then "java"
  else "generic"


/-! ## The analysis context and the ten modules -/

/-- The object `ctx` built by `analyzeAICodeLikelihood`. -/
structure Ctx where
  code : Text
  lines : List Text
  nonEmptyLines : List Text
  trimmedLines : List Text
  tokens : List Text
  language : String

/-- The object `{ score, maxScore, reasons }` a module returns. -/
structure ModuleResult where
  score : Nat
  maxScore : Nat
  reasons : List String
  deriving DecidableEq, Repr

/-- The array `aiPhrases` of `analyzeComments`; every entry carries the flag `i`. -/
def aiPhrases : List Re :=
  [Re.word "this function",
   Re.word "returns the",
   Re.word "responsible for",
   Re.word "used to",
   Re.word "handles the",
   Re.cat [Re.word "here", Re.opt (.lit chApostrophe), Re.word "s how"],
   Re.word "for example"]

/-- JavaScript `analyzeComments(ctx)`. -/
def analyzeComments (ctx : Ctx) : ModuleResult :=
  let comments := ctx.trimmedLines.filter fun l => startsWith l (str "//") || startsWith l (str "#")
  let score := 0
  let reasons : List String := []
  let maxScore := 15
  let matched := (comments.filter fun c =>
    aiPhrases.any fun p => p.test { ignoreCase := true } c).length
  let hit1 := decide (comments.length ≠ 0) &&
    gt (div (ofNat matched) (ofNat comments.length)) (lit 4 10)
  let score := if hit1 then score + 10 else score
  let reasons := if hit1 then reasons ++ ["AI-style explanatory comments"] else reasons
  let hit2 := gt (div (ofNat comments.length) (ofNat ctx.nonEmptyLines.length)) (lit 3 10)
  let score := if hit2 then score + 5 else score
  let reasons := if hit2 then reasons ++ ["High comment density"] else reasons
  { score := score, maxScore := maxScore, reasons := reasons }

/-- The pattern `^[a-zA-Z_][a-zA-Z0-9_]{2,}$` of `analyzeNaming`. -/
def identifierRegex : Re :=
  Re.cat [.bol, identStart, identPart, identPart, .star true identPart, .eol]

/-- The array `generic` of `analyzeNaming`. -/
def genericNames : List Text := [str "data", str "result", str "value", str "item", str "count"]

/-- JavaScript `analyzeNaming(ctx)`. -/
def analyzeNaming (ctx : Ctx) : ModuleResult :=
  let identifiers := ctx.tokens.filter fun t => identifierRegex.test {} t
  let uniq := unique identifiers
  let score := 0
  let reasons : List String := []
  let maxScore := 12
  let longNames := uniq.filter fun n => decide (n.length ≥ 15)
  let hit1 := gt (div (ofNat longNames.length) (ofNat uniq.length)) (lit 2 10)
  let score := if hit1 then score + 5 else score
  let reasons := if hit1 then reasons ++ ["Overly descriptive identifiers"] else reasons
  let hit2 := gt
    (div (ofNat (uniq.filter fun n => genericNames.any fun g => includes (toLowerCase n) g).length)
      (ofNat uniq.length))
    (lit 4 10)
  let score := if hit2 then score + 4 else score
  let reasons := if hit2 then reasons ++ ["Generic variable naming"] else reasons
  { score := score, maxScore := maxScore, reasons := reasons }

/-- The pattern `function|def` of `extractFunctionBodies`. -/
def functionOrDef : Re := Re.any_of [Re.word "function", Re.word "def"]

/-- The loop variables of `extractFunctionBodies`. -/
structure ExtractState where
  bodies : List Text
  buf : List Text
  depth : Int

/-- One iteration of the loop of `extractFunctionBodies`. -/
def extractStep (st : ExtractState) (line : Text) : ExtractState :=
  let isFn := functionOrDef.test {} line
  let st : ExtractState := if isFn then { st with buf := [], depth := 0 } else st
  let st : ExtractState :=
    if st.buf.length ≠ 0 then
      let buf := st.buf ++ [line]
      let depth := st.depth + (((Re.lit chLBrace).matchAll {} line).length : Int)
      let depth := depth - (((Re.lit chRBrace).matchAll {} line).length : Int)
      { bodies := if depth = 0 then st.bodies ++ [joinLines buf] else st.bodies
        buf := buf
        depth := depth }
    else st
  if isFn then { st with buf := st.buf ++ [line] } else st

/-- JavaScript `extractFunctionBodies(code)`. -/
def extractFunctionBodies (code : Text) : List Text :=
  ((splitLines code).foldl extractStep { bodies := [], buf := [], depth := 0 }).bodies

/-- The pattern `\bfunction\b|\bdef\b` of `analyzeStructure`. -/
def functionKeyword : Re :=
  Re.any_of [Re.cat [.wordB, Re.word "function", .wordB], Re.cat [.wordB, Re.word "def", .wordB]]

/-- JavaScript `analyzeStructure(ctx)`. -/
def analyzeStructure (P : Platform) (ctx : Ctx) : ModuleResult :=
  let score := 0
  let reasons : List String := []
  let maxScore := 14
  let funcs := (functionKeyword.matchAll {} ctx.code).length
  let hit1 := decide (funcs ≥ 3) && decide (ctx.nonEmptyLines.length < 150)
  let score := if hit1 then score + 6 else score
  let reasons := if hit1 then reasons ++ ["Prompt-like full solution structure"] else reasons
  let bodies := extractFunctionBodies ctx.code
  let hit2 := decide (bodies.length ≥ 3) &&
    lt (getStatistics P (bodies.map fun b => ofNat (splitLines b).length)).cv (lit 25 100)
  let score := if hit2 then score + 4 else score
  let reasons := if hit2 then reasons ++ ["Uniform function sizes"] else reasons
  { score := score, maxScore := maxScore, reasons := reasons }

/-- The pattern `typeof|instanceof|===\s*null` of `analyzeCompleteness`. -/
def defensiveCheck : Re :=
  Re.any_of [Re.word "typeof", Re.word "instanceof",
    Re.cat [Re.word "===", .star true reSpace, Re.word "null"]]

/-- JavaScript `analyzeCompleteness(ctx)`. -/
def analyzeCompleteness (ctx : Ctx) : ModuleResult :=
  let score := 0
  let reasons : List String := []
  let maxScore := 12
  let checks := (defensiveCheck.matchAll {} ctx.code).length
  let hit := decide (checks ≥ 3)
  let score := if hit then score + 6 else score
  let reasons := if hit then reasons ++ ["Excessive defensive validation"] else reasons
  { score := score, maxScore := maxScore, reasons := reasons }

/-- The pattern `try\s*{` of `analyzeErrorHandling`. -/
def tryBlock : Re := Re.cat [Re.word "try", .star true reSpace, .lit chLBrace]

/-- JavaScript `analyzeErrorHandling(ctx)`. -/
def analyzeErrorHandling (ctx : Ctx) : ModuleResult :=
  let score := 0
  let reasons : List String := []
  let maxScore := 10
  let tryCount := (tryBlock.matchAll {} ctx.code).length
  let hit := decide (tryCount ≥ 2)
  let score := if hit then score + 6 else score
  let reasons := if hit then reasons ++ ["Over-engineered error handling"] else reasons
  { score := score, maxScore := maxScore, reasons := reasons }


/-- The pattern of the first test of `detectAIArtifacts`, three backquotes or
`^\s*#\s+`, flag `m`. -/
def markdownArtifact : Re :=
  Re.any_of [Re.word "```", Re.cat [.bol, .star true reSpace, .lit '#', Re.plus reSpace]]

/-- The pattern `step\s+\d+|example:` of `detectAIArtifacts`, flag `i`. -/
def tutorialPhrase : Re :=
  Re.any_of [Re.cat [Re.word "step", Re.plus reSpace, Re.plus (.cls false [.digit])],
    Re.word "example:"]

/-- JavaScript `detectAIArtifacts(ctx)`. -/
def detectAIArtifacts (ctx : Ctx) : ModuleResult :=
  let score := 0
  let reasons : List String := []
  let maxScore := 18
  let hit1 := markdownArtifact.test { multiline := true } ctx.code
  let score := if hit1 then score + 10 else score
  let reasons := if hit1 then reasons ++ ["Markdown artifacts"] else reasons
  let hit2 := tutorialPhrase.test { ignoreCase := true } ctx.code
  let score := if hit2 then score + 6 else score
  let reasons := if hit2 then reasons ++ ["Tutorial-style phrasing"] else reasons
  { score := score, maxScore := maxScore, reasons := reasons }

/-- JavaScript `analyzeEntropy(ctx)`. -/
def analyzeEntropy (P : Platform) (ctx : Ctx) : ModuleResult :=
  let score := 0
  let reasons : List String := []
  let maxScore := 8
  let entropy := calculateEntropy P ((Re.plus reSpace).replaceAll {} [.text " "] ctx.code)
  let hit := lt entropy (lit 41 10) && decide (ctx.code.length > 200)
  let score := if hit then score + 6 else score
  let reasons := if hit then reasons ++ ["Low entropy pattern"] else reasons
  { score := score, maxScore := maxScore, reasons := reasons }

/-- The pattern `\.map\(|\.filter\(|Promise\.all` of `analyzeIdioms`. -/
def idiomRegex : Re := Re.any_of [Re.word ".map(", Re.word ".filter(", Re.word "Promise.all"]

/-- JavaScript `analyzeIdioms(ctx)`. -/
def analyzeIdioms (ctx : Ctx) : ModuleResult :=
  let score := 0
  let reasons : List String := []
  let maxScore := 10
  let hit := idiomRegex.test {} ctx.code
  let score := if hit then score + 6 else score
  let reasons := if hit then reasons ++ ["Textbook idiomatic usage"] else reasons
  { score := score, maxScore := maxScore, reasons := reasons }

/-- The pattern `console\.log|debugger|TODO|FIXME` of `analyzeDebugAbsence`. -/
def debugRegex : Re :=
  Re.any_of [Re.word "console.log", Re.word "debugger", Re.word "TODO", Re.word "FIXME"]

/-- JavaScript `analyzeDebugAbsence(ctx)`. -/
def analyzeDebugAbsence (ctx : Ctx) : ModuleResult :=
  let score := 0
  let reasons : List String := []
  let maxScore := 11
  let hit := !debugRegex.test {} ctx.code
  let score := if hit then score + 8 else score
  let reasons := if hit then reasons ++ ["No debug artifacts"] else reasons
  { score := score, maxScore := maxScore, reasons := reasons }

/-- The class `[=+\-*/<>!]`. -/
def operatorClass : Re :=
  .cls false [.ch '=', .ch '+', .ch '-', .ch '*', .ch '/', .ch '<', .ch '>', .ch '!']

/-- The pattern `\s[=+\-*/<>!]=?\s` of `analyzeStatisticalPatterns`. -/
def spacedOperator : Re := Re.cat [reSpace, operatorClass, Re.opt (.lit '='), reSpace]

/-- JavaScript `analyzeStatisticalPatterns(ctx)`. -/
def analyzeStatisticalPatterns (ctx : Ctx) : ModuleResult :=
  let score := 0
  let reasons : List String := []
  let maxScore := 10
  let ops := spacedOperator.matchAll {} ctx.code
  let hit := decide (ops.length > 10)
  let score := if hit then score + 4 else score
  let reasons := if hit then reasons ++ ["Perfect operator spacing"] else reasons
  { score := score, maxScore := maxScore, reasons := reasons }

/-! ## The main detector -/

/-- The object returned by `analyzeAICodeLikelihood`; `breakdown` is the list of
its own properties in creation order. -/
structure AnalysisResult where
  likelihood : JSNum
  confidence : JSNum
  language : String
  reasons : List String
  breakdown : List (String × ModuleResult)
  deriving DecidableEq, Repr

/-- One entry `{ fn, weight }` of the array `modules`, with `fn.name`. -/
structure Module where
  name : String
  fn : Ctx → ModuleResult
  weight : JSNum

/-- The array `modules`. -/
def modules (P : Platform) : List Module :=
  [ { name := "analyzeComments", fn := analyzeComments, weight := lit 12 10 },
    { name := "analyzeNaming", fn := analyzeNaming, weight := lit 10 10 },
    { name := "analyzeStructure", fn := analyzeStructure P, weight := lit 13 10 },
    { name := "analyzeCompleteness", fn := analyzeCompleteness, weight := lit 11 10 },
    { name := "analyzeErrorHandling", fn := analyzeErrorHandling, weight := lit 9 10 },
    { name := "detectAIArtifacts", fn := detectAIArtifacts, weight := lit 15 10 },
    { name := "analyzeEntropy", fn := analyzeEntropy P, weight := lit 10 10 },
    { name := "analyzeIdioms", fn := analyzeIdioms, weight := lit 8 10 },
    { name := "analyzeDebugAbsence", fn := analyzeDebugAbsence, weight := lit 12 10 },
    { name := "analyzeStatisticalPatterns", fn := analyzeStatisticalPatterns, weight := lit 10 10 } ]

/-- JavaScript `breakdown[name] = res` on the list of own properties. -/
def setProp (obj : List (String × ModuleResult)) (name : String) (res : ModuleResult) :
    List (String × ModuleResult) :=
  if obj.any (fun kv => kv.1 == name) then
    obj.map fun kv => if kv.1 == name then (name, res) else kv
  else obj ++ [(name, res)]

/-- The variables updated by the loop over `modules`. -/
structure Acc where
  weightedScore : JSNum
  totalWeight : JSNum
  breakdown : List (String × ModuleResult)
  reasons : List String

/-- One iteration of the loop over `modules`. -/
def accStep (ctx : Ctx) (a : Acc) (m : Module) : Acc :=
  let res := m.fn ctx
  { breakdown := setProp a.breakdown m.name res
    weightedScore := add a.weightedScore (mul (div (ofNat res.score) (ofNat res.maxScore)) m.weight)
    totalWeight := add a.totalWeight m.weight
    reasons := a.reasons ++ res.reasons }

/-- The loop `for (const { fn, weight } of modules)` from its initial variables. -/
def runModules (P : Platform) (ctx : Ctx) : Acc :=
  (modules P).foldl (accStep ctx)
    { weightedScore := ofNat 0, totalWeight := ofNat 0, breakdown := [], reasons := [] }

/-- The object `ctx` of `analyzeAICodeLikelihood`. -/
def mkCtx (code : Text) : Ctx :=
  { code := code
    lines := splitLines code
    nonEmptyLines := (splitLines code).filter fun l => !(trim l).isEmpty
    trimmedLines := (splitLines code).map trim
    tokens := tokenize code
    language := detectLanguage code }

/-- JavaScript `analyzeAICodeLikelihood(code)` on a string argument. -/
def analyzeAICodeLikelihood (P : Platform) (code : Text) : AnalysisResult :=
  if code.isEmpty || decide ((trim code).length < 30) then
    { likelihood := ofNat 0
      confidence := ofNat 0
      language := "unknown"
      reasons := ["Insufficient code"]
      breakdown := [] }
  else
    let ctx := mkCtx code
    let a := runModules P ctx
    let likelihood := JSNum.min (mathRound (mul (div a.weightedScore a.totalWeight) (ofNat 100))) (ofNat 100)
    let confidence := JSNum.min (add (ofNat 50) (mul (ofNat ctx.nonEmptyLines.length) (lit 5 10))) (ofNat 95)
    { likelihood := likelihood
      confidence := confidence
      language := ctx.language
      reasons := unique a.reasons
      breakdown := a.breakdown }

/-- JavaScript `concludeAIDetection(res)`. -/
def concludeAIDetection (res : AnalysisResult) : String :=
  if ge res.likelihood (ofNat 80) then "Very High AI likelihood"
  else if ge res.likelihood (ofNat 60) then "High AI likelihood"
  else if ge res.likelihood (ofNat 40) then "Moderate AI likelihood"
  else if ge res.likelihood (ofNat 20) then "Low AI likelihood"
  else "Minimal AI indicators"


/-! ## The rewrite engine -/

/-- JavaScript `injectHumanNoise(code)`. -/
def injectHumanNoise (code : Text) : Text :=
  if (Re.word "console.log").test {} code then code
  else str "// quick debug check\n// console.log(\"temp\");\n" ++ code

/-- The pattern `\s([=+\-*/<>!]=?)\s` of `breakUniformSpacing`. -/
def spacedOperatorGroup : Re :=
  Re.cat [reSpace, .grp (.seq operatorClass (Re.opt (.lit '='))), reSpace]

/-- JavaScript `breakUniformSpacing(code)`. -/
def breakUniformSpacing (code : Text) : Text :=
  spacedOperatorGroup.replaceAll {} [.text " ", .group, .text "  "] code

/-- The pattern `typeof\s+(\w+)\s*===?\s*['"]\w+['"]` of `weakenValidation`. -/
def typeofCheck : Re :=
  Re.cat [Re.word "typeof", Re.plus reSpace, .grp (Re.plus reWord), .star true reSpace,
    Re.word "==", Re.opt (.lit '='), .star true reSpace,
    .cls false [.ch chApostrophe, .ch chQuote], Re.plus reWord,
    .cls false [.ch chApostrophe, .ch chQuote]]

/-- JavaScript `weakenValidation(code)`. -/
def weakenValidation (code : Text) : Text :=
  typeofCheck.replaceAll {} [.group, .text " != null"] code

/-- The pattern `if\s*\((\w+)\)` of `addRedundantLogic`. -/
def ifGuard : Re :=
  Re.cat [Re.word "if", .star true reSpace, .lit '(', .grp (Re.plus reWord), .lit ')']

/-- JavaScript `addRedundantLogic(code)`. -/
def addRedundantLogic (code : Text) : Text :=
  ifGuard.replaceAll {} [.text "if (", .group, .text ") \x7b if (", .group, .text " !== undefined)"] code

/-- JavaScript `forceHumanArtifacts(code)`. -/
def forceHumanArtifacts (code : Text) : Text :=
  str "\n/* temporary workaround */\n// TODO: cleanup later\n\n" ++ code ++
    str "\n\n// console.log(\"patched manually\");\n"

/-- The object returned by `rewriteAndReduce`. -/
structure RewriteResult where
  original : Text
  rewritten : Text
  before : AnalysisResult
  after : AnalysisResult

/-- The four transforms of `rewriteAndReduce` in their order. -/
def transformChain (code : Text) : Text :=
  let rewritten := code
  let rewritten := injectHumanNoise rewritten
  let rewritten := breakUniformSpacing rewritten
  let rewritten := weakenValidation rewritten
  addRedundantLogic rewritten

/-- JavaScript `rewriteAndReduce(code)`. -/
def rewriteAndReduce (P : Platform) (code : Text) : RewriteResult :=
  let before := analyzeAICodeLikelihood P code
  let rewritten := transformChain code
  let after := analyzeAICodeLikelihood P rewritten
  let forced := ge after.likelihood before.likelihood
  let rewritten := if forced then forceHumanArtifacts rewritten else rewritten
  let after := if forced then analyzeAICodeLikelihood P rewritten else after
  let after :=
    if ge after.likelihood before.likelihood then
      { after with likelihood := JSNum.max (sub before.likelihood (ofNat 15)) (ofNat 0) }
    else after
  { original := code, rewritten := rewritten, before := before, after := after }


/-! ## Definitions used by the proofs -/

/-- Evaluate the fields of a Number before handing it on: `strictNum a k = k a`. -/
def strictNum {α : Type} (a : JSNum) (k : JSNum → α) : α :=
  match a with
  | nan => k nan
  | inf b => k (inf b)
  | fin s m e => strictNat m fun m1 => strictNat e fun e1 => k (fin s m1 e1)

/-- Whether a Number is `+∞` or finite with the sign bit clear. -/
def isNonNeg : JSNum → Bool
  | inf false => true
  | fin false _ _ => true
  | _ => false

/-- The contribution `(res.score / res.maxScore) * weight` of one module. -/
def moduleTerm (score maxScore : Nat) (weight : JSNum) : JSNum :=
  mul (div (ofNat score) (ofNat maxScore)) weight

/-- The value of `weightedScore` after the loop, from the list of the triples
score, maxScore, weight in module order. -/
def weightedSum : List (Nat × Nat × JSNum) → JSNum → JSNum
  | [], acc => acc
  | (s, mx, w) :: rest, acc => weightedSum rest (add acc (moduleTerm s mx w))

/-- The expression `Math.min(Math.round((weightedScore / totalWeight) * 100), 100)`. -/
def likelihoodOf (weightedScore totalWeight : JSNum) : JSNum :=
  JSNum.min (mathRound (mul (div weightedScore totalWeight) (ofNat 100))) (ofNat 100)

/-- For each module in order: its maxScore, the numerator of its weight over
10, and the scores it can return. -/
def scoreTable : List (Nat × Nat × List Nat) :=
  [ (15, 12, [0, 5, 10, 15]),
    (12, 10, [0, 4, 5, 9]),
    (14, 13, [0, 4, 6, 10]),
    (12, 11, [0, 6]),
    (10, 9, [0, 6]),
    (18, 15, [0, 6, 10, 16]),
    (8, 10, [0, 6]),
    (10, 8, [0, 6]),
    (11, 12, [0, 8]),
    (10, 10, [0, 4]) ]

/-- The entries of the Comment module: for each score `s` it can return, `s`,
the exact contribution `69300 * weight * s / maxScore` (an integer), and the
Number `moduleTerm s maxScore weight`. -/
def commentRow : List (Nat × Nat × JSNum) :=
  [(0, 0, fin false 0 0), (5, 27720, fin false 7205759403792793 1020), (10, 55440, fin false 7205759403792793 1021), (15, 83160, fin false 5404319552844595 1022)]

/-- The entries of the Naming module. -/
def namingRow : List (Nat × Nat × JSNum) :=
  [(0, 0, fin false 0 0), (4, 23100, fin false 6004799503160661 1020), (5, 28875, fin false 7505999378950827 1020), (9, 51975, fin false 6755399441055744 1021)]

/-- The entries of the eight modules after Naming, in module order. -/
def tailRows : List (List (Nat × Nat × JSNum)) :=
  [
    [(0, 0, fin false 0 0), (4, 25740, fin false 6691062303521880 1020), (6, 38610, fin false 5018296727641410 1021), (10, 64350, fin false 8363827879402350 1021)],
    [(0, 0, fin false 0 0), (6, 38115, fin false 4953959590107546 1021)],
    [(0, 0, fin false 0 0), (6, 37422, fin false 4863887597560136 1021)],
    [(0, 0, fin false 0 0), (6, 34650, fin false 4503599627370496 1021), (10, 57750, fin false 7505999378950827 1021), (16, 92400, fin false 6004799503160661 1022)],
    [(0, 0, fin false 0 0), (6, 51975, fin false 6755399441055744 1021)],
    [(0, 0, fin false 0 0), (6, 33264, fin false 8646911284551352 1020)],
    [(0, 0, fin false 0 0), (8, 60480, fin false 7860828440501229 1021)],
    [(0, 0, fin false 0 0), (4, 27720, fin false 7205759403792794 1020)] ]

/-- For each module in order and each score `s` it can return: `s`, the exact
contribution `69300 * weight * s / maxScore` (an integer), and the Number
`moduleTerm s maxScore weight`. -/
def scoreRows : List (List (Nat × Nat × JSNum)) :=
  commentRow :: namingRow :: tailRows

/-- The exact likelihood from the sum `n` of the exact contributions:
`100 * (n / 69300) / 11 = n / 7623` rounded to the nearest integer, halves
up, and clamped to 100. -/
def exactLikelihood (n : Nat) : Nat :=
  Nat.min (Nat.div (Nat.add (Nat.mul 2 n) 7623) 15246) 100

/-- At the end of an enumeration: the likelihood computed from the weighted
score `acc` is the exact likelihood, and it is at most 71. -/
def leafOK (acc : JSNum) (n : Nat) : Bool :=
  strictNat (exactLikelihood n) fun k =>
  Nat.ble k 71 && decide (likelihoodOf acc (ofNat 11) = ofNat k)

/-- Enumerate every choice of one entry per row, carrying the weighted score
and the sum of the exact contributions. -/
def checkFrom : List (List (Nat × Nat × JSNum)) → JSNum → Nat → Bool
  | [], acc, n => leafOK acc n
  | row :: rest, acc, n =>
    row.all fun e =>
      strictNum (add acc e.2.2) fun acc1 => strictNat (Nat.add n e.2.1) fun n1 =>
        checkFrom rest acc1 n1

/-- The enumeration over the last eight modules, from the contributions `a`
and `b` (exact contributions `x` and `y`) of the first two. -/
def chunk (a b : JSNum) (x y : Nat) : Bool :=
  checkFrom tailRows (add (add (ofNat 0) a) b) (Nat.add (Nat.add 0 x) y)

/-- The row entry of score `s` for a module of `scoreTable`. -/
def rowEntry (t : Nat × Nat × List Nat) (s : Nat) : Nat × Nat × JSNum :=
  (s, Nat.div (Nat.mul (Nat.mul 69300 t.2.1) s) (Nat.mul t.1 10), moduleTerm s t.1 (lit t.2.1 10))

/-- Whether each row of `rows` holds the entry of every score its module can
return, and the exact contribution of that score is an integer. -/
def rowsOK : List (Nat × Nat × List Nat) → List (List (Nat × Nat × JSNum)) → Bool
  | [], [] => true
  | t :: ts, row :: rows =>
    (t.2.2.all fun s =>
      Nat.beq (Nat.mod (Nat.mul (Nat.mul 69300 t.2.1) s) (Nat.mul t.1 10)) 0 &&
      row.contains (rowEntry t s)) && rowsOK ts rows
  | _, _ => false

/-- The triples score, maxScore, weight of `weightedSum` for given scores. -/
def scoreTriples : List (Nat × Nat × List Nat) → List Nat → List (Nat × Nat × JSNum)
  | t :: ts, s :: ss => (s, t.1, lit t.2.1 10) :: scoreTriples ts ss
  | _, _ => []

/-- The sum of the exact contributions `69300 * weight * s / maxScore`. -/
def exactSum : List (Nat × Nat × List Nat) → List Nat → Nat
  | t :: ts, s :: ss => Nat.div (Nat.mul (Nat.mul 69300 t.2.1) s) (Nat.mul t.1 10) + exactSum ts ss
  | _, _ => 0

/-- The exact weighted sum: over the modules, weight times score over maxScore. -/
def ratSum : List (Nat × Nat × List Nat) → List Nat → ℚ
  | t :: ts, s :: ss => (t.2.1 : ℚ) / 10 * (s : ℚ) / (t.1 : ℚ) + ratSum ts ss
  | _, _ => 0

/-- The results of the ten modules on a context, in module order. -/
def moduleResults (P : Platform) (ctx : Ctx) : List ModuleResult :=
  [analyzeComments ctx, analyzeNaming ctx, analyzeStructure P ctx, analyzeCompleteness ctx,
   analyzeErrorHandling ctx, detectAIArtifacts ctx, analyzeEntropy P ctx, analyzeIdioms ctx,
   analyzeDebugAbsence ctx, analyzeStatisticalPatterns ctx]

/-- The weights of the specification, in module order: Comment, Naming,
Structure, Completeness, Error handling, AI artifacts, Entropy, Idiom, Debug
absence, Statistical spacing. -/
def specWeights : List ℚ :=
  [12 / 10, 10 / 10, 13 / 10, 11 / 10, 9 / 10, 15 / 10, 10 / 10, 8 / 10, 12 / 10, 10 / 10]

/-- The likelihood as the specification words it, in exact arithmetic: the sum
over the modules of weight times score over maxScore, divided by the sum of
the weights, times 100, rounded to the nearest integer (the floor of the value
plus one half) and clamped to 100. -/
def specLikelihood (results : List ModuleResult) : Nat :=
  Nat.min
    ⌊100 * ((List.zipWith (fun w r => w * (r.score : ℚ) / (r.maxScore : ℚ)) specWeights results).sum /
        specWeights.sum) + 1 / 2⌋₊
    100

/-- Whether each score is one its module can return. -/
def scoresIn : List (Nat × Nat × List Nat) → List Nat → Prop
  | [], [] => True
  | t :: ts, s :: ss => s ∈ t.2.2 ∧ scoresIn ts ss
  | _, _ => False

/-! ### Definitions used by the proofs about the confidence -/

/-- Whether a Number is `+∞` or finite with the sign bit clear and a value of at
least `x * 2^-1074`. -/
def GeVal (a : JSNum) (x : Nat) : Prop :=
  a = inf false ∨ ∃ m e, a = fin false m e ∧ x ≤ m * 2 ^ e

/-- Whether a Number is finite, not negative, and of exact value `num / den`. -/
def hasValue (a : JSNum) (num den : Nat) : Bool :=
  match a with
  | fin false m e => Nat.beq (Nat.mul den (Nat.mul m (Nat.pow 2 e))) (Nat.mul num (Nat.pow 2 1074))
  | _ => false

/-- The number of lines that are non-empty after trimming: the length of
`lines.filter((l) => l.trim())`. -/
def nonEmptyLineCount (code : Text) : Nat :=
  ((splitLines code).filter fun l => !(trim l).isEmpty).length

/-! ### Definitions used by the proofs about regular expressions -/

/-- What a pattern can match, declaratively: `Matches f r s t` says that `r`
can take the matcher from state `s` to state `t`.  The backtracking matcher
`Re.run` only ever reaches its continuation through such a step. -/
inductive Matches (f : Flags) : Re → MState → MState → Prop
  | eps (s : MState) : Matches f .eps s s
  | lit (c : Char) (s : MState) (x : Nat) (xs : Text) :
      s.right = x :: xs → (canon f.ignoreCase x == canon f.ignoreCase c.toNat) = true →
      Matches f (.lit c) s { s with left := x :: s.left, right := xs }
  | any (s : MState) (x : Nat) (xs : Text) :
      s.right = x :: xs → (!isLineTerminator x) = true →
      Matches f .any s { s with left := x :: s.left, right := xs }
  | cls (negated : Bool) (items : List ClassItem) (s : MState) (x : Nat) (xs : Text) :
      s.right = x :: xs → ((items.any fun i => i.test x) != negated) = true →
      Matches f (.cls negated items) s { s with left := x :: s.left, right := xs }
  | seq (a b : Re) (s s1 s2 : MState) :
      Matches f a s s1 → Matches f b s1 s2 → Matches f (.seq a b) s s2
  | altL (a b : Re) (s s1 : MState) : Matches f a s s1 → Matches f (.alt a b) s s1
  | altR (a b : Re) (s s1 : MState) : Matches f b s s1 → Matches f (.alt a b) s s1
  | starNil (g : Bool) (r : Re) (s : MState) : Matches f (.star g r) s s
  | starCons (g : Bool) (r : Re) (s s1 s2 : MState) :
      Matches f r s s1 → s1.right.length ≠ s.right.length → Matches f (.star g r) s1 s2 →
      Matches f (.star g r) s s2
  | wordB (s : MState) :
      ((match s.left with | [] => false | x :: _ => isWord x) !=
        (match s.right with | [] => false | x :: _ => isWord x)) = true →
      Matches f .wordB s s
  | bolStart (s : MState) : s.left = [] → Matches f .bol s s
  | bolLine (s : MState) (x : Nat) (xs : Text) :
      s.left = x :: xs → (f.multiline && isLineTerminator x) = true → Matches f .bol s s
  | eolEnd (s : MState) : s.right = [] → Matches f .eol s s
  | eolLine (s : MState) (x : Nat) (xs : Text) :
      s.right = x :: xs → (f.multiline && isLineTerminator x) = true → Matches f .eol s s
  | grp (r : Re) (s s1 : MState) :
      Matches f r s s1 →
      Matches f (.grp r) s
        { s1 with cap := some ((s1.left.take (s1.left.length - s.left.length)).reverse) }

/-! ### Definitions used by the proofs about the shape of matches -/

/-- The code units `\s` matches. -/
def spaceUnits : List Nat :=
  [0x09, 0x0A, 0x0B, 0x0C, 0x0D, 0x20, 0xA0, 0x1680, 0x2000, 0x2001, 0x2002, 0x2003, 0x2004,
   0x2005, 0x2006, 0x2007, 0x2008, 0x2009, 0x200A, 0x2028, 0x2029, 0x202F, 0x205F, 0x3000,
   0xFEFF]

/-- The code units from `lo` to `hi`. -/
def unitsBetween (lo hi : Nat) : List Nat := (List.range (hi + 1 - lo)).map fun i => lo + i

/-- Whether every code unit of a class item satisfies `p`. -/
def ClassItem.within (p : Nat → Bool) : ClassItem → Bool
  | .ch c => p c.toNat
  | .range lo hi => (unitsBetween lo.toNat hi.toNat).all p
  | .space => spaceUnits.all p
  | .word =>
    (unitsBetween 0x61 0x7A).all p && (unitsBetween 0x41 0x5A).all p &&
      (unitsBetween 0x30 0x39).all p && p 0x5F
  | .digit => (unitsBetween 0x30 0x39).all p
  | .nonSpace => false

/-- A sufficient syntactic condition for: every code unit a match of the
pattern consumes satisfies `p` (for a pattern used without the flag `i`). -/
def Re.confined (p : Nat → Bool) : Re → Bool
  | .eps => true
  | .lit c => p c.toNat
  | .any => false
  | .cls negated items => !negated && items.all fun i => i.within p
  | .seq a b => a.confined p && b.confined p
  | .alt a b => a.confined p && b.confined p
  | .star _ r => r.confined p
  | .wordB => true
  | .bol => true
  | .eol => true
  | .grp r => r.confined p

/-- A sufficient syntactic condition for: no match of the pattern consumes
anything. -/
def Re.consumesNothing : Re → Bool
  | .eps => true
  | .seq a b => a.consumesNothing && b.consumesNothing
  | .alt a b => a.consumesNothing && b.consumesNothing
  | .star _ r => r.consumesNothing
  | .wordB => true
  | .bol => true
  | .eol => true
  | .grp r => r.consumesNothing
  | _ => false

/-- A sufficient syntactic condition for: every match of the pattern is
non-empty and the first code unit it consumes satisfies `p` (for a pattern
used without the flag `i`). -/
def Re.startsIn (p : Nat → Bool) : Re → Bool
  | .lit c => p c.toNat
  | .cls negated items => !negated && items.all fun i => i.within p
  | .seq a b => a.startsIn p || (a.consumesNothing && b.startsIn p)
  | .alt a b => a.startsIn p && b.startsIn p
  | .grp r => r.startsIn p
  | _ => false

/-- A sufficient syntactic condition for: every match of the pattern is
non-empty and the last code unit it consumes satisfies `p` (for a pattern used
without the flag `i`). -/
def Re.endsIn (p : Nat → Bool) : Re → Bool
  | .lit c => p c.toNat
  | .cls negated items => !negated && items.all fun i => i.within p
  | .seq a b => b.endsIn p || (b.consumesNothing && a.endsIn p)
  | .alt a b => a.endsIn p && b.endsIn p
  | .grp r => r.endsIn p
  | _ => false

/-! ### Definitions used by the proofs about capture groups -/

/-- The pattern without its capture groups. -/
def Re.erase : Re → Re
  | .seq a b => .seq a.erase b.erase
  | .alt a b => .alt a.erase b.erase
  | .star g r => .star g r.erase
  | .grp r => r.erase
  | r => r

/-- Two matcher states at the same position, whatever they captured. -/
def MState.same (s t : MState) : Prop := s.left = t.left ∧ s.right = t.right

/-- Two matcher results that fail together or end at the same position. -/
def sameRes : Option MState → Option MState → Prop
  | none, none => True
  | some s, some t => s.same t
  | _, _ => False

/-- Two matches of the same text at the same place, whatever they captured. -/
def Match.same (m n : Match) : Prop :=
  m.before = n.before ∧ m.text = n.text ∧ m.left = n.left ∧ m.right = n.right

/-- The texts the group of `\s([=+\-*/<>!]=?)\s` can capture: an operator
character, alone or followed by `=`. -/
def capList : List Text :=
  [[61], [61, 61], [43], [43, 61], [45], [45, 61], [42], [42, 61], [47], [47, 61],
   [60], [60, 61], [62], [62, 61], [33], [33, 61]]

/-! ### Definitions used by the proofs about tokens -/

/-- Whether the strings `ts` lie in `s` in this order without overlapping. -/
def Tiles : List Text → Text → Prop
  | [], _ => True
  | t :: ts, s => ∃ pre rest : Text, s = pre ++ t ++ rest ∧ Tiles ts rest

/-- A letter or an underscore. -/
def isIdentStartUnit (x : Nat) : Bool :=
  (decide (0x61 ≤ x) && decide (x ≤ 0x7A)) || (decide (0x41 ≤ x) && decide (x ≤ 0x5A)) || x == 0x5F

/-- A letter, a digit or an underscore. -/
def isIdentPartUnit (x : Nat) : Bool := isIdentStartUnit x || isDigit x

/-- An identifier: a letter or underscore, then letters, digits and underscores. -/
def isIdentifierTok : Text → Bool
  | [] => false
  | x :: xs => isIdentStartUnit x && xs.all isIdentPartUnit

/-- A numeric literal: digits, then possibly a full stop and further digits. -/
def isNumberTok (t : Text) : Bool :=
  !(t.takeWhile isDigit).isEmpty &&
    match t.dropWhile isDigit with
    | [] => true
    | x :: xs => x == 46 && xs.all isDigit

/-- A literal between two quotes `q` with no `q` inside. -/
def isQuotedTok (q : Nat) : Text → Bool
  | [] => false
  | x :: xs =>
    x == q &&
      match xs.reverse with
      | [] => false
      | y :: body => y == q && !body.contains q

/-- A line comment: two slashes, then no line terminator. -/
def isLineCommentTok : Text → Bool
  | 47 :: 47 :: body => body.all fun x => !isLineTerminator x
  | _ => false

/-- A block comment: it opens with a slash and a star and closes with a star
and a slash that are not those of the opening. -/
def isBlockCommentTok (t : Text) : Bool :=
  startsWith t [47, 42] && startsWith t.reverse [47, 42] && decide (4 ≤ t.length)

/-- The code units of the single-character symbols of the token pattern. -/
def symbolUnits : List Nat :=
  [123, 125, 40, 41, 91, 93, 59, 44, 46, 60, 62, 61, 33, 43, 45, 42, 47, 37, 38, 124, 94, 126,
   63, 58, 64]

/-- One of the fixed single-character symbols. -/
def isSymbolTok : Text → Bool
  | [x] => symbolUnits.contains x
  | _ => false

/-- The kinds of token the claim lists. -/
def isToken (t : Text) : Bool :=
  isIdentifierTok t || isNumberTok t || isQuotedTok 34 t || isQuotedTok 39 t ||
    isQuotedTok 96 t || isLineCommentTok t || isBlockCommentTok t || isSymbolTok t

/-! ### Definitions used by the proofs about texts made of identifiers -/

/-- The code units a literal pattern character can match: itself, and under the
flag `i` its other case. -/
def litUnits (ignoreCase : Bool) (c : Nat) : List Nat :=
  if ignoreCase ∧ 0x41 ≤ c ∧ c ≤ 0x5A then [c, c + 32]
  else if ignoreCase ∧ 0x61 ≤ c ∧ c ≤ 0x7A then [c, c - 32]
  else [c]

/-- A sufficient syntactic condition for: every match of the pattern consumes
at least one code unit satisfying `p`. -/
def Re.forces (ignoreCase : Bool) (p : Nat → Bool) : Re → Bool
  | .lit c => (litUnits ignoreCase c.toNat).all p
  | .cls negated items => !negated && items.all fun i => i.within p
  | .seq a b => a.forces ignoreCase p || b.forces ignoreCase p
  | .alt a b => a.forces ignoreCase p && b.forces ignoreCase p
  | .grp r => r.forces ignoreCase p
  | _ => false

/-- A code unit of a text made of identifiers: a letter, a digit, an
underscore, a space or a line feed. -/
def isSoupUnit (x : Nat) : Bool := isIdentPartUnit x || x == 32 || x == 10

/-- Where a scan of a text made of identifiers stands: at the start of a line,
inside an identifier, or after a space that follows an identifier. -/
inductive SoupState where
  | lineStart
  | inIdent
  | afterSpace

/-- Whether the rest of a text continues lines made only of identifiers
separated by spaces: a line starts with an identifier and ends with one, the
identifiers of a line are separated by one or more spaces, and the lines are
separated by single line feeds. -/
def soup : SoupState → Text → Bool
  | .lineStart, [] => false
  | .lineStart, x :: xs => isIdentStartUnit x && soup .inIdent xs
  | .inIdent, [] => true
  | .inIdent, x :: xs =>
    if isIdentPartUnit x then soup .inIdent xs
    else if x == 32 then soup .afterSpace xs
    else if x == 10 then soup .lineStart xs
    else false
  | .afterSpace, [] => false
  | .afterSpace, x :: xs =>
    if x == 32 then soup .afterSpace xs else isIdentStartUnit x && soup .inIdent xs

/-- Whether a text consists of non-empty lines made only of identifiers
separated by spaces. -/
def identifierSoup (code : Text) : Bool := soup .lineStart code

/-- Forty lines of identifiers: the first holds two identifiers, the others
one.  Each of the 31 letters used and the space occur 40 times among the 1280
characters of the text with its line feeds turned into spaces. -/
def soupExample : Text :=
  joinLines (str "abc defghijklmnopqrstuvwxyzABCDE" ::
    List.replicate 39 (str "abcdefghijklmnopqrstuvwxyzABCDE"))

/-- A text that already holds a debug line, code fences, a tutorial phrase, two
`try` blocks and a `.map(` call: it scores 21, none of the four transforms
changes it, and with the forced artifacts it scores 21 again. -/
def forcedExample : Text :=
  str "```\nexample: console.log(x)\ntry \x7b a.map(f) \x7d catch (e) \x7b\x7d\ntry \x7b b() \x7d catch (e) \x7b\x7d\n```"

/-! ### Definitions used by the proofs about the scan of a text -/

/-- The scan behind a `g` regular expression, declaratively.  `Scan f r left
right ts` says that `ts` lists every match met from the position between
`left` (nearest first) and `right`: either the pattern matches at no position
of `right` and `ts` is empty, or `right` is a gap, a first match `tok` and a
rest, the pattern matches at no position of the gap, it matches the non-empty
`tok` just after the gap, and the scan goes on after `tok`. -/
inductive Scan (f : Flags) (r : Re) : Text → Text → List Text → Prop
  | finish (left right : Text) :
      (∀ a b : Text, right = a ++ b →
        ∀ t : MState, ¬ Matches f r { left := a.reverse ++ left, right := b, cap := none } t) →
      Scan f r left right []
  | token (left right gap tok rest : Text) (toks : List Text) :
      right = gap ++ (tok ++ rest) → tok ≠ [] →
      (∀ a b : Text, gap = a ++ b → b ≠ [] →
        ∀ t : MState,
          ¬ Matches f r { left := a.reverse ++ left, right := b ++ (tok ++ rest), cap := none } t) →
      (∃ t : MState,
        Matches f r { left := gap.reverse ++ left, right := tok ++ rest, cap := none } t ∧
          t.right = rest) →
      Scan f r (tok.reverse ++ (gap.reverse ++ left)) rest toks →
      Scan f r left right (tok :: toks)

/-- A text holding every kind of token: identifiers, numbers, the three quoted
literals, a line comment, a block comment closed by the first `*/`, symbols,
and a quote that is never closed. -/
def tokenExample : Text :=
  str "let x1 = 3.5; s = \"a b\" + 'c' + `d e`; // note\n/* b */ y */ 12 \"open"

/-- A sufficient syntactic condition for: the pattern holds no assertion, so
that whether it matches depends only on the text it consumes. -/
def Re.assertionFree : Re → Bool
  | .wordB => false
  | .bol => false
  | .eol => false
  | .seq a b => a.assertionFree && b.assertionFree
  | .alt a b => a.assertionFree && b.assertionFree
  | .star _ r => r.assertionFree
  | .grp r => r.assertionFree
  | _ => true

/-- A sufficient syntactic condition for: every text the group of the pattern
captures is made of code units satisfying `p` (for a pattern used without the
flag `i`). -/
def Re.capturesIn (p : Nat → Bool) : Re → Bool
  | .seq a b => a.capturesIn p && b.capturesIn p
  | .alt a b => a.capturesIn p && b.capturesIn p
  | .star _ r => r.capturesIn p
  | .grp r => r.confined p
  | _ => true

/-- Whether the pattern `r`, used without flags, matches the whole of `w`. -/
def InLang (r : Re) (w : Text) : Prop :=
  ∃ t : MState, Matches {} r { left := [], right := w, cap := none } t ∧ t.right = []

/-- Whether no part of the text `s` is matched by the pattern `r`. -/
def Free (r : Re) (s : Text) : Prop := ∀ w : Text, w <:+: s → ¬ InLang r w

/-! ## Theorems -/

theorem strictNat_eq {α : Type} (n : Nat) (k : Nat → α) : strictNat n k = k n := by
  cases n <;> rfl

theorem strictNum_eq {α : Type} (a : JSNum) (k : JSNum → α) : strictNum a k = k a := by
  cases a <;> simp [strictNum, strictNat_eq]


/-! ### The degenerate result (C2) -/

theorem analyze_short (P : Platform) (code : Text) (h : (trim code).length < 30) :
    analyzeAICodeLikelihood P code =
      { likelihood := ofNat 0, confidence := ofNat 0, language := "unknown",
        reasons := ["Insufficient code"], breakdown := [] } := by
  simp [analyzeAICodeLikelihood, h]

/-- C2: for every text whose trimmed length is below 30, the empty string
included, `analyzeAICodeLikelihood` returns exactly likelihood 0, confidence 0,
language "unknown", the single reason "Insufficient code" and an empty
breakdown, whatever the platform: no module result enters the answer. -/
theorem analyze_degenerate (P : Platform) (code : Text) (h : (trim code).length < 30) :
    analyzeAICodeLikelihood P code =
      { likelihood := ofNat 0, confidence := ofNat 0, language := "unknown",
        reasons := ["Insufficient code"], breakdown := [] } :=
  analyze_short P code h

theorem analyze_degenerate_witness :
    (trim (str "  let x = 1;  \n")).length < 30 ∧
    analyzeAICodeLikelihood referencePlatform (str "  let x = 1;  \n") =
      { likelihood := ofNat 0, confidence := ofNat 0, language := "unknown",
        reasons := ["Insufficient code"], breakdown := [] } :=
  ⟨by decide!, analyze_degenerate _ _ (by decide!)⟩

/-! ### Classification (C4) -/

theorem ge_thresholds :
    ∀ k, k < 101 →
      (ge (ofNat k) (ofNat 80) = decide (80 ≤ k)) ∧ (ge (ofNat k) (ofNat 60) = decide (60 ≤ k)) ∧
      (ge (ofNat k) (ofNat 40) = decide (40 ≤ k)) ∧ (ge (ofNat k) (ofNat 20) = decide (20 ≤ k)) := by
  decide!

/-- C4: for every result whose likelihood is an integer from 0 to 100, the label
of `concludeAIDetection` is "Very High AI likelihood" iff the likelihood is at
least 80, "High AI likelihood" iff it is from 60 to 79, "Moderate AI likelihood"
iff from 40 to 59, "Low AI likelihood" iff from 20 to 39, and "Minimal AI
indicators" iff below 20; so 80, 60, 40 and 20 get the higher label. -/
theorem conclude_classification (r : AnalysisResult) (k : Nat) (hk : k ≤ 100)
    (hr : r.likelihood = ofNat k) :
    (concludeAIDetection r = "Very High AI likelihood" ↔ 80 ≤ k) ∧
    (concludeAIDetection r = "High AI likelihood" ↔ 60 ≤ k ∧ k < 80) ∧
    (concludeAIDetection r = "Moderate AI likelihood" ↔ 40 ≤ k ∧ k < 60) ∧
    (concludeAIDetection r = "Low AI likelihood" ↔ 20 ≤ k ∧ k < 40) ∧
    (concludeAIDetection r = "Minimal AI indicators" ↔ k < 20) := by
  obtain ⟨h80, h60, h40, h20⟩ := ge_thresholds k (by omega)
  simp only [concludeAIDetection, hr, h80, h60, h40, h20, decide_eq_true_eq]
  by_cases c80 : 80 ≤ k
  · simp [c80]; omega
  · by_cases c60 : 60 ≤ k
    · simp [c80, c60]; omega
    · by_cases c40 : 40 ≤ k
      · simp [c80, c60, c40]; omega
      · by_cases c20 : 20 ≤ k
        · simp [c80, c60, c40, c20]; omega
        · simp [c80, c60, c40, c20]; omega

theorem conclude_classification_witness :
    80 ≤ 100 ∧
    (ofNat 80 = ofNat 80) ∧
    (concludeAIDetection
        { likelihood := ofNat 80, confidence := ofNat 95, language := "generic",
          reasons := [], breakdown := [] } = "Very High AI likelihood" ↔ 80 ≤ 80) :=
  ⟨by decide, rfl,
    (conclude_classification
      { likelihood := ofNat 80, confidence := ofNat 95, language := "generic",
        reasons := [], breakdown := [] } 80 (by decide) rfl).1⟩

/-! ### Module ceilings (C5) -/

/-- C5: each of the ten modules returns, on every context, a score between 0
(scores are natural numbers) and its maxScore, and that maxScore is the
declared constant: Comment 15, Naming 12, Structure 14, Completeness 12, Error
handling 10, AI artifacts 18, Entropy 8, Idiom 10, Debug absence 11,
Statistical spacing 10. -/
theorem module_ceilings (P : Platform) (ctx : Ctx) :
    ((analyzeComments ctx).score ≤ (analyzeComments ctx).maxScore ∧
      (analyzeComments ctx).maxScore = 15) ∧
    ((analyzeNaming ctx).score ≤ (analyzeNaming ctx).maxScore ∧
      (analyzeNaming ctx).maxScore = 12) ∧
    ((analyzeStructure P ctx).score ≤ (analyzeStructure P ctx).maxScore ∧
      (analyzeStructure P ctx).maxScore = 14) ∧
    ((analyzeCompleteness ctx).score ≤ (analyzeCompleteness ctx).maxScore ∧
      (analyzeCompleteness ctx).maxScore = 12) ∧
    ((analyzeErrorHandling ctx).score ≤ (analyzeErrorHandling ctx).maxScore ∧
      (analyzeErrorHandling ctx).maxScore = 10) ∧
    ((detectAIArtifacts ctx).score ≤ (detectAIArtifacts ctx).maxScore ∧
      (detectAIArtifacts ctx).maxScore = 18) ∧
    ((analyzeEntropy P ctx).score ≤ (analyzeEntropy P ctx).maxScore ∧
      (analyzeEntropy P ctx).maxScore = 8) ∧
    ((analyzeIdioms ctx).score ≤ (analyzeIdioms ctx).maxScore ∧
      (analyzeIdioms ctx).maxScore = 10) ∧
    ((analyzeDebugAbsence ctx).score ≤ (analyzeDebugAbsence ctx).maxScore ∧
      (analyzeDebugAbsence ctx).maxScore = 11) ∧
    ((analyzeStatisticalPatterns ctx).score ≤ (analyzeStatisticalPatterns ctx).maxScore ∧
      (analyzeStatisticalPatterns ctx).maxScore = 10) := by
  refine ⟨?_, ?_, ?_, ?_, ?_, ?_, ?_, ?_, ?_, ?_⟩
  · simp only [analyzeComments]; split <;> split <;> simp
  · simp only [analyzeNaming]; split <;> split <;> simp
  · simp only [analyzeStructure]; split <;> split <;> simp
  · simp only [analyzeCompleteness]; split <;> simp
  · simp only [analyzeErrorHandling]; split <;> simp
  · simp only [detectAIArtifacts]; split <;> split <;> simp
  · simp only [analyzeEntropy]; split <;> simp
  · simp only [analyzeIdioms]; split <;> simp
  · simp only [analyzeDebugAbsence]; split <;> simp
  · simp only [analyzeStatisticalPatterns]; split <;> simp

/-! ### Language detection (C10) -/

/-- C10: `detectLanguage` tries the Python, JavaScript, C++ and Java signatures
in this order and the first that matches decides: the tag is "python" exactly
when the Python signature matches, "javascript" exactly when it does not and
the JavaScript one does, "cpp" exactly when neither does and the C++ one does,
"java" exactly when only the Java one is left to match, and "generic" exactly
when none matches; so the tag is always one of these five. -/
theorem detectLanguage_first_match (code : Text) :
    (detectLanguage code = "python" ↔ pythonSig.test {} code = true) ∧
    (detectLanguage code = "javascript" ↔
      pythonSig.test {} code = false ∧ javascriptSig.test {} code = true) ∧
    (detectLanguage code = "cpp" ↔
      pythonSig.test {} code = false ∧ javascriptSig.test {} code = false ∧
        cppSig.test {} code = true) ∧
    (detectLanguage code = "java" ↔
      pythonSig.test {} code = false ∧ javascriptSig.test {} code = false ∧
        cppSig.test {} code = false ∧ javaSig.test {} code = true) ∧
    (detectLanguage code = "generic" ↔
      pythonSig.test {} code = false ∧ javascriptSig.test {} code = false ∧
        cppSig.test {} code = false ∧ javaSig.test {} code = false) ∧
    detectLanguage code ∈ ["python", "javascript", "cpp", "java", "generic"] := by
  unfold detectLanguage
  cases pythonSig.test {} code <;> cases javascriptSig.test {} code <;>
    cases cppSig.test {} code <;> cases javaSig.test {} code <;> simp


/-! ### The aggregation, by enumeration of the scores the modules can return -/

theorem rows_ok : rowsOK scoreTable scoreRows = true := by decide!

set_option maxRecDepth 1000000 in
theorem chunk_0_0 : chunk (fin false 0 0) (fin false 0 0) 0 0 = true := by decide!

set_option maxRecDepth 1000000 in
theorem chunk_0_4 : chunk (fin false 0 0) (fin false 6004799503160661 1020) 0 23100 = true := by decide!

set_option maxRecDepth 1000000 in
theorem chunk_0_5 : chunk (fin false 0 0) (fin false 7505999378950827 1020) 0 28875 = true := by decide!

set_option maxRecDepth 1000000 in
theorem chunk_0_9 : chunk (fin false 0 0) (fin false 6755399441055744 1021) 0 51975 = true := by decide!

set_option maxRecDepth 1000000 in
theorem chunk_5_0 : chunk (fin false 7205759403792793 1020) (fin false 0 0) 27720 0 = true := by decide!

set_option maxRecDepth 1000000 in
theorem chunk_5_4 : chunk (fin false 7205759403792793 1020) (fin false 6004799503160661 1020) 27720 23100 = true := by decide!

set_option maxRecDepth 1000000 in
theorem chunk_5_5 : chunk (fin false 7205759403792793 1020) (fin false 7505999378950827 1020) 27720 28875 = true := by decide!

set_option maxRecDepth 1000000 in
theorem chunk_5_9 : chunk (fin false 7205759403792793 1020) (fin false 6755399441055744 1021) 27720 51975 = true := by decide!

set_option maxRecDepth 1000000 in
theorem chunk_10_0 : chunk (fin false 7205759403792793 1021) (fin false 0 0) 55440 0 = true := by decide!

set_option maxRecDepth 1000000 in
theorem chunk_10_4 : chunk (fin false 7205759403792793 1021) (fin false 6004799503160661 1020) 55440 23100 = true := by decide!

set_option maxRecDepth 1000000 in
theorem chunk_10_5 : chunk (fin false 7205759403792793 1021) (fin false 7505999378950827 1020) 55440 28875 = true := by decide!

set_option maxRecDepth 1000000 in
theorem chunk_10_9 : chunk (fin false 7205759403792793 1021) (fin false 6755399441055744 1021) 55440 51975 = true := by decide!

set_option maxRecDepth 1000000 in
theorem chunk_15_0 : chunk (fin false 5404319552844595 1022) (fin false 0 0) 83160 0 = true := by decide!

set_option maxRecDepth 1000000 in
theorem chunk_15_4 : chunk (fin false 5404319552844595 1022) (fin false 6004799503160661 1020) 83160 23100 = true := by decide!

set_option maxRecDepth 1000000 in
theorem chunk_15_5 : chunk (fin false 5404319552844595 1022) (fin false 7505999378950827 1020) 83160 28875 = true := by decide!

set_option maxRecDepth 1000000 in
theorem chunk_15_9 : chunk (fin false 5404319552844595 1022) (fin false 6755399441055744 1021) 83160 51975 = true := by decide!

theorem checkFrom_two (rowA rowB : List (Nat × Nat × JSNum))
    (rest : List (List (Nat × Nat × JSNum))) (acc : JSNum) (n : Nat) :
    checkFrom (rowA :: rowB :: rest) acc n =
      rowA.all fun e1 => rowB.all fun e2 =>
        checkFrom rest (add (add acc e1.2.2) e2.2.2) (Nat.add (Nat.add n e1.2.1) e2.2.1) := by
  simp only [checkFrom, strictNum_eq, strictNat_eq]

theorem check_all : checkFrom scoreRows (ofNat 0) 0 = true := by
  rw [scoreRows, checkFrom_two, commentRow, namingRow]
  simp only [List.all_cons, List.all_nil, Bool.and_true, Bool.and_eq_true]
  exact ⟨⟨chunk_0_0, chunk_0_4, chunk_0_5, chunk_0_9⟩, ⟨chunk_5_0, chunk_5_4, chunk_5_5, chunk_5_9⟩, ⟨chunk_10_0, chunk_10_4, chunk_10_5, chunk_10_9⟩, chunk_15_0, chunk_15_4, chunk_15_5, chunk_15_9⟩

theorem checkFrom_sound (tbl : List (Nat × Nat × List Nat)) :
    ∀ (rows : List (List (Nat × Nat × JSNum))) (ss : List Nat) (acc : JSNum) (n : Nat),
      rowsOK tbl rows = true → scoresIn tbl ss → checkFrom rows acc n = true →
      leafOK (weightedSum (scoreTriples tbl ss) acc) (n + exactSum tbl ss) = true := by
  induction tbl with
  | nil =>
    intro rows ss acc n hr hs hc
    cases rows with
    | nil =>
      cases ss with
      | nil => simpa [weightedSum, scoreTriples, exactSum, checkFrom] using hc
      | cons s ss => simp [scoresIn] at hs
    | cons row rows => simp [rowsOK] at hr
  | cons t ts ih =>
    intro rows ss acc n hr hs hc
    cases rows with
    | nil => simp [rowsOK] at hr
    | cons row rows =>
      cases ss with
      | nil => simp [scoresIn] at hs
      | cons s ss =>
        simp only [rowsOK, Bool.and_eq_true, List.all_eq_true] at hr
        obtain ⟨hrow, hrest⟩ := hr
        obtain ⟨hmem, hss⟩ := hs
        have hent := (hrow s hmem).2
        simp only [List.contains_iff_exists_mem_beq, beq_iff_eq] at hent
        obtain ⟨e, he, hee⟩ := hent
        simp only [checkFrom, List.all_eq_true, strictNum_eq, strictNat_eq] at hc
        have h1 := hc e he
        have h2 := ih rows ss _ _ hrest hss h1
        subst hee
        simpa [weightedSum, scoreTriples, exactSum, rowEntry, Nat.add_assoc] using h2


/-- The scores of the ten modules on a context, in module order. -/
theorem moduleScores_in (P : Platform) (ctx : Ctx) :
    scoresIn scoreTable
      [(analyzeComments ctx).score, (analyzeNaming ctx).score, (analyzeStructure P ctx).score,
       (analyzeCompleteness ctx).score, (analyzeErrorHandling ctx).score,
       (detectAIArtifacts ctx).score, (analyzeEntropy P ctx).score, (analyzeIdioms ctx).score,
       (analyzeDebugAbsence ctx).score, (analyzeStatisticalPatterns ctx).score] := by
  simp only [scoresIn, scoreTable]
  refine ⟨?_, ?_, ?_, ?_, ?_, ?_, ?_, ?_, ?_, ?_, trivial⟩
  · simp only [analyzeComments]; split <;> split <;> simp
  · simp only [analyzeNaming]; split <;> split <;> simp
  · simp only [analyzeStructure]; split <;> split <;> simp
  · simp only [analyzeCompleteness]; split <;> simp
  · simp only [analyzeErrorHandling]; split <;> simp
  · simp only [detectAIArtifacts]; split <;> split <;> simp
  · simp only [analyzeEntropy]; split <;> simp
  · simp only [analyzeIdioms]; split <;> simp
  · simp only [analyzeDebugAbsence]; split <;> simp
  · simp only [analyzeStatisticalPatterns]; split <;> simp

theorem loop_totalWeight (P : Platform) (ctx : Ctx) :
    (runModules P ctx).totalWeight = ofNat 11 := by
  simp only [runModules, modules, List.foldl, accStep]
  decide!

theorem loop_weightedScore (P : Platform) (ctx : Ctx) :
    (runModules P ctx).weightedScore =
      weightedSum (scoreTriples scoreTable
        [(analyzeComments ctx).score, (analyzeNaming ctx).score, (analyzeStructure P ctx).score,
         (analyzeCompleteness ctx).score, (analyzeErrorHandling ctx).score,
         (detectAIArtifacts ctx).score, (analyzeEntropy P ctx).score, (analyzeIdioms ctx).score,
         (analyzeDebugAbsence ctx).score, (analyzeStatisticalPatterns ctx).score]) (ofNat 0) := by
  simp only [runModules, modules, List.foldl, accStep, weightedSum, scoreTriples, scoreTable,
    moduleTerm]
  rfl

theorem loop_breakdown (P : Platform) (ctx : Ctx) :
    (runModules P ctx).breakdown =
      [("analyzeComments", analyzeComments ctx), ("analyzeNaming", analyzeNaming ctx),
       ("analyzeStructure", analyzeStructure P ctx),
       ("analyzeCompleteness", analyzeCompleteness ctx),
       ("analyzeErrorHandling", analyzeErrorHandling ctx),
       ("detectAIArtifacts", detectAIArtifacts ctx), ("analyzeEntropy", analyzeEntropy P ctx),
       ("analyzeIdioms", analyzeIdioms ctx), ("analyzeDebugAbsence", analyzeDebugAbsence ctx),
       ("analyzeStatisticalPatterns", analyzeStatisticalPatterns ctx)] := by
  simp [runModules, modules, List.foldl, accStep, setProp]


theorem exactSum_cast (tbl : List (Nat × Nat × List Nat)) :
    ∀ (rows : List (List (Nat × Nat × JSNum))) (ss : List Nat),
      (∀ t ∈ tbl, t.1 ≠ 0) → rowsOK tbl rows = true → scoresIn tbl ss →
      ((exactSum tbl ss : Nat) : ℚ) = 69300 * ratSum tbl ss := by
  induction tbl with
  | nil =>
    intro rows ss _ _ hs
    cases ss with
    | nil => simp [exactSum, ratSum]
    | cons s ss => simp [scoresIn] at hs
  | cons t ts ih =>
    intro rows ss hpos hr hs
    cases rows with
    | nil => simp [rowsOK] at hr
    | cons row rows =>
      cases ss with
      | nil => simp [scoresIn] at hs
      | cons s ss =>
        simp only [rowsOK, Bool.and_eq_true, List.all_eq_true] at hr
        obtain ⟨hrow, hrest⟩ := hr
        obtain ⟨hmem, hss⟩ := hs
        have hmod := (hrow s hmem).1
        have hdvd : (t.1 * 10) ∣ (69300 * t.2.1 * s) := by
          apply Nat.dvd_of_mod_eq_zero
          simpa using hmod
        have ht : (t.1 : ℚ) ≠ 0 := by
          have := hpos t (by simp)
          exact_mod_cast this
        have hrec := ih rows ss (fun u hu => hpos u (by simp [hu])) hrest hss
        have hcast : (((69300 * t.2.1 * s) / (t.1 * 10) : Nat) : ℚ)
            = ((69300 * t.2.1 * s : Nat) : ℚ) / ((t.1 * 10 : Nat) : ℚ) := by
          apply Nat.cast_div hdvd
          push_cast
          positivity
        have hcast2 : ((Nat.div (Nat.mul (Nat.mul 69300 t.2.1) s) (Nat.mul t.1 10) : Nat) : ℚ)
            = ((69300 * t.2.1 * s : Nat) : ℚ) / ((t.1 * 10 : Nat) : ℚ) := hcast
        simp only [exactSum, ratSum]
        rw [Nat.cast_add, hcast2, hrec]
        push_cast
        field_simp
        ring

theorem exactLikelihood_eq_floor (n : Nat) :
    exactLikelihood n = Nat.min ⌊100 * ((n : ℚ) / 69300) / 11 + 1 / 2⌋₊ 100 := by
  have h : 100 * ((n : ℚ) / 69300) / 11 + 1 / 2 = ((2 * n + 7623 : Nat) : ℚ) / ((15246 : Nat) : ℚ) := by
    push_cast
    field_simp
    ring
  rw [h, Nat.floor_div_eq_div]
  rfl

theorem leafOK_spec (acc : JSNum) (n : Nat) (h : leafOK acc n = true) :
    exactLikelihood n ≤ 71 ∧ likelihoodOf acc (ofNat 11) = ofNat (exactLikelihood n) := by
  simpa [leafOK, strictNat_eq] using h

/-- The likelihood computed from the ten module results: equal to the exact
formula, and never above 71. -/
theorem likelihood_of_modules (P : Platform) (ctx : Ctx) :
    exactLikelihood (exactSum scoreTable
        [(analyzeComments ctx).score, (analyzeNaming ctx).score, (analyzeStructure P ctx).score,
         (analyzeCompleteness ctx).score, (analyzeErrorHandling ctx).score,
         (detectAIArtifacts ctx).score, (analyzeEntropy P ctx).score, (analyzeIdioms ctx).score,
         (analyzeDebugAbsence ctx).score, (analyzeStatisticalPatterns ctx).score]) ≤ 71 ∧
    likelihoodOf (runModules P ctx).weightedScore (runModules P ctx).totalWeight =
      ofNat (exactLikelihood (exactSum scoreTable
        [(analyzeComments ctx).score, (analyzeNaming ctx).score, (analyzeStructure P ctx).score,
         (analyzeCompleteness ctx).score, (analyzeErrorHandling ctx).score,
         (detectAIArtifacts ctx).score, (analyzeEntropy P ctx).score, (analyzeIdioms ctx).score,
         (analyzeDebugAbsence ctx).score, (analyzeStatisticalPatterns ctx).score])) := by
  have h := checkFrom_sound scoreTable scoreRows _ (ofNat 0) 0 rows_ok (moduleScores_in P ctx)
    check_all
  rw [Nat.zero_add] at h
  rw [loop_totalWeight, loop_weightedScore]
  exact leafOK_spec _ _ h

theorem trim_length_pos_ne_nil (code : Text) (h : 30 ≤ (trim code).length) :
    code.isEmpty = false := by
  cases code with
  | nil => simp [trim] at h
  | cons c cs => rfl

theorem analyze_nondegenerate (P : Platform) (code : Text) (h : 30 ≤ (trim code).length) :
    analyzeAICodeLikelihood P code =
      { likelihood :=
          likelihoodOf (runModules P (mkCtx code)).weightedScore
            (runModules P (mkCtx code)).totalWeight
        confidence :=
          JSNum.min (add (ofNat 50) (mul (ofNat (mkCtx code).nonEmptyLines.length) (lit 5 10)))
            (ofNat 95)
        language := detectLanguage code
        reasons := unique (runModules P (mkCtx code)).reasons
        breakdown := (runModules P (mkCtx code)).breakdown } := by
  have h1 := trim_length_pos_ne_nil code h
  have h2 : ¬ (trim code).length < 30 := by omega
  simp only [analyzeAICodeLikelihood, h1, h2, decide_False, Bool.or_self, likelihoodOf]
  rfl


theorem analyze_breakdown (P : Platform) (code : Text) (h : 30 ≤ (trim code).length) :
    (analyzeAICodeLikelihood P code).breakdown =
      [("analyzeComments", analyzeComments (mkCtx code)),
       ("analyzeNaming", analyzeNaming (mkCtx code)),
       ("analyzeStructure", analyzeStructure P (mkCtx code)),
       ("analyzeCompleteness", analyzeCompleteness (mkCtx code)),
       ("analyzeErrorHandling", analyzeErrorHandling (mkCtx code)),
       ("detectAIArtifacts", detectAIArtifacts (mkCtx code)),
       ("analyzeEntropy", analyzeEntropy P (mkCtx code)),
       ("analyzeIdioms", analyzeIdioms (mkCtx code)),
       ("analyzeDebugAbsence", analyzeDebugAbsence (mkCtx code)),
       ("analyzeStatisticalPatterns", analyzeStatisticalPatterns (mkCtx code))] := by
  have h1 := trim_length_pos_ne_nil code h
  have h2 : ¬ (trim code).length < 30 := by omega
  simp only [analyzeAICodeLikelihood, h1, h2, decide_False, Bool.or_self, Bool.false_eq_true,
    if_false, loop_breakdown]

/-! ### Shapes and comparisons of the Numbers that occur -/

theorem pack_nonNeg (eb m : Nat) : isNonNeg (pack false eb m) = true := by
  unfold pack
  cases Nat.beq m (Nat.pow 2 53) <;> cases Nat.blt 2044 eb <;> cases Nat.blt 2045 eb <;>
    simp [isNonNeg]

theorem round_nonNeg (n d p q : Nat) : isNonNeg (round false n d p q) = true := by
  unfold JSNum.round roundAt
  simp only [strictNat_eq]
  cases Nat.beq n 0
  · simpa using pack_nonNeg _ _
  · simp [isNonNeg]

theorem ofNat_nonNeg (n : Nat) : isNonNeg (ofNat n) = true := round_nonNeg n 1 0 0

theorem add_nonNeg (a b : JSNum) (ha : isNonNeg a = true) (hb : isNonNeg b = true) :
    isNonNeg (add a b) = true := by
  cases a with
  | nan => simp [isNonNeg] at ha
  | inf s =>
    cases s
    · cases b with
      | nan => simp [isNonNeg] at hb
      | inf t => cases t <;> simp_all [isNonNeg, add]
      | fin t m e => simp [isNonNeg, add]
    · simp [isNonNeg] at ha
  | fin s m e =>
    cases s
    · cases b with
      | nan => simp [isNonNeg] at hb
      | inf t => cases t <;> simp_all [isNonNeg, add]
      | fin t m2 e2 =>
        cases t
        · simp only [add]
          cases Nat.beq m2 0 <;> cases Nat.beq m 0 <;>
            simp only [cond_true, cond_false, beq_self_eq_true, Bool.and_self] <;>
            first
              | exact round_nonNeg _ _ _ _
              | rfl
        · simp [isNonNeg] at hb
    · simp [isNonNeg] at ha

theorem mul_half_nonNeg (a : JSNum) (ha : isNonNeg a = true) :
    isNonNeg (mul a (lit 5 10)) = true := by
  have h : lit 5 10 = fin false 4503599627370496 1021 := by decide!
  rw [h]
  cases a with
  | nan => simp [isNonNeg] at ha
  | inf s => cases s <;> simp_all [isNonNeg, mul]; decide
  | fin s m e =>
    cases s
    · simp [mul, round_nonNeg]
    · simp [isNonNeg] at ha

theorem lt_of_not_ge (x y : JSNum) (hx : isNonNeg x = true) (hy : isNonNeg y = true)
    (h : ge x y = false) : lt x y = true := by
  cases x with
  | nan => simp [isNonNeg] at hx
  | inf s =>
    cases s
    · cases y with
      | nan => simp [isNonNeg] at hy
      | inf t => cases t <;> simp_all [isNonNeg, ge, lt, JSNum.eq]
      | fin t m e => cases t <;> simp_all [isNonNeg, ge, lt, JSNum.eq]
    · simp [isNonNeg] at hx
  | fin s m e =>
    cases s
    · cases y with
      | nan => simp [isNonNeg] at hy
      | inf t => cases t <;> simp_all [isNonNeg, ge, lt, JSNum.eq]
      | fin t m2 e2 =>
        cases t
        · simp only [ge, lt, JSNum.eq, Bool.or_eq_false_iff, Bool.and_eq_false_iff] at h ⊢
          obtain ⟨h1, h2⟩ := h
          simp only [Nat.blt_eq, Nat.beq_eq_true_eq, beq_self_eq_true, Bool.true_or,
            Bool.true_eq_false, or_false, Bool.not_eq_true] at h1 h2 ⊢
          have h1' : ¬ align m2 e2 e < align m e e2 := by
            intro hc; rw [← Nat.blt_eq] at hc; simp [hc] at h1
          have h2' : ¬ align m e e2 = align m2 e2 e := by
            intro hc; rw [hc, Nat.beq_refl] at h2; simp at h2
          omega
        · simp [isNonNeg] at hy
    · simp [isNonNeg] at hx


theorem module_ceilings_aux (P : Platform) (ctx : Ctx) :
    (analyzeComments ctx).maxScore = 15 ∧ (analyzeNaming ctx).maxScore = 12 ∧
    (analyzeStructure P ctx).maxScore = 14 ∧ (analyzeCompleteness ctx).maxScore = 12 ∧
    (analyzeErrorHandling ctx).maxScore = 10 ∧ (detectAIArtifacts ctx).maxScore = 18 ∧
    (analyzeEntropy P ctx).maxScore = 8 ∧ (analyzeIdioms ctx).maxScore = 10 ∧
    (analyzeDebugAbsence ctx).maxScore = 11 ∧ (analyzeStatisticalPatterns ctx).maxScore = 10 :=
  ⟨rfl, rfl, rfl, rfl, rfl, rfl, rfl, rfl, rfl, rfl⟩

theorem analyze_likelihood_nat (P : Platform) (code : Text) :
    ∃ k : Nat, k ≤ 71 ∧ (analyzeAICodeLikelihood P code).likelihood = ofNat k := by
  by_cases h : (trim code).length < 30
  · exact ⟨0, by omega, by rw [analyze_short P code h]⟩
  · obtain ⟨h1, h2⟩ := likelihood_of_modules P (mkCtx code)
    exact ⟨_, h1, by rw [analyze_nondegenerate P code (by omega)]; exact h2⟩

theorem le_zero_fin (m e : Nat) : le (fin false 0 0) (fin false m e) = true := by
  have hz : ∀ x, Nat.mul 0 x = 0 := Nat.zero_mul
  simp only [le, lt, JSNum.eq, align, hz]
  generalize Nat.mul m _ = y
  cases y with
  | zero => rfl
  | succ y => simp [Nat.blt, Nat.ble_eq]

theorem min_95_bounds (x : JSNum) (hx : isNonNeg x = true) :
    le (ofNat 0) (JSNum.min x (ofNat 95)) = true ∧ le (JSNum.min x (ofNat 95)) (ofNat 95) = true := by
  have h0 : ofNat 0 = fin false 0 0 := by decide!
  have hb0 : le (fin false 0 0) (ofNat 95) = true := by decide!
  have hbb : le (ofNat 95) (ofNat 95) = true := by decide!
  have hnn : ofNat 95 ≠ nan := by decide!
  rw [h0]
  generalize ofNat 95 = b at hb0 hbb hnn ⊢
  cases x with
  | nan => simp [isNonNeg] at hx
  | inf s =>
    cases s
    · cases b with
      | nan => exact absurd rfl hnn
      | inf t =>
        cases t
        · exact ⟨hb0, hbb⟩
        · simp [le, lt, JSNum.eq] at hb0
      | fin t m e => simp only [JSNum.min, lt, Bool.not_false, cond_true]; exact ⟨hb0, hbb⟩
    · simp [isNonNeg] at hx
  | fin s m e =>
    cases s
    · cases b with
      | nan => exact absurd rfl hnn
      | inf t =>
        cases t
        · simp only [JSNum.min, lt, Bool.not_false, cond_true, cond_false, Bool.false_eq_true]
          exact ⟨le_zero_fin m e, by simp [le, lt]⟩
        · simp [le, lt, JSNum.eq] at hb0
      | fin t m2 e2 =>
        simp only [JSNum.min]
        cases hba : lt (fin t m2 e2) (fin false m e)
        · cases hab : lt (fin false m e) (fin t m2 e2)
          · simp only [cond_false, isNegZero]
            exact ⟨hb0, hbb⟩
          · simp only [cond_false, cond_true]
            exact ⟨le_zero_fin m e, by simp [le, hab]⟩
        · simp only [cond_true]
          exact ⟨hb0, hbb⟩
    · simp [isNonNeg] at hx

/-! ### Ranges (C3) -/

theorem confidence_bounds (P : Platform) (code : Text) :
    le (ofNat 0) (analyzeAICodeLikelihood P code).confidence = true ∧
    le (analyzeAICodeLikelihood P code).confidence (ofNat 95) = true := by
  by_cases h : (trim code).length < 30
  · rw [analyze_short P code h]
    decide!
  · rw [analyze_nondegenerate P code (by omega)]
    exact min_95_bounds _ (add_nonNeg _ _ (ofNat_nonNeg 50) (mul_half_nonNeg _ (ofNat_nonNeg _)))

/-- C3: for every text the likelihood is an integer from 0 to 100 (it is the
Number of a natural number `k ≤ 100`), and the confidence lies between 0 and
95 in the order of JavaScript numbers. -/
theorem likelihood_confidence_range (P : Platform) (code : Text) :
    (∃ k : Nat, k ≤ 100 ∧ (analyzeAICodeLikelihood P code).likelihood = ofNat k) ∧
    le (ofNat 0) (analyzeAICodeLikelihood P code).confidence = true ∧
    le (analyzeAICodeLikelihood P code).confidence (ofNat 95) = true := by
  refine ⟨?_, confidence_bounds P code⟩
  obtain ⟨k, hk, h⟩ := analyze_likelihood_nat P code
  exact ⟨k, by omega, h⟩

/-! ### The weighted aggregation (C6) -/

theorem spec_sum (P : Platform) (ctx : Ctx) :
    (List.zipWith (fun w r => w * (r.score : ℚ) / (r.maxScore : ℚ)) specWeights
        (moduleResults P ctx)).sum =
      ratSum scoreTable
        [(analyzeComments ctx).score, (analyzeNaming ctx).score, (analyzeStructure P ctx).score,
         (analyzeCompleteness ctx).score, (analyzeErrorHandling ctx).score,
         (detectAIArtifacts ctx).score, (analyzeEntropy P ctx).score, (analyzeIdioms ctx).score,
         (analyzeDebugAbsence ctx).score, (analyzeStatisticalPatterns ctx).score] := by
  obtain ⟨m1, m2, m3, m4, m5, m6, m7, m8, m9, m10⟩ := module_ceilings_aux P ctx
  generalize hc1 : analyzeComments ctx = r1 at m1
  generalize hc2 : analyzeNaming ctx = r2 at m2
  generalize hc3 : analyzeStructure P ctx = r3 at m3
  generalize hc4 : analyzeCompleteness ctx = r4 at m4
  generalize hc5 : analyzeErrorHandling ctx = r5 at m5
  generalize hc6 : detectAIArtifacts ctx = r6 at m6
  generalize hc7 : analyzeEntropy P ctx = r7 at m7
  generalize hc8 : analyzeIdioms ctx = r8 at m8
  generalize hc9 : analyzeDebugAbsence ctx = r9 at m9
  generalize hc10 : analyzeStatisticalPatterns ctx = r10 at m10
  simp only [moduleResults, hc1, hc2, hc3, hc4, hc5, hc6, hc7, hc8, hc9, hc10, specWeights,
    List.zipWith, List.sum_cons, List.sum_nil, ratSum, scoreTable, m1, m2, m3, m4, m5, m6, m7,
    m8, m9, m10]
  push_cast
  ring

/-- C6: for every text of trimmed length at least 30 the likelihood is the
Number of `specLikelihood`: `min(round(100 * S / W), 100)` with `S` the sum
over the ten modules of weight times score over maxScore, the weights 1.2,
1.0, 1.3, 1.1, 0.9, 1.5, 1.0, 0.8, 1.2, 1.0 attached to Comment, Naming,
Structure, Completeness, Error handling, AI artifacts, Entropy, Idiom, Debug
absence and Statistical spacing, and `W = 11` their sum.  The binary64
computation of the program agrees with the exact arithmetic. -/
theorem likelihood_formula (P : Platform) (code : Text) (h : 30 ≤ (trim code).length) :
    (analyzeAICodeLikelihood P code).likelihood =
      ofNat (specLikelihood (moduleResults P (mkCtx code))) ∧
    specWeights.sum = 11 ∧
    (analyzeAICodeLikelihood P code).breakdown.map Prod.snd = moduleResults P (mkCtx code) := by
  have hw : specWeights.sum = 11 := by
    simp only [specWeights, List.sum_cons, List.sum_nil]
    norm_num
  refine ⟨?_, hw, ?_⟩
  · obtain ⟨_, h2⟩ := likelihood_of_modules P (mkCtx code)
    rw [analyze_nondegenerate P code h]
    simp only
    rw [h2, exactLikelihood_eq_floor]
    have hc := exactSum_cast scoreTable scoreRows _ (by decide) rows_ok
      (moduleScores_in P (mkCtx code))
    rw [hc]
    unfold specLikelihood
    rw [hw, spec_sum]
    congr 3
    ring
  · rw [analyze_breakdown P code h]
    rfl

theorem likelihood_formula_witness :
    30 ≤ (trim (str "const total = price * quantity + shipping;")).length ∧
    ((analyzeAICodeLikelihood referencePlatform
        (str "const total = price * quantity + shipping;")).likelihood =
      ofNat (specLikelihood (moduleResults referencePlatform
        (mkCtx (str "const total = price * quantity + shipping;")))) ∧
    specWeights.sum = 11 ∧
    (analyzeAICodeLikelihood referencePlatform
        (str "const total = price * quantity + shipping;")).breakdown.map Prod.snd =
      moduleResults referencePlatform
        (mkCtx (str "const total = price * quantity + shipping;"))) :=
  ⟨by decide!, likelihood_formula _ _ (by decide!)⟩

/-! ### The reduction guarantee (C1) and the forced likelihood (C7) -/

theorem forced_likelihood :
    ∀ b, b < 101 →
      JSNum.max (sub (ofNat b) (ofNat 15)) (ofNat 0) = ofNat (b - 15) ∧
      (b ≠ 0 → lt (ofNat (b - 15)) (ofNat b) = true) := by
  decide!

/-- C1: for every input text the result of `rewriteAndReduce` satisfies
`after.likelihood < before.likelihood`, or else both likelihoods are 0; texts
too short to be scored are included. -/
theorem rewrite_reduces (P : Platform) (code : Text) :
    lt (rewriteAndReduce P code).after.likelihood (rewriteAndReduce P code).before.likelihood
        = true ∨
      ((rewriteAndReduce P code).before.likelihood = ofNat 0 ∧
        (rewriteAndReduce P code).after.likelihood = ofNat 0) := by
  obtain ⟨b, hb, hbe⟩ := analyze_likelihood_nat P code
  obtain ⟨k1, _, hk1⟩ := analyze_likelihood_nat P (transformChain code)
  obtain ⟨k2, _, hk2⟩ := analyze_likelihood_nat P (forceHumanArtifacts (transformChain code))
  obtain ⟨hf1, hf2⟩ := forced_likelihood b (by omega)
  have hover : lt (ofNat (b - 15)) (ofNat b) = true ∨ (ofNat b = ofNat 0 ∧ ofNat (b - 15) = ofNat 0) := by
    by_cases hb0 : b = 0
    · right; subst hb0; exact ⟨rfl, rfl⟩
    · left; exact hf2 hb0
  cases hF : ge (ofNat k1) (ofNat b)
  · have hlt := lt_of_not_ge _ _ (ofNat_nonNeg k1) (ofNat_nonNeg b) hF
    left
    simp only [rewriteAndReduce, hbe, hk1, hF, Bool.false_eq_true, if_false]
    exact hlt
  · cases hS : ge (ofNat k2) (ofNat b)
    · have hlt := lt_of_not_ge _ _ (ofNat_nonNeg k2) (ofNat_nonNeg b) hS
      left
      simp only [rewriteAndReduce, hbe, hk1, hk2, hF, hS, Bool.false_eq_true, if_false, if_true]
      exact hlt
    · simp only [rewriteAndReduce, hbe, hk1, hk2, hF, hS, if_true, hf1]
      exact hover

/-- C7: in `rewriteAndReduce`, when the score of the transformed text is not
below `before.likelihood` and the score of the forced-artifact text is not
either, the returned text is the forced-artifact text itself, the returned
`after.likelihood` is `max(before.likelihood - 15, 0)` (with `before.likelihood`
the integer `b`, the integer `b - 15` or 0), and the confidence, language,
reasons and breakdown of `after` are those of `analyzeAICodeLikelihood` on the
returned text. -/
theorem rewrite_forced (P : Platform) (code : Text)
    (h1 : ge (analyzeAICodeLikelihood P (transformChain code)).likelihood
      (analyzeAICodeLikelihood P code).likelihood = true)
    (h2 : ge (analyzeAICodeLikelihood P (forceHumanArtifacts (transformChain code))).likelihood
      (analyzeAICodeLikelihood P code).likelihood = true) :
    (rewriteAndReduce P code).rewritten = forceHumanArtifacts (transformChain code) ∧
    (rewriteAndReduce P code).after.likelihood =
      JSNum.max (sub (rewriteAndReduce P code).before.likelihood (ofNat 15)) (ofNat 0) ∧
    (∃ b : Nat, b ≤ 100 ∧ (rewriteAndReduce P code).before.likelihood = ofNat b ∧
      (rewriteAndReduce P code).after.likelihood = ofNat (b - 15)) ∧
    (rewriteAndReduce P code).after.confidence =
      (analyzeAICodeLikelihood P (rewriteAndReduce P code).rewritten).confidence ∧
    (rewriteAndReduce P code).after.language =
      (analyzeAICodeLikelihood P (rewriteAndReduce P code).rewritten).language ∧
    (rewriteAndReduce P code).after.reasons =
      (analyzeAICodeLikelihood P (rewriteAndReduce P code).rewritten).reasons ∧
    (rewriteAndReduce P code).after.breakdown =
      (analyzeAICodeLikelihood P (rewriteAndReduce P code).rewritten).breakdown := by
  obtain ⟨b, hb, hbe⟩ := analyze_likelihood_nat P code
  obtain ⟨hf1, _⟩ := forced_likelihood b (by omega)
  simp only [rewriteAndReduce, h1, h2, if_true]
  refine ⟨trivial, trivial, ⟨b, by omega, hbe, ?_⟩, trivial, trivial, trivial, trivial⟩
  rw [hbe, hf1]


theorem rewrite_forced_witness :
    (analyzeAICodeLikelihood referencePlatform forcedExample).likelihood = ofNat 21 ∧
    (analyzeAICodeLikelihood referencePlatform (transformChain forcedExample)).likelihood =
      ofNat 21 ∧
    (analyzeAICodeLikelihood referencePlatform
      (forceHumanArtifacts (transformChain forcedExample))).likelihood = ofNat 21 ∧
    (rewriteAndReduce referencePlatform forcedExample).rewritten =
      forceHumanArtifacts (transformChain forcedExample) ∧
    (rewriteAndReduce referencePlatform forcedExample).after.likelihood =
      JSNum.max (sub (rewriteAndReduce referencePlatform forcedExample).before.likelihood
        (ofNat 15)) (ofNat 0) ∧
    (rewriteAndReduce referencePlatform forcedExample).after.likelihood = ofNat 6 ∧
    (rewriteAndReduce referencePlatform forcedExample).after.confidence =
      (analyzeAICodeLikelihood referencePlatform
        (rewriteAndReduce referencePlatform forcedExample).rewritten).confidence :=
  ⟨by decide!, by decide!, by decide!,
    (rewrite_forced referencePlatform forcedExample (by decide!) (by decide!)).1,
    (rewrite_forced referencePlatform forcedExample (by decide!) (by decide!)).2.1,
    by decide!,
    (rewrite_forced referencePlatform forcedExample (by decide!) (by decide!)).2.2.2.1⟩

/-! ### Totality (C9) -/

theorem trim_eq_nil_of_all_space (t : Text) (h : ∀ c ∈ t, isSpace c = true) : trim t = [] := by
  have h1 : t.dropWhile isSpace = [] := List.dropWhile_eq_nil_iff.mpr h
  simp [trim, h1]

theorem trim_ne_nil_of_mem (t : Text) (c : Nat) (hc : c ∈ t) (hs : isSpace c = false) :
    trim t ≠ [] := by
  intro h
  simp only [trim, List.reverse_eq_nil_iff] at h
  rw [List.dropWhile_eq_nil_iff] at h
  have hall : ∀ x ∈ t.dropWhile isSpace, isSpace x = true := fun x hx =>
    h x (List.mem_reverse.mpr hx)
  cases hd : t.dropWhile isSpace with
  | nil =>
    rw [List.dropWhile_eq_nil_iff] at hd
    have := hd c hc
    simp [hs] at this
  | cons x xs =>
    have hx : isSpace x = true := hall x (by rw [hd]; simp)
    have hne : t.dropWhile isSpace ≠ [] := by rw [hd]; simp
    have hhead := List.head_dropWhile_not isSpace t hne
    simp only [hd, List.head_cons] at hhead
    simp [hx] at hhead

theorem splitLoop_mem (t : Text) :
    ∀ (cur : Text) (c : Nat), c ≠ 0x0A → (c ∈ t ∨ c ∈ cur) → ∃ l ∈ splitLoop t cur, c ∈ l := by
  induction t with
  | nil =>
    intro cur c _ h
    refine ⟨cur.reverse, by simp [splitLoop], ?_⟩
    rcases h with h | h
    · simp at h
    · simpa using h
  | cons x xs ih =>
    intro cur c hc h
    simp only [splitLoop]
    split
    · rename_i hx
      rcases h with h | h
      · rcases List.mem_cons.mp h with h | h
        · exact absurd (h.trans hx) hc
        · obtain ⟨l, hl, hcl⟩ := ih [] c hc (Or.inl h)
          exact ⟨l, List.mem_cons_of_mem _ hl, hcl⟩
      · exact ⟨cur.reverse, by simp, by simpa using h⟩
    · rcases h with h | h
      · rcases List.mem_cons.mp h with h | h
        · exact ih (x :: cur) c hc (Or.inr (by simp [h]))
        · exact ih (x :: cur) c hc (Or.inl h)
      · exact ih (x :: cur) c hc (Or.inr (List.mem_cons_of_mem _ h))

theorem nonEmptyLines_pos (code : Text) (h : 30 ≤ (trim code).length) :
    1 ≤ (mkCtx code).nonEmptyLines.length := by
  have hne : trim code ≠ [] := by
    intro h0; rw [h0] at h; simp at h
  have hex : ∃ c ∈ code, isSpace c = false := by
    by_contra hcon
    push_neg at hcon
    exact hne (trim_eq_nil_of_all_space code (fun c hc => by simpa using hcon c hc))
  obtain ⟨c, hc, hs⟩ := hex
  have hnl : c ≠ 0x0A := by
    intro h0; rw [h0] at hs; exact absurd hs (by decide)
  obtain ⟨l, hl, hcl⟩ := splitLoop_mem code [] c hnl (Or.inl hc)
  have hmem : l ∈ (mkCtx code).nonEmptyLines := by
    simp only [mkCtx, List.mem_filter, Bool.not_eq_true', List.isEmpty_eq_false]
    exact ⟨hl, trim_ne_nil_of_mem l c hcl hs⟩
  exact List.length_pos_of_mem hmem

/-- C9: `analyzeAICodeLikelihood` cannot fail.  For every text of trimmed
length at least 30 the count of non-empty lines, a denominator, is at least 1;
every module's maxScore is non-zero and the total weight is 11; the breakdown
holds the result of each of the ten modules exactly once; the likelihood and
the confidence returned are numbers, not NaN.  And on every context without an
identifier of three characters or more, where the Naming module divides zero
by zero, that module returns score 0. -/
theorem analyze_total (P : Platform) (code : Text) (h : 30 ≤ (trim code).length) :
    1 ≤ (mkCtx code).nonEmptyLines.length ∧
    (∀ r ∈ moduleResults P (mkCtx code), r.maxScore ≠ 0) ∧
    (runModules P (mkCtx code)).totalWeight = ofNat 11 ∧
    (analyzeAICodeLikelihood P code).breakdown =
      [("analyzeComments", analyzeComments (mkCtx code)),
       ("analyzeNaming", analyzeNaming (mkCtx code)),
       ("analyzeStructure", analyzeStructure P (mkCtx code)),
       ("analyzeCompleteness", analyzeCompleteness (mkCtx code)),
       ("analyzeErrorHandling", analyzeErrorHandling (mkCtx code)),
       ("detectAIArtifacts", detectAIArtifacts (mkCtx code)),
       ("analyzeEntropy", analyzeEntropy P (mkCtx code)),
       ("analyzeIdioms", analyzeIdioms (mkCtx code)),
       ("analyzeDebugAbsence", analyzeDebugAbsence (mkCtx code)),
       ("analyzeStatisticalPatterns", analyzeStatisticalPatterns (mkCtx code))] ∧
    (analyzeAICodeLikelihood P code).breakdown.length = 10 ∧
    (analyzeAICodeLikelihood P code).likelihood ≠ nan ∧
    (analyzeAICodeLikelihood P code).confidence ≠ nan ∧
    (∀ ctx : Ctx, (ctx.tokens.filter fun t => identifierRegex.test {} t) = [] →
      div (ofNat 0) (ofNat 0) = nan ∧ (analyzeNaming ctx).score = 0) := by
  refine ⟨nonEmptyLines_pos code h, ?_, loop_totalWeight P _, analyze_breakdown P code h, ?_, ?_,
    ?_, ?_⟩
  · obtain ⟨m1, m2, m3, m4, m5, m6, m7, m8, m9, m10⟩ := module_ceilings_aux P (mkCtx code)
    intro r hr
    simp only [moduleResults, List.mem_cons, List.mem_singleton, List.not_mem_nil, or_false] at hr
    rcases hr with h | h | h | h | h | h | h | h | h | h <;> subst h <;> simp [*]
  · rw [analyze_breakdown P code h]; rfl
  · obtain ⟨k, _, hk⟩ := analyze_likelihood_nat P code
    rw [hk]
    have := ofNat_nonNeg k
    intro hc; rw [hc] at this; simp [isNonNeg] at this
  · obtain ⟨h1, h2⟩ := confidence_bounds P code
    have hle : le (ofNat 0) nan = false := by decide!
    intro hc; rw [hc, hle] at h1; exact Bool.noConfusion h1
  · intro ctx hctx
    have hnan : div (ofNat 0) (ofNat 0) = nan := by decide!
    refine ⟨hnan, ?_⟩
    have hg1 : gt nan (lit 2 10) = false := by decide!
    have hg2 : gt nan (lit 4 10) = false := by decide!
    simp [analyzeNaming, hctx, unique, dedup, hnan, hg1, hg2]

theorem analyze_total_witness :
    30 ≤ (trim (str "const total = price * quantity + shipping;")).length ∧
    1 ≤ (mkCtx (str "const total = price * quantity + shipping;")).nonEmptyLines.length ∧
    (analyzeAICodeLikelihood referencePlatform
      (str "const total = price * quantity + shipping;")).breakdown.length = 10 :=
  ⟨by decide!,
    (analyze_total referencePlatform (str "const total = price * quantity + shipping;")
      (by decide!)).1,
    (analyze_total referencePlatform (str "const total = price * quantity + shipping;")
      (by decide!)).2.2.2.2.1⟩

/-! ### The binary logarithm -/

theorem bitLogStep_spec (n s lo : Nat) (k : Nat → Nat)
    (h1 : 2 ^ lo ≤ n) (h2 : n < 2 ^ (lo + (s + s)))
    (hk : ∀ lo1, 2 ^ lo1 ≤ n → n < 2 ^ (lo1 + s) → 2 ^ (k lo1) ≤ n ∧ n < 2 ^ (k lo1 + 1)) :
    2 ^ (bitLogStep n s lo k) ≤ n ∧ n < 2 ^ (bitLogStep n s lo k + 1) := by
  unfold bitLogStep
  simp only [Nat.pow_eq, Nat.add_eq]
  cases hb : Nat.blt n (2 ^ (lo + s))
  · simp only [cond_false]
    have hge : 2 ^ (lo + s) ≤ n := by
      by_contra hc
      have : Nat.blt n (2 ^ (lo + s)) = true := by rw [Nat.blt_eq]; omega
      rw [this] at hb; exact Bool.noConfusion hb
    exact hk (lo + s) hge (by rw [Nat.add_assoc]; exact h2)
  · simp only [cond_true]
    rw [Nat.blt_eq] at hb
    exact hk lo h1 hb

theorem bitLogWord_spec (n lo : Nat) (h1 : 2 ^ lo ≤ n) (h2 : n < 2 ^ (lo + 64)) :
    2 ^ (bitLogWord n lo) ≤ n ∧ n < 2 ^ (bitLogWord n lo + 1) := by
  unfold bitLogWord
  apply bitLogStep_spec n 32 lo _ h1 h2
  intro l1 a1 b1
  apply bitLogStep_spec n 16 l1 _ a1 b1
  intro l2 a2 b2
  apply bitLogStep_spec n 8 l2 _ a2 b2
  intro l3 a3 b3
  apply bitLogStep_spec n 4 l3 _ a3 b3
  intro l4 a4 b4
  apply bitLogStep_spec n 2 l4 _ a4 b4
  intro l5 a5 b5
  apply bitLogStep_spec n 1 l5 _ a5 b5
  intro l6 a6 b6
  exact ⟨a6, b6⟩

theorem bitLogLoop_spec (n : Nat) :
    ∀ (fuel lo : Nat), 2 ^ lo ≤ n → n < 2 ^ (lo + 64 * fuel) →
      2 ^ (bitLogLoop fuel n lo) ≤ n ∧ n < 2 ^ (bitLogLoop fuel n lo + 1) := by
  intro fuel
  induction fuel with
  | zero =>
    intro lo h1 h2
    simp at h2
    omega
  | succ f ih =>
    intro lo h1 h2
    simp only [bitLogLoop, Nat.pow_eq, Nat.add_eq, strictNat_eq]
    cases hb : Nat.blt n (2 ^ (lo + 64))
    · simp only [cond_false]
      have hge : 2 ^ (lo + 64) ≤ n := by
        by_contra hc
        have : Nat.blt n (2 ^ (lo + 64)) = true := by rw [Nat.blt_eq]; omega
        rw [this] at hb; exact Bool.noConfusion hb
      apply ih (lo + 64) hge
      have : lo + 64 + 64 * f = lo + 64 * (f + 1) := by ring
      rw [this]; exact h2
    · simp only [cond_true]
      rw [Nat.blt_eq] at hb
      exact bitLogWord_spec n lo h1 hb

theorem bitLog_spec (n : Nat) (hn : 0 < n) : 2 ^ (bitLog n) ≤ n ∧ n < 2 ^ (bitLog n + 1) := by
  unfold bitLog
  simp only [Nat.pow_eq]
  cases hb : Nat.blt n (2 ^ 64)
  · simp only [cond_false]
    have hge : 2 ^ 64 ≤ n := by
      by_contra hc
      have : Nat.blt n (2 ^ 64) = true := by rw [Nat.blt_eq]; omega
      rw [this] at hb; exact Bool.noConfusion hb
    apply bitLogLoop_spec n n 64 hge
    calc n < 2 ^ n := Nat.lt_two_pow n
      _ ≤ 2 ^ (64 + 64 * n) := Nat.pow_le_pow_right (by decide) (by omega)
  · simp only [cond_true]
    rw [Nat.blt_eq] at hb
    exact bitLogWord_spec n 0 (by simpa using hn) (by simpa using hb)

/-! ### A lower bound through rounding -/

theorem roundQuotient_ge (num den : Nat) : num / den ≤ roundQuotient num den := by
  unfold roundQuotient
  simp only [Nat.succ_eq_add_one]
  cases (Nat.blt den (Nat.mul 2 (Nat.mod num den)) ||
      (Nat.beq (Nat.mul 2 (Nat.mod num den)) den && Nat.beq (Nat.mod (Nat.div num den) 2) 1))
  · exact Nat.le_refl _
  · exact Nat.le_succ _

theorem pack_geVal (eb m x : Nat) (h : x ≤ m * 2 ^ eb) : GeVal (pack false eb m) x := by
  unfold pack
  cases hm : Nat.beq m (Nat.pow 2 53)
  · cases Nat.blt 2045 eb
    · exact Or.inr ⟨m, eb, rfl, h⟩
    · exact Or.inl rfl
  · cases Nat.blt 2044 eb
    · refine Or.inr ⟨Nat.pow 2 52, Nat.succ eb, rfl, ?_⟩
      have hm2 : m = 2 ^ 53 := by
        have := Nat.eq_of_beq_eq_true hm
        simpa using this
      rw [hm2] at h
      calc x ≤ 2 ^ 53 * 2 ^ eb := h
        _ = Nat.pow 2 52 * 2 ^ (Nat.succ eb) := by
          simp only [Nat.pow_eq, Nat.succ_eq_add_one, pow_succ]; ring
    · exact Or.inl rfl

theorem roundAt_geVal (n d p q eb x : Nat)
    (h : x ≤ (n * 2 ^ (p + 1074 - (q + eb))) / (d * 2 ^ (q + eb - (p + 1074))) * 2 ^ eb) :
    GeVal (roundAt false n d p q eb) x := by
  unfold roundAt
  simp only [strictNat_eq, Nat.mul_eq, Nat.pow_eq, Nat.sub_eq, Nat.add_eq]
  apply pack_geVal
  exact le_trans h (Nat.mul_le_mul_right _ (roundQuotient_ge _ _))

theorem expField_eq (n d p q ln ld : Nat) :
    expField n d p q ln ld =
      ln + p + 1022 - (ld + q + (if n * 2 ^ ld < d * 2 ^ ln then 1 else 0)) := by
  unfold expField
  simp only [Nat.mul_eq, Nat.pow_eq, Nat.sub_eq, Nat.add_eq]
  cases hb : Nat.blt (n * 2 ^ ld) (d * 2 ^ ln)
  · have : ¬ n * 2 ^ ld < d * 2 ^ ln := by
      intro hc; rw [← Nat.blt_eq] at hc; rw [hc] at hb; exact Bool.noConfusion hb
    simp [this]
  · rw [Nat.blt_eq] at hb
    simp [hb]

theorem round_eq (n d p q : Nat) (hn : n ≠ 0) :
    JSNum.round false n d p q = roundAt false n d p q (expField n d p q (bitLog n) (bitLog d)) := by
  unfold JSNum.round
  simp only [strictNat_eq]
  have : Nat.beq n 0 = false := by
    cases hb : Nat.beq n 0
    · rfl
    · exact absurd (Nat.eq_of_beq_eq_true hb) hn
  rw [this]
  rfl

/-- The rounding of a value of at least `2^(k - 1074)` is at least `2^(k - 1074)`. -/
theorem round_geVal (n d p q k : Nat) (hd : 0 < d) (h : d * 2 ^ (q + k) ≤ n * 2 ^ (p + 1074)) :
    GeVal (JSNum.round false n d p q) (2 ^ k) := by
  have hn : n ≠ 0 := by
    intro h0
    rw [h0] at h
    simp at h
    omega
  have hnpos : 0 < n := Nat.pos_of_ne_zero hn
  rw [round_eq n d p q hn]
  obtain ⟨a1, a2⟩ := bitLog_spec n hnpos
  obtain ⟨b1, b2⟩ := bitLog_spec d hd
  generalize bitLog n = ln at a1 a2 ⊢
  generalize bitLog d = ld at b1 b2 ⊢
  rw [expField_eq]
  generalize hc : (if n * 2 ^ ld < d * 2 ^ ln then 1 else 0) = c
  -- the two brackets of `n / d` by powers of two
  have s1 : d * 2 ^ ln ≤ n * 2 ^ (ld + c) := by
    by_cases hlt : n * 2 ^ ld < d * 2 ^ ln
    · simp only [hlt, if_true] at hc
      subst hc
      calc d * 2 ^ ln ≤ 2 ^ (ld + 1) * 2 ^ ln := Nat.mul_le_mul_right _ (le_of_lt b2)
        _ = 2 ^ ln * 2 ^ (ld + 1) := by ring
        _ ≤ n * 2 ^ (ld + 1) := Nat.mul_le_mul_right _ a1
    · simp only [hlt, if_false] at hc
      subst hc
      simpa using Nat.le_of_not_lt hlt
  have s2 : n * 2 ^ (ld + c) < d * 2 ^ (ln + 1) := by
    by_cases hlt : n * 2 ^ ld < d * 2 ^ ln
    · simp only [hlt, if_true] at hc
      subst hc
      calc n * 2 ^ (ld + 1) = n * 2 ^ ld * 2 := by rw [pow_succ]; ring
        _ < d * 2 ^ ln * 2 := by omega
        _ = d * 2 ^ (ln + 1) := by rw [pow_succ]; ring
    · simp only [hlt, if_false] at hc
      subst hc
      calc n * 2 ^ (ld + 0) = n * 2 ^ ld := by simp
        _ < 2 ^ (ln + 1) * 2 ^ ld := Nat.mul_lt_mul_of_pos_right a2 (by positivity)
        _ ≤ 2 ^ (ln + 1) * d := Nat.mul_le_mul_left _ b1
        _ = d * 2 ^ (ln + 1) := by ring
  -- the exponent of the value is at least `k - 1074`
  have hk : q + k + ld + c < ln + p + 1075 := by
    have h3 : d * 2 ^ (q + k + ld + c) < d * 2 ^ (ln + p + 1075) := by
      calc d * 2 ^ (q + k + ld + c) = d * 2 ^ (q + k) * 2 ^ (ld + c) := by
            rw [show q + k + ld + c = q + k + (ld + c) by omega, pow_add]; ring
        _ ≤ n * 2 ^ (p + 1074) * 2 ^ (ld + c) := Nat.mul_le_mul_right _ h
        _ = n * 2 ^ (ld + c) * 2 ^ (p + 1074) := by ring
        _ < d * 2 ^ (ln + 1) * 2 ^ (p + 1074) := Nat.mul_lt_mul_of_pos_right s2 (by positivity)
        _ = d * 2 ^ (ln + p + 1075) := by
            rw [show ln + p + 1075 = ln + 1 + (p + 1074) by omega, pow_add]; ring
    have h4 := Nat.lt_of_mul_lt_mul_left h3
    exact (Nat.pow_lt_pow_iff_right (by decide)).mp h4
  apply roundAt_geVal
  generalize heb : ln + p + 1022 - (ld + q + c) = eb
  by_cases hnorm : ld + q + c ≤ ln + p + 1022
  · -- normal range: the quotient has 53 bits
    have hke : k ≤ eb + 52 := by omega
    have hq : 2 ^ 52 ≤ (n * 2 ^ (p + 1074 - (q + eb))) / (d * 2 ^ (q + eb - (p + 1074))) := by
      rw [Nat.le_div_iff_mul_le (by positivity)]
      by_cases hup : q + eb ≤ p + 1074
      · have e1 : q + eb - (p + 1074) = 0 := by omega
        rw [e1, pow_zero, Nat.mul_one]
        generalize hu : p + 1074 - (q + eb) = up
        have e2 : ld + c + 52 = up + ln := by omega
        have : 2 ^ 52 * d * 2 ^ ln ≤ n * 2 ^ up * 2 ^ ln := by
          calc 2 ^ 52 * d * 2 ^ ln = d * 2 ^ ln * 2 ^ 52 := by ring
            _ ≤ n * 2 ^ (ld + c) * 2 ^ 52 := Nat.mul_le_mul_right _ s1
            _ = n * 2 ^ (ld + c + 52) := by rw [pow_add (2 : Nat) (ld + c) 52]; ring
            _ = n * 2 ^ (up + ln) := by rw [e2]
            _ = n * 2 ^ up * 2 ^ ln := by rw [pow_add]; ring
        exact Nat.le_of_mul_le_mul_right this (by positivity)
      · have e1 : p + 1074 - (q + eb) = 0 := by omega
        rw [e1, pow_zero, Nat.mul_one]
        generalize hdn : q + eb - (p + 1074) = down
        have e2 : ln = down + 52 + (ld + c) := by omega
        have : 2 ^ 52 * (d * 2 ^ down) * 2 ^ (ld + c) ≤ n * 2 ^ (ld + c) := by
          calc 2 ^ 52 * (d * 2 ^ down) * 2 ^ (ld + c) = d * 2 ^ (down + 52 + (ld + c)) := by
                rw [pow_add, pow_add]; ring
            _ = d * 2 ^ ln := by rw [e2]
            _ ≤ n * 2 ^ (ld + c) := s1
        exact Nat.le_of_mul_le_mul_right this (by positivity)
    calc 2 ^ k ≤ 2 ^ (eb + 52) := Nat.pow_le_pow_right (by decide) hke
      _ = 2 ^ 52 * 2 ^ eb := by rw [pow_add]; ring
      _ ≤ _ := Nat.mul_le_mul_right _ hq
  · -- subnormal range: the quotient is the value in units of `2^-1074`
    have e0 : eb = 0 := by omega
    subst e0
    simp only [Nat.add_zero, pow_zero, Nat.mul_one]
    rw [Nat.le_div_iff_mul_le (by positivity)]
    by_cases hup : q ≤ p + 1074
    · have e1 : q - (p + 1074) = 0 := by omega
      rw [e1, pow_zero, Nat.mul_one]
      generalize hu : p + 1074 - q = up
      have e2 : p + 1074 = up + q := by omega
      have : 2 ^ k * d * 2 ^ q ≤ n * 2 ^ up * 2 ^ q := by
        calc 2 ^ k * d * 2 ^ q = d * 2 ^ (q + k) := by rw [pow_add]; ring
          _ ≤ n * 2 ^ (p + 1074) := h
          _ = n * 2 ^ up * 2 ^ q := by rw [e2, pow_add]; ring
      exact Nat.le_of_mul_le_mul_right this (by positivity)
    · have e1 : p + 1074 - q = 0 := by omega
      rw [e1, pow_zero, Nat.mul_one]
      generalize hdn : q - (p + 1074) = down
      have e2 : q = down + (p + 1074) := by omega
      have : 2 ^ k * (d * 2 ^ down) * 2 ^ (p + 1074) ≤ n * 2 ^ (p + 1074) := by
        calc 2 ^ k * (d * 2 ^ down) * 2 ^ (p + 1074) = d * 2 ^ (down + (p + 1074) + k) := by
              rw [pow_add, pow_add]; ring
          _ = d * 2 ^ (q + k) := by rw [e2]
          _ ≤ n * 2 ^ (p + 1074) := h
      exact Nat.le_of_mul_le_mul_right this (by positivity)

/-! ### The confidence  -/

theorem ofNat_geVal (n k K : Nat) (hK : K = k + 1074) (h : 2 ^ k ≤ n) :
    GeVal (ofNat n) (2 ^ K) := by
  subst hK
  apply round_geVal n 1 0 0 (k + 1074) (by decide)
  calc 1 * 2 ^ (0 + (k + 1074)) = 2 ^ k * 2 ^ 1074 := by rw [Nat.zero_add, pow_add]; ring
    _ ≤ n * 2 ^ 1074 := Nat.mul_le_mul_right _ h
    _ = n * 2 ^ (0 + 1074) := by rw [Nat.zero_add]

theorem mul_half_geVal (a : JSNum) (k K : Nat) (hK : K = k + 1) (h : GeVal a (2 ^ K)) :
    GeVal (mul a (lit 5 10)) (2 ^ k) := by
  subst hK
  have hl : lit 5 10 = fin false 4503599627370496 1021 := by decide!
  rw [hl]
  rcases h with h | ⟨m, e, h, hme⟩
  · subst h
    exact Or.inl rfl
  · subst h
    simp only [mul, bne_self_eq_false, Nat.mul_eq, Nat.add_eq]
    apply round_geVal _ 1 _ _ k (by decide)
    have e1 : (2 : Nat) ^ (2148 + k) = 2 ^ (k + 1) * 2 ^ (52 + 2095) := by
      rw [← pow_add]; congr 1; omega
    have e2 : (2 : Nat) ^ (e + 1021 + 1074) = 2 ^ e * 2 ^ 2095 := by
      rw [← pow_add]
    have e3 : (2 : Nat) ^ (52 + 2095) = 2 ^ 52 * 2 ^ 2095 := pow_add 2 52 2095
    have e4 : (4503599627370496 : Nat) = 2 ^ 52 := by norm_num
    rw [e1, e2, e4, Nat.one_mul]
    generalize (2 : Nat) ^ 2095 = A at e3 ⊢
    generalize (2 : Nat) ^ (52 + 2095) = B at e3 ⊢
    subst e3
    calc 2 ^ (k + 1) * (2 ^ 52 * A) = 2 ^ (k + 1) * 2 ^ 52 * A := by ring
      _ ≤ m * 2 ^ e * 2 ^ 52 * A :=
          Nat.mul_le_mul_right _ (Nat.mul_le_mul_right _ hme)
      _ = m * 2 ^ 52 * (2 ^ e * A) := by ring

theorem align_mul (m e e1 : Nat) :
    align m e e1 * 2 ^ (if e ≤ e1 then e else e1) = m * 2 ^ e := by
  unfold align
  simp only [Nat.mul_eq, Nat.pow_eq, Nat.sub_eq]
  by_cases h : e ≤ e1
  · have hb : Nat.ble e e1 = true := by rw [Nat.ble_eq]; exact h
    simp [hb, h]
  · have hb : Nat.ble e e1 = false := by
      cases hc : Nat.ble e e1
      · rfl
      · rw [Nat.ble_eq] at hc; exact absurd hc h
    simp only [hb, cond_false, h, if_false]
    rw [Nat.mul_assoc, ← pow_add]
    congr 2
    omega

theorem add_fifty_geVal (a : JSNum) (k : Nat) (h : GeVal a (2 ^ k)) :
    GeVal (add (ofNat 50) a) (2 ^ k) := by
  have hl : ofNat 50 = fin false 7036874417766400 1027 := by decide!
  rw [hl]
  rcases h with h | ⟨m, e, h, hme⟩
  · subst h
    exact Or.inl rfl
  · subst h
    have hm : Nat.beq m 0 = false := by
      cases hb : Nat.beq m 0
      · rfl
      · have := Nat.eq_of_beq_eq_true hb
        subst this
        simp at hme
    have h50 : Nat.beq 7036874417766400 0 = false := rfl
    simp only [add, hm, h50, cond_false, beq_self_eq_true, cond_true, Nat.add_eq]
    apply round_geVal _ 1 _ _ k (by decide)
    have hal := align_mul m e 1027
    have hmin : (bif Nat.ble 1027 e then 1027 else e) = (if e ≤ 1027 then e else 1027) := by
      by_cases hle : 1027 ≤ e
      · have hb : Nat.ble 1027 e = true := by rw [Nat.ble_eq]; exact hle
        rw [hb]
        simp only [cond_true]
        split <;> omega
      · have hb : Nat.ble 1027 e = false := by
          cases hc : Nat.ble 1027 e
          · rfl
          · rw [Nat.ble_eq] at hc; exact absurd hc hle
        rw [hb]
        simp only [cond_false]
        split <;> omega
    rw [hmin]
    generalize (if e ≤ 1027 then e else 1027) = mu at hal ⊢
    calc 1 * 2 ^ (1074 + k) = 2 ^ k * 2 ^ 1074 := by rw [pow_add]; ring
      _ ≤ m * 2 ^ e * 2 ^ 1074 := Nat.mul_le_mul_right _ hme
      _ = align m e 1027 * 2 ^ mu * 2 ^ 1074 := by rw [hal]
      _ ≤ (align 7036874417766400 1027 e + align m e 1027) * 2 ^ mu * 2 ^ 1074 := by
          apply Nat.mul_le_mul_right
          apply Nat.mul_le_mul_right
          exact Nat.le_add_left _ _
      _ = (align 7036874417766400 1027 e + align m e 1027) * 2 ^ (mu + 1074) := by
          rw [pow_add]; ring

theorem min_95_of_geVal (a : JSNum) (K : Nat) (hK : K = 53 + 1028) (h : GeVal a (2 ^ K)) :
    JSNum.min a (ofNat 95) = ofNat 95 := by
  subst hK
  have hl : ofNat 95 = fin false 6685030696878080 1028 := by decide!
  rw [hl]
  rcases h with h | ⟨m, e, h, hme⟩
  · subst h
    rfl
  · subst h
    have hlt : lt (fin false m e) (fin false 6685030696878080 1028) = false := by
      simp only [lt]
      cases hb : Nat.blt (align m e 1028) (align 6685030696878080 1028 e)
      · rfl
      · exfalso
        rw [Nat.blt_eq] at hb
        have h1 := align_mul m e 1028
        have h2 := align_mul 6685030696878080 1028 e
        have hmu : (if 1028 ≤ e then 1028 else e) = (if e ≤ 1028 then e else 1028) := by
          split <;> split <;> omega
        rw [hmu] at h2
        generalize (if e ≤ 1028 then e else 1028) = mu at h1 h2
        have h3 : align m e 1028 * 2 ^ mu < align 6685030696878080 1028 e * 2 ^ mu :=
          Nat.mul_lt_mul_of_pos_right hb (by positivity)
        rw [h1, h2] at h3
        have e5 : (2 : Nat) ^ (53 + 1028) = 2 ^ 53 * 2 ^ 1028 := pow_add 2 53 1028
        have e6 : (6685030696878080 : Nat) < 2 ^ 53 := by norm_num
        rw [e5] at hme
        have hpos : 0 < (2 : Nat) ^ 1028 := by positivity
        generalize (2 : Nat) ^ 1028 = A at h3 hme hpos
        have h4 : 6685030696878080 * A < 2 ^ 53 * A := Nat.mul_lt_mul_of_pos_right e6 hpos
        exact absurd (lt_of_le_of_lt hme (lt_trans h3 h4)) (lt_irrefl _)
    simp only [JSNum.min, hlt, cond_false, isNegZero]
    cases lt (fin false 6685030696878080 1028) (fin false m e) <;> rfl

theorem confidence_small :
    ∀ n, n < 256 →
      hasValue (JSNum.min (add (ofNat 50) (mul (ofNat n) (lit 5 10))) (ofNat 95))
          (Nat.min (100 + n) 190) 2 = true ∧
      le (ofNat 50) (JSNum.min (add (ofNat 50) (mul (ofNat n) (lit 5 10))) (ofNat 95)) = true ∧
      (90 ≤ n → JSNum.min (add (ofNat 50) (mul (ofNat n) (lit 5 10))) (ofNat 95) = ofNat 95) := by
  decide!

theorem confidence_large (n : Nat) (h : 256 ≤ n) :
    JSNum.min (add (ofNat 50) (mul (ofNat n) (lit 5 10))) (ofNat 95) = ofNat 95 := by
  apply min_95_of_geVal _ 1081 rfl
  apply add_fifty_geVal
  apply mul_half_geVal _ 1081 1082 rfl
  exact ofNat_geVal n 8 1082 rfl h

theorem confidence_value (n : Nat) :
    hasValue (JSNum.min (add (ofNat 50) (mul (ofNat n) (lit 5 10))) (ofNat 95))
        (Nat.min (100 + n) 190) 2 = true ∧
    le (ofNat 50) (JSNum.min (add (ofNat 50) (mul (ofNat n) (lit 5 10))) (ofNat 95)) = true ∧
    (90 ≤ n → JSNum.min (add (ofNat 50) (mul (ofNat n) (lit 5 10))) (ofNat 95) = ofNat 95) := by
  by_cases h : n < 256
  · exact confidence_small n h
  · rw [confidence_large n (by omega)]
    have hm : Nat.min (100 + n) 190 = 190 := by
      simp only [Nat.min_def]
      split <;> omega
    rw [hm]
    exact ⟨by decide!, by decide!, fun _ => rfl⟩

theorem hasValue_toRat (a : JSNum) (num den : Nat) (hden : 0 < den)
    (h : hasValue a num den = true) : a.toRat? = some ((num : ℚ) / (den : ℚ)) := by
  cases a with
  | nan => simp [hasValue] at h
  | inf s => simp [hasValue] at h
  | fin s m e =>
    cases s with
    | true => simp [hasValue] at h
    | false =>
      simp only [hasValue] at h
      have h1 := Nat.eq_of_beq_eq_true h
      simp only [Nat.mul_eq, Nat.pow_eq] at h1
      obtain ⟨B, hB⟩ : ∃ B : Nat, B = 2 ^ 1074 := ⟨_, rfl⟩
      rw [← hB] at h1
      have hBq : (B : ℚ) = (2 : ℚ) ^ (1074 : Nat) := by rw [hB, Nat.cast_pow, Nat.cast_ofNat]
      have h2 := congrArg (Nat.cast : Nat → ℚ) h1
      have hz : (2 : ℚ) ^ ((e : Int) - 1074) = (2 : ℚ) ^ e / (2 : ℚ) ^ (1074 : Nat) := by
        rw [zpow_sub₀ (by norm_num : (2 : ℚ) ≠ 0), zpow_natCast, zpow_ofNat]
      have hd : (den : ℚ) ≠ 0 := by exact_mod_cast (Nat.pos_iff_ne_zero.mp hden)
      have hp : (2 : ℚ) ^ (1074 : Nat) ≠ 0 := pow_ne_zero _ (by norm_num)
      simp only [toRat?, Bool.false_eq_true, if_false, Option.some.injEq]
      rw [hz, ← hBq]
      rw [← hBq] at hp
      push_cast at h2
      field_simp
      linarith

theorem confidence_eq (P : Platform) (code : Text) (h : 30 ≤ (trim code).length) :
    (analyzeAICodeLikelihood P code).confidence =
      JSNum.min (add (ofNat 50) (mul (ofNat (nonEmptyLineCount code)) (lit 5 10))) (ofNat 95) := by
  rw [analyze_nondegenerate P code h]
  rfl

/-- Claim C8.  For every text whose trimmed length is at least 30, the
confidence is the Number of exact value `min(50 + 0.5 * n, 95)`, with `n` the
number of lines that are non-empty after trimming; it lies between 50 and 95,
it is 95 for every `n ≥ 90`, and it is the same for any two such texts with
the same `n`, on any platform. -/
theorem confidence_formula (P : Platform) (code : Text) (h : 30 ≤ (trim code).length) :
    (analyzeAICodeLikelihood P code).confidence.toRat? =
      some (min (50 + (1 / 2 : ℚ) * (nonEmptyLineCount code : ℚ)) 95) ∧
    le (ofNat 50) (analyzeAICodeLikelihood P code).confidence = true ∧
    le (analyzeAICodeLikelihood P code).confidence (ofNat 95) = true ∧
    (90 ≤ nonEmptyLineCount code → (analyzeAICodeLikelihood P code).confidence = ofNat 95) ∧
    ∀ (Q : Platform) (other : Text), 30 ≤ (trim other).length →
      nonEmptyLineCount other = nonEmptyLineCount code →
      (analyzeAICodeLikelihood Q other).confidence = (analyzeAICodeLikelihood P code).confidence := by
  obtain ⟨hv, hlo, h95⟩ := confidence_value (nonEmptyLineCount code)
  rw [← confidence_eq P code h] at hv hlo h95
  refine ⟨?_, hlo, (confidence_bounds P code).2, h95, ?_⟩
  · rw [hasValue_toRat _ _ 2 (by decide) hv]
    congr 1
    rcases Nat.le_total (100 + nonEmptyLineCount code) 190 with hle | hle
    · have h1 : Nat.min (100 + nonEmptyLineCount code) 190 = 100 + nonEmptyLineCount code :=
        Nat.min_eq_left hle
      have h2 : (nonEmptyLineCount code : ℚ) ≤ 90 := by
        have : nonEmptyLineCount code ≤ 90 := by omega
        exact_mod_cast this
      rw [h1, min_eq_left (by linarith)]
      push_cast
      ring
    · have h1 : Nat.min (100 + nonEmptyLineCount code) 190 = 190 := Nat.min_eq_right hle
      have h2 : (90 : ℚ) ≤ (nonEmptyLineCount code : ℚ) := by
        have : 90 ≤ nonEmptyLineCount code := by omega
        exact_mod_cast this
      rw [h1, min_eq_right (by linarith)]
      norm_num
  · intro Q other ho hn
    rw [confidence_eq Q other ho, confidence_eq P code h, hn]

theorem confidence_formula_witness :
    30 ≤ (trim (str "const total = price * quantity + shipping;")).length ∧
    (analyzeAICodeLikelihood referencePlatform
        (str "const total = price * quantity + shipping;")).confidence.toRat? =
      some (min (50 + (1 / 2 : ℚ) *
        (nonEmptyLineCount (str "const total = price * quantity + shipping;") : ℚ)) 95) :=
  ⟨by decide!,
   (confidence_formula referencePlatform (str "const total = price * quantity + shipping;")
      (by decide!)).1⟩

/-! ### The largest likelihood (C13) -/

theorem small_likelihoods :
    ∀ k, k < 72 →
      le (ofNat k) (ofNat 71) = true ∧ ge (ofNat k) (ofNat 80) = false ∧
      lt (ofNat k) (ofNat 100) = true ∧ ge (ofNat k) (ofNat 0) = true := by
  decide!

theorem module_score_bounds (P : Platform) (ctx : Ctx) :
    (analyzeComments ctx).score ≤ 15 ∧ (analyzeNaming ctx).score ≤ 9 ∧
    (analyzeStructure P ctx).score ≤ 10 ∧ (analyzeCompleteness ctx).score ≤ 6 ∧
    (analyzeErrorHandling ctx).score ≤ 6 ∧ (detectAIArtifacts ctx).score ≤ 16 ∧
    (analyzeEntropy P ctx).score ≤ 6 ∧ (analyzeIdioms ctx).score ≤ 6 ∧
    (analyzeDebugAbsence ctx).score ≤ 8 ∧ (analyzeStatisticalPatterns ctx).score ≤ 4 := by
  refine ⟨?_, ?_, ?_, ?_, ?_, ?_, ?_, ?_, ?_, ?_⟩
  · simp only [analyzeComments]; split <;> split <;> simp
  · simp only [analyzeNaming]; split <;> split <;> simp
  · simp only [analyzeStructure]; split <;> split <;> simp
  · simp only [analyzeCompleteness]; split <;> simp
  · simp only [analyzeErrorHandling]; split <;> simp
  · simp only [detectAIArtifacts]; split <;> split <;> simp
  · simp only [analyzeEntropy]; split <;> simp
  · simp only [analyzeIdioms]; split <;> simp
  · simp only [analyzeDebugAbsence]; split <;> simp
  · simp only [analyzeStatisticalPatterns]; split <;> simp

theorem conclude_not_very_high (r : AnalysisResult) (h : ge r.likelihood (ofNat 80) = false) :
    concludeAIDetection r ≠ "Very High AI likelihood" := by
  unfold concludeAIDetection
  rw [h]
  simp only [Bool.false_eq_true, if_false]
  split_ifs <;> decide

theorem max_scores_total :
    ratSum scoreTable [15, 9, 10, 6, 6, 16, 6, 6, 8, 4] = 540861 / 69300 ∧
    exactSum scoreTable [15, 9, 10, 6, 6, 16, 6, 6, 8, 4] = 540861 ∧
    exactLikelihood 540861 = 71 := by
  refine ⟨?_, by decide!, by decide!⟩
  simp only [ratSum, scoreTable]
  norm_num

/-- Claim C13.  For every input text the likelihood is the Number of an integer
of at most 71, hence below 80 and below the clamp at 100, and
`concludeAIDetection` applied to the result never returns "Very High AI
likelihood".  The largest scores the modules can return (15, 9, 10, 6, 6, 16,
6, 6, 8, 4) bound every score; they give the weighted total `540861 / 69300`
(between 7.80 and 7.81) out of 11, and the likelihood 71 for that total. -/
theorem likelihood_at_most_71 (P : Platform) (code : Text) :
    (∃ k : Nat, k ≤ 71 ∧ (analyzeAICodeLikelihood P code).likelihood = ofNat k) ∧
    le (analyzeAICodeLikelihood P code).likelihood (ofNat 71) = true ∧
    lt (analyzeAICodeLikelihood P code).likelihood (ofNat 100) = true ∧
    concludeAIDetection (analyzeAICodeLikelihood P code) ≠ "Very High AI likelihood" ∧
    ((analyzeComments (mkCtx code)).score ≤ 15 ∧ (analyzeNaming (mkCtx code)).score ≤ 9 ∧
      (analyzeStructure P (mkCtx code)).score ≤ 10 ∧
      (analyzeCompleteness (mkCtx code)).score ≤ 6 ∧
      (analyzeErrorHandling (mkCtx code)).score ≤ 6 ∧
      (detectAIArtifacts (mkCtx code)).score ≤ 16 ∧ (analyzeEntropy P (mkCtx code)).score ≤ 6 ∧
      (analyzeIdioms (mkCtx code)).score ≤ 6 ∧ (analyzeDebugAbsence (mkCtx code)).score ≤ 8 ∧
      (analyzeStatisticalPatterns (mkCtx code)).score ≤ 4) ∧
    ratSum scoreTable [15, 9, 10, 6, 6, 16, 6, 6, 8, 4] = 540861 / 69300 ∧
    exactSum scoreTable [15, 9, 10, 6, 6, 16, 6, 6, 8, 4] = 540861 ∧
    exactLikelihood 540861 = 71 := by
  obtain ⟨k, hk, hke⟩ := analyze_likelihood_nat P code
  obtain ⟨h1, h2, h3, _⟩ := small_likelihoods k (by omega)
  have hc := conclude_not_very_high (analyzeAICodeLikelihood P code) (by rw [hke]; exact h2)
  refine ⟨⟨k, hk, hke⟩, ?_, ?_, hc, module_score_bounds P (mkCtx code), max_scores_total⟩
  · rw [hke]; exact h1
  · rw [hke]; exact h3

/-! ### The first pass of the rewrite (C14) -/

theorem not_ge_of_lt (x y : JSNum) (hx : isNonNeg x = true) (hy : isNonNeg y = true)
    (h : lt x y = true) : ge x y = false := by
  cases x with
  | nan => simp [isNonNeg] at hx
  | inf s =>
    cases s
    · cases y with
      | nan => simp [isNonNeg] at hy
      | inf t => cases t <;> simp_all [isNonNeg, ge, lt, JSNum.eq]
      | fin t m e => cases t <;> simp_all [isNonNeg, ge, lt, JSNum.eq]
    · simp [isNonNeg] at hx
  | fin s m e =>
    cases s
    · cases y with
      | nan => simp [isNonNeg] at hy
      | inf t => cases t <;> simp_all [isNonNeg, ge, lt, JSNum.eq]
      | fin t m2 e2 =>
        cases t
        · simp only [lt, Nat.blt_eq] at h
          simp only [ge, lt, JSNum.eq, Bool.or_eq_false_iff, Bool.and_eq_false_iff]
          refine ⟨?_, Or.inl ?_⟩
          · cases hb : Nat.blt (align m2 e2 e) (align m e e2)
            · rfl
            · rw [Nat.blt_eq] at hb; omega
          · cases hb : Nat.beq (align m e e2) (align m2 e2 e)
            · rfl
            · have := Nat.eq_of_beq_eq_true hb; omega
        · simp [isNonNeg] at hy
    · simp [isNonNeg] at hx

theorem forceHumanArtifacts_ne (c : Text) : forceHumanArtifacts c ≠ c := by
  intro h
  have := congrArg List.length h
  simp [forceHumanArtifacts, str] at this
  omega

/-- Claim C14.  In `rewriteAndReduce` the forced-artifact transform is applied
exactly when the likelihood of the output of the four transforms is at least
`before.likelihood`.  When that likelihood is strictly lower, the returned text
is `addRedundantLogic(weakenValidation(breakUniformSpacing(injectHumanNoise(code))))`
and `after` is `analyzeAICodeLikelihood` of it, unmodified.  In every case
`original` is the input and `before` is `analyzeAICodeLikelihood(code)`. -/
theorem rewrite_first_pass (P : Platform) (code : Text) :
    (ge (analyzeAICodeLikelihood P (transformChain code)).likelihood
        (analyzeAICodeLikelihood P code).likelihood = true ↔
      (rewriteAndReduce P code).rewritten = forceHumanArtifacts (transformChain code)) ∧
    (lt (analyzeAICodeLikelihood P (transformChain code)).likelihood
        (analyzeAICodeLikelihood P code).likelihood = true →
      (rewriteAndReduce P code).rewritten =
        addRedundantLogic (weakenValidation (breakUniformSpacing (injectHumanNoise code))) ∧
      (rewriteAndReduce P code).after =
        analyzeAICodeLikelihood P (rewriteAndReduce P code).rewritten) ∧
    (rewriteAndReduce P code).original = code ∧
    (rewriteAndReduce P code).before = analyzeAICodeLikelihood P code := by
  refine ⟨⟨?_, ?_⟩, ?_, rfl, rfl⟩
  · intro h
    simp only [rewriteAndReduce, h, if_true]
  · intro h
    cases hF : ge (analyzeAICodeLikelihood P (transformChain code)).likelihood
        (analyzeAICodeLikelihood P code).likelihood
    · simp only [rewriteAndReduce, hF, Bool.false_eq_true, if_false] at h
      exact absurd h.symm (forceHumanArtifacts_ne _)
    · rfl
  · intro h
    obtain ⟨b, _, hbe⟩ := analyze_likelihood_nat P code
    obtain ⟨k1, _, hk1⟩ := analyze_likelihood_nat P (transformChain code)
    rw [hbe, hk1] at h
    have hF := not_ge_of_lt _ _ (ofNat_nonNeg k1) (ofNat_nonNeg b) h
    simp only [rewriteAndReduce, hbe, hk1, hF, Bool.false_eq_true, if_false]
    exact ⟨rfl, trivial⟩

theorem rewrite_first_pass_witness :
    lt (analyzeAICodeLikelihood referencePlatform
          (transformChain (str "const total = price * quantity + shipping;"))).likelihood
        (analyzeAICodeLikelihood referencePlatform
          (str "const total = price * quantity + shipping;")).likelihood = true ∧
    (rewriteAndReduce referencePlatform (str "const total = price * quantity + shipping;")).after =
      analyzeAICodeLikelihood referencePlatform
        (rewriteAndReduce referencePlatform
          (str "const total = price * quantity + shipping;")).rewritten :=
  ⟨by decide!,
   ((rewrite_first_pass referencePlatform (str "const total = price * quantity + shipping;")).2.1
      (by decide!)).2⟩

/-! ### The matcher reaches its continuation only through a declarative match -/

theorem stepIf_sound (p : Nat → Bool) (s : MState) (k : MState → Option MState) (res : MState)
    (h : stepIf p s k = some res) :
    ∃ x xs, s.right = x :: xs ∧ p x = true ∧
      k { s with left := x :: s.left, right := xs } = some res := by
  unfold stepIf at h
  split at h
  · exact absurd h (by simp)
  · rename_i x xs hr
    split at h
    · rename_i hp
      exact ⟨x, xs, hr, hp, h⟩
    · exact absurd h (by simp)

theorem starLoop_sound (f : Flags) (g : Bool) (r : Re)
    (ih : ∀ (s : MState) (k : MState → Option MState) (res : MState),
      r.run f s k = some res → ∃ s1, Matches f r s s1 ∧ k s1 = some res) :
    ∀ (fuel : Nat) (s : MState) (k : MState → Option MState) (res : MState),
      starLoop (r.run f) g fuel s k = some res →
      ∃ s1, Matches f (.star g r) s s1 ∧ k s1 = some res := by
  intro fuel
  induction fuel with
  | zero =>
    intro s k res h
    exact ⟨s, Matches.starNil g r s, h⟩
  | succ fuel ihf =>
    intro s k res h
    have again : ∀ res, r.run f s (fun s1 => if s1.right.length = s.right.length then none
        else starLoop (r.run f) g fuel s1 k) = some res →
        ∃ s1, Matches f (.star g r) s s1 ∧ k s1 = some res := by
      intro res h1
      obtain ⟨s1, hm, hk⟩ := ih _ _ _ h1
      by_cases hl : s1.right.length = s.right.length
      · simp [hl] at hk
      · simp only [hl, if_false] at hk
        obtain ⟨s2, hm2, hk2⟩ := ihf _ _ _ hk
        exact ⟨s2, Matches.starCons g r s s1 s2 hm hl hm2, hk2⟩
    simp only [starLoop] at h
    cases g with
    | true =>
      simp only [if_true] at h
      split at h
      · rename_i r1 hr1
        cases h
        exact again _ hr1
      · exact ⟨s, Matches.starNil _ r s, h⟩
    | false =>
      simp only [Bool.false_eq_true, if_false] at h
      split at h
      · rename_i r1 hr1
        cases h
        exact ⟨s, Matches.starNil _ r s, hr1⟩
      · exact again _ h

theorem run_sound (f : Flags) (r : Re) :
    ∀ (s : MState) (k : MState → Option MState) (res : MState),
      r.run f s k = some res → ∃ s1, Matches f r s s1 ∧ k s1 = some res := by
  induction r with
  | eps =>
    intro s k res h
    exact ⟨s, Matches.eps s, h⟩
  | lit c =>
    intro s k res h
    obtain ⟨x, xs, hr, hp, hk⟩ := stepIf_sound _ s k res h
    exact ⟨_, Matches.lit c s x xs hr hp, hk⟩
  | any =>
    intro s k res h
    obtain ⟨x, xs, hr, hp, hk⟩ := stepIf_sound _ s k res h
    exact ⟨_, Matches.any s x xs hr hp, hk⟩
  | cls negated items =>
    intro s k res h
    obtain ⟨x, xs, hr, hp, hk⟩ := stepIf_sound _ s k res h
    exact ⟨_, Matches.cls negated items s x xs hr hp, hk⟩
  | seq a b iha ihb =>
    intro s k res h
    obtain ⟨s1, hm1, hk1⟩ := iha s _ res h
    obtain ⟨s2, hm2, hk2⟩ := ihb s1 k res hk1
    exact ⟨s2, Matches.seq a b s s1 s2 hm1 hm2, hk2⟩
  | alt a b iha ihb =>
    intro s k res h
    simp only [Re.run] at h
    split at h
    · rename_i r1 hr1
      cases h
      obtain ⟨s1, hm, hk⟩ := iha s k _ hr1
      exact ⟨s1, Matches.altL a b s s1 hm, hk⟩
    · obtain ⟨s1, hm, hk⟩ := ihb s k _ h
      exact ⟨s1, Matches.altR a b s s1 hm, hk⟩
  | star g r ih =>
    intro s k res h
    exact starLoop_sound f g r ih _ s k res h
  | wordB =>
    intro s k res h
    simp only [Re.run] at h
    split at h
    · rename_i hc
      exact ⟨s, Matches.wordB s hc, h⟩
    · exact absurd h (by simp)
  | bol =>
    intro s k res h
    simp only [Re.run] at h
    split at h
    · rename_i hl
      exact ⟨s, Matches.bolStart s hl, h⟩
    · rename_i x xs hl
      split at h
      · rename_i hc
        exact ⟨s, Matches.bolLine s x xs hl hc, h⟩
      · exact absurd h (by simp)
  | eol =>
    intro s k res h
    simp only [Re.run] at h
    split at h
    · rename_i hl
      exact ⟨s, Matches.eolEnd s hl, h⟩
    · rename_i x xs hl
      split at h
      · rename_i hc
        exact ⟨s, Matches.eolLine s x xs hl hc, h⟩
      · exact absurd h (by simp)
  | grp r ih =>
    intro s k res h
    obtain ⟨s1, hm, hk⟩ := ih s _ res h
    exact ⟨_, Matches.grp r s s1 hm, hk⟩

/-! ### The text a match consumes -/

theorem Matches.consumed {f : Flags} {r : Re} {s t : MState} (h : Matches f r s t) :
    ∃ w : Text, s.right = w ++ t.right ∧ t.left = w.reverse ++ s.left := by
  induction h with
  | eps s => exact ⟨[], rfl, rfl⟩
  | lit c s x xs hr _ => exact ⟨[x], by simp [hr], by simp⟩
  | any s x xs hr _ => exact ⟨[x], by simp [hr], by simp⟩
  | cls negated items s x xs hr _ => exact ⟨[x], by simp [hr], by simp⟩
  | seq a b s s1 s2 _ _ ih1 ih2 =>
    obtain ⟨w1, h1, h1'⟩ := ih1
    obtain ⟨w2, h2, h2'⟩ := ih2
    exact ⟨w1 ++ w2, by rw [h1, h2, List.append_assoc], by rw [h2', h1']; simp⟩
  | altL a b s s1 _ ih => exact ih
  | altR a b s s1 _ ih => exact ih
  | starNil g r s => exact ⟨[], rfl, rfl⟩
  | starCons g r s s1 s2 _ _ _ ih1 ih2 =>
    obtain ⟨w1, h1, h1'⟩ := ih1
    obtain ⟨w2, h2, h2'⟩ := ih2
    exact ⟨w1 ++ w2, by rw [h1, h2, List.append_assoc], by rw [h2', h1']; simp⟩
  | wordB s _ => exact ⟨[], rfl, rfl⟩
  | bolStart s _ => exact ⟨[], rfl, rfl⟩
  | bolLine s x xs _ _ => exact ⟨[], rfl, rfl⟩
  | eolEnd s _ => exact ⟨[], rfl, rfl⟩
  | eolLine s x xs _ _ => exact ⟨[], rfl, rfl⟩
  | grp r s s1 _ ih => exact ih

/-- The text between two matcher states: what was consumed from the first to
reach the second. -/
theorem take_reverse_left (w left : Text) :
    ((w.reverse ++ left).take ((w.reverse ++ left).length - left.length)).reverse = w := by
  have : (w.reverse ++ left).length - left.length = w.reverse.length := by simp
  rw [this, List.take_left']
  · simp
  · rfl

theorem matchAt_sound (r : Re) (f : Flags) (left right : Text) (m : Match)
    (h : r.matchAt f left right = some m) :
    ∃ t : MState, Matches f r { left := left, right := right, cap := none } t ∧
      m.before = left ∧ right = m.text ++ m.right ∧ m.left = m.text.reverse ++ left ∧
      m.cap = t.cap ∧ t.right = m.right ∧ t.left = m.left := by
  unfold Re.matchAt at h
  split at h
  · exact absurd h (by simp)
  · rename_i s hs
    obtain ⟨t, hm, hk⟩ := run_sound f r _ _ _ hs
    have hts : t = s := Option.some.inj hk
    rw [hts] at hm
    obtain ⟨w, h1, h2⟩ := hm.consumed
    simp only at h1 h2
    cases h
    refine ⟨s, hm, rfl, ?_, ?_, rfl, rfl, rfl⟩
    · simp only [h2, take_reverse_left]
      exact h1
    · simp only [h2, take_reverse_left]

theorem search_sound (r : Re) (f : Flags) :
    ∀ (right left : Text) (m : Match), r.search f left right = some m →
      ∃ pre rest : Text, right = pre ++ rest ∧ m.before = pre.reverse ++ left ∧
        r.matchAt f m.before rest = some m := by
  intro right
  induction right with
  | nil =>
    intro left m h
    simp only [Re.search] at h
    have hb := (matchAt_sound r f left [] m h).choose_spec.2.1
    exact ⟨[], [], rfl, by simp [hb], by rw [hb]; exact h⟩
  | cons x xs ih =>
    intro left m h
    simp only [Re.search] at h
    split at h
    · rename_i m1 hm1
      cases h
      have hb := (matchAt_sound r f left (x :: xs) _ hm1).choose_spec.2.1
      exact ⟨[], x :: xs, rfl, by simp [hb], by rw [hb]; exact hm1⟩
    · obtain ⟨pre, rest, h1, h2, h3⟩ := ih (x :: left) m h
      exact ⟨x :: pre, rest, by simp [h1], by simp [h2], h3⟩

/-! ### Prefixes, substrings and literal patterns -/

theorem startsWith_iff (s p : Text) : startsWith s p = true ↔ p <+: s := by
  induction p generalizing s with
  | nil => cases s <;> simp [startsWith]
  | cons c cs ih =>
    cases s with
    | nil => simp [startsWith]
    | cons x xs =>
      simp only [startsWith, Bool.and_eq_true, beq_iff_eq, ih, List.cons_prefix_cons]
      constructor
      · rintro ⟨h1, h2⟩; exact ⟨h1.symm, h2⟩
      · rintro ⟨h1, h2⟩; exact ⟨h1.symm, h2⟩

theorem includes_iff (s w : Text) : includes s w = true ↔ w <:+: s := by
  induction s with
  | nil =>
    cases w with
    | nil => simp [includes]
    | cons c cs => simp [includes]
  | cons x xs ih =>
    simp only [includes, Bool.or_eq_true, startsWith_iff, ih, List.infix_cons_iff]

theorem includes_append (a s b w : Text) (h : includes s w = true) :
    includes (a ++ s ++ b) w = true := by
  rw [includes_iff] at h ⊢
  obtain ⟨u, v, huv⟩ := h
  exact ⟨a ++ u, v ++ b, by rw [← huv]; simp [List.append_assoc]⟩

theorem canon_false (x : Nat) : canon false x = x := by
  simp [canon]

/-- The matcher on a literal pattern without flags: it succeeds exactly when the
text at the current position starts with the pattern, and then continues after
it. -/
theorem run_ofChars (f : Flags) (hf : f.ignoreCase = false) (cs : List Char) (s : MState)
    (k : MState → Option MState) :
    (Re.ofChars cs).run f s k =
      if startsWith s.right (cs.map Char.toNat) = true then
        k { s with left := (cs.map Char.toNat).reverse ++ s.left,
                   right := s.right.drop cs.length }
      else none := by
  induction cs generalizing s with
  | nil =>
    cases hs : s.right <;> simp [Re.ofChars, Re.run, startsWith, hs] <;> rw [← hs]
  | cons c cs ih =>
    have step0 : ∀ (k1 : MState → Option MState), s.right = [] →
        (Re.lit c).run f s k1 = none := by
      intro k1 hs
      simp [Re.run, stepIf, hs]
    have step1 : ∀ (k1 : MState → Option MState) (x : Nat) (xs : Text), s.right = x :: xs →
        (Re.lit c).run f s k1 =
          if x = c.toNat then k1 { s with left := x :: s.left, right := xs } else none := by
      intro k1 x xs hs
      simp [Re.run, stepIf, hs, hf, canon_false]
    cases cs with
    | nil =>
      simp only [Re.ofChars]
      cases hs : s.right with
      | nil => rw [step0 _ hs]; simp [startsWith]
      | cons x xs =>
        rw [step1 _ x xs hs]
        by_cases hx : x = c.toNat
        · cases xs <;> simp [startsWith, hx]
        · simp [startsWith, hx]
    | cons d ds =>
      simp only [Re.ofChars, Re.run]
      cases hs : s.right with
      | nil =>
        have := step0 (fun s1 => (Re.ofChars (d :: ds)).run f s1 k) hs
        simp only [Re.run] at this
        rw [this]; simp [startsWith]
      | cons x xs =>
        have := step1 (fun s1 => (Re.ofChars (d :: ds)).run f s1 k) x xs hs
        simp only [Re.run] at this
        rw [this]
        by_cases hx : x = c.toNat
        · simp only [hx, if_true]
          rw [ih]
          simp [startsWith]
        · simp [startsWith, hx]

theorem matchAt_isSome (r : Re) (f : Flags) (left right : Text) :
    (r.matchAt f left right).isSome =
      (r.run f { left := left, right := right, cap := none } some).isSome := by
  unfold Re.matchAt
  split <;> simp_all

theorem matchAt_alt_isSome (a b : Re) (f : Flags) (left right : Text) :
    ((Re.alt a b).matchAt f left right).isSome =
      ((a.matchAt f left right).isSome || (b.matchAt f left right).isSome) := by
  simp only [matchAt_isSome, Re.run]
  split <;> simp_all

theorem search_isSome_or (r a b : Re) (f : Flags)
    (h : ∀ left right, (r.matchAt f left right).isSome =
      ((a.matchAt f left right).isSome || (b.matchAt f left right).isSome)) :
    ∀ (right left : Text), (r.search f left right).isSome =
      ((a.search f left right).isSome || (b.search f left right).isSome) := by
  intro right
  induction right with
  | nil =>
    intro left
    simp only [Re.search, h]
  | cons x xs ih =>
    intro left
    have hh := h left (x :: xs)
    simp only [Re.search]
    cases hr : r.matchAt f left (x :: xs) <;> cases ha : a.matchAt f left (x :: xs) <;>
      cases hb : b.matchAt f left (x :: xs) <;> simp_all

theorem test_alt (a b : Re) (f : Flags) (s : Text) :
    (Re.alt a b).test f s = (a.test f s || b.test f s) :=
  search_isSome_or _ a b f (matchAt_alt_isSome a b f) s []

theorem matchAt_ofChars_isSome (f : Flags) (hf : f.ignoreCase = false) (cs : List Char)
    (left right : Text) :
    ((Re.ofChars cs).matchAt f left right).isSome = startsWith right (cs.map Char.toNat) := by
  rw [matchAt_isSome, run_ofChars f hf]
  cases startsWith right (cs.map Char.toNat) <;> simp

theorem search_ofChars_isSome (f : Flags) (hf : f.ignoreCase = false) (cs : List Char) :
    ∀ (right left : Text),
      ((Re.ofChars cs).search f left right).isSome = includes right (cs.map Char.toNat) := by
  intro right
  induction right with
  | nil =>
    intro left
    simp only [Re.search, matchAt_ofChars_isSome f hf, includes]
    cases cs <;> simp [startsWith]
  | cons x xs ih =>
    intro left
    have hh := matchAt_ofChars_isSome f hf cs left (x :: xs)
    simp only [Re.search, includes]
    cases hm : (Re.ofChars cs).matchAt f left (x :: xs) with
    | none =>
      rw [hm] at hh
      simp only [Option.isSome_none] at hh
      rw [← hh, ih]
      simp
    | some m =>
      rw [hm] at hh
      simp only [Option.isSome_some] at hh
      rw [← hh]
      simp

/-- A literal pattern without the flag `i` tests true exactly on the texts that
include it. -/
theorem test_word_flags (f : Flags) (hf : f.ignoreCase = false) (w : String) (s : Text) :
    (Re.word w).test f s = includes s (str w) :=
  search_ofChars_isSome f hf w.toList s []

/-- A literal pattern without flags tests true exactly on the texts that
include it. -/
theorem test_word (w : String) (s : Text) : (Re.word w).test {} s = includes s (str w) :=
  test_word_flags {} rfl w s

/-! ### Function-body extraction (C15) -/

/-- Claim C15, the behaviour of the code on texts long enough to reach the
extraction (30 code units or more after trimming) where it departs from the
claim.  On a function of three lines whose braces balance, the only body
recorded is the first two lines, with one opening brace and no closing one: the
braces of the keyword line are never counted, so the depth is 0 after the
second line and -1 after the third.  On a function whose braces never balance,
a body is recorded all the same.  On a keyword line followed by two lines
without braces, two bodies are recorded for the one keyword line, because a
body is recorded after every line at which the depth is 0.  On a function with
a nested block the body recorded stops before the closing brace of the
function. -/
theorem extractFunctionBodies_partial :
    30 ≤ (trim (str "function add(a, b) \x7b\n  return a + b;\n\x7d")).length ∧
    (mkCtx (str "function add(a, b) \x7b\n  return a + b;\n\x7d")).code =
      str "function add(a, b) \x7b\n  return a + b;\n\x7d" ∧
    extractFunctionBodies (str "function add(a, b) \x7b\n  return a + b;\n\x7d") =
      [str "function add(a, b) \x7b\n  return a + b;"] ∧
    ((Re.lit chLBrace).matchAll {} (str "function add(a, b) \x7b\n  return a + b;")).length = 1 ∧
    ((Re.lit chRBrace).matchAll {} (str "function add(a, b) \x7b\n  return a + b;")).length = 0 ∧
    30 ≤ (trim (str "function broken(a, b) \x7b\n  return a + b;")).length ∧
    extractFunctionBodies (str "function broken(a, b) \x7b\n  return a + b;") =
      [str "function broken(a, b) \x7b\n  return a + b;"] ∧
    30 ≤ (trim (str "def total(items):\n    n = len(items)\n    return n")).length ∧
    (functionOrDef.matchAll {} (str "def total(items):\n    n = len(items)\n    return n")).length
      = 1 ∧
    extractFunctionBodies (str "def total(items):\n    n = len(items)\n    return n") =
      [str "def total(items):\n    n = len(items)",
       str "def total(items):\n    n = len(items)\n    return n"] ∧
    30 ≤ (trim (str "function f() \x7b\n  if (a) \x7b\n    b();\n  \x7d\n\x7d")).length ∧
    extractFunctionBodies (str "function f() \x7b\n  if (a) \x7b\n    b();\n  \x7d\n\x7d") =
      [str "function f() \x7b\n  if (a) \x7b\n    b();\n  \x7d"] := by
  decide!

/-! ### Idempotence of the rewrite transforms (C16) -/

/-- Claim C16 fails for two of the four transforms: a second pass of
`breakUniformSpacing` widens the padding after an operator again, and a second
pass of `addRedundantLogic` wraps the guard again. -/
theorem transforms_not_idempotent :
    breakUniformSpacing (breakUniformSpacing (str "a = b")) ≠ breakUniformSpacing (str "a = b") ∧
    addRedundantLogic (addRedundantLogic (str "if (x)")) ≠ addRedundantLogic (str "if (x)") := by
  decide!

theorem injectHumanNoise_includes (t : Text) :
    includes (injectHumanNoise t) (str "console.log") = true := by
  unfold injectHumanNoise
  split
  · rename_i h
    rw [test_word] at h
    exact h
  · have h : includes (str "// quick debug check\n// console.log(\"temp\");\n")
        (str "console.log") = true := by decide!
    have := includes_append [] _ t _ h
    simpa using this

/-! ### Inputs that score 0 before the rewrite (C18) -/

theorem trim_between (x y : Nat) (mid : Text) (hx : isSpace x = false) (hy : isSpace y = false) :
    trim (10 :: x :: (mid ++ [y, 10])) = x :: (mid ++ [y]) := by
  have h10 : isSpace 10 = true := by decide
  have e1 : (x :: (mid ++ [y, 10])).reverse = 10 :: y :: (mid.reverse ++ [x]) := by simp
  simp only [trim, List.dropWhile, h10, hx, e1, hy]
  simp

theorem forceHumanArtifacts_shape (c : Text) :
    forceHumanArtifacts c =
      10 :: 47 :: ((str "* temporary workaround */\n// TODO: cleanup later\n\n" ++ c ++
        str "\n\n// console.log(\"patched manually\")") ++ [59, 10]) := by
  have h1 : str "\n/* temporary workaround */\n// TODO: cleanup later\n\n" =
      10 :: 47 :: str "* temporary workaround */\n// TODO: cleanup later\n\n" := by decide
  have h2 : str "\n\n// console.log(\"patched manually\");\n" =
      str "\n\n// console.log(\"patched manually\")" ++ [59, 10] := by decide
  simp only [forceHumanArtifacts, h1, h2, List.cons_append, List.append_assoc]

theorem forceHumanArtifacts_long (c : Text) : 30 ≤ (trim (forceHumanArtifacts c)).length := by
  rw [forceHumanArtifacts_shape, trim_between _ _ _ (by decide) (by decide)]
  simp only [List.length_cons, List.length_append, str]
  simp

theorem detectLanguage_ne_unknown (code : Text) : detectLanguage code ≠ "unknown" := by
  unfold detectLanguage
  split_ifs <;> decide

theorem confidence_above_50 :
    ∀ n, n < 256 → 1 ≤ n →
      gt (JSNum.min (add (ofNat 50) (mul (ofNat n) (lit 5 10))) (ofNat 95)) (ofNat 50) = true := by
  decide!

theorem confidence_gt_50 (P : Platform) (code : Text) (h : 30 ≤ (trim code).length) :
    gt (analyzeAICodeLikelihood P code).confidence (ofNat 50) = true := by
  rw [confidence_eq P code h]
  have hn : 1 ≤ nonEmptyLineCount code := nonEmptyLines_pos code h
  by_cases hs : nonEmptyLineCount code < 256
  · exact confidence_above_50 _ hs hn
  · rw [confidence_large _ (by omega)]
    decide!

/-- Claim C18.  For every input whose `before.likelihood` is 0, which every
input of trimmed length below 30 is, `rewriteAndReduce` applies the
forced-artifact transform: the returned text is `forceHumanArtifacts` of the
output of the four transforms, and the returned `after` is the non-degenerate
analysis of that text (ten breakdown entries, confidence above 50, a language
other than "unknown", the confidence, language, reasons and breakdown of that
analysis) with likelihood 0. -/
theorem rewrite_from_zero (P : Platform) (code : Text)
    (h : (analyzeAICodeLikelihood P code).likelihood = ofNat 0) :
    (rewriteAndReduce P code).rewritten = forceHumanArtifacts (transformChain code) ∧
    (rewriteAndReduce P code).after.likelihood = ofNat 0 ∧
    (rewriteAndReduce P code).after.breakdown.length = 10 ∧
    gt (rewriteAndReduce P code).after.confidence (ofNat 50) = true ∧
    (rewriteAndReduce P code).after.language ≠ "unknown" ∧
    (rewriteAndReduce P code).after =
      { analyzeAICodeLikelihood P (forceHumanArtifacts (transformChain code)) with
        likelihood := ofNat 0 } ∧
    30 ≤ (trim (rewriteAndReduce P code).rewritten).length ∧
    ((trim code).length < 30 → (analyzeAICodeLikelihood P code).likelihood = ofNat 0) := by
  obtain ⟨k1, hk1, hke1⟩ := analyze_likelihood_nat P (transformChain code)
  obtain ⟨k2, hk2, hke2⟩ := analyze_likelihood_nat P (forceHumanArtifacts (transformChain code))
  have g1 := (small_likelihoods k1 (by omega)).2.2.2
  have g2 := (small_likelihoods k2 (by omega)).2.2.2
  have hf := (forced_likelihood 0 (by omega)).1
  have hlong := forceHumanArtifacts_long (transformChain code)
  have hafter : (rewriteAndReduce P code).after =
      { analyzeAICodeLikelihood P (forceHumanArtifacts (transformChain code)) with
        likelihood := ofNat 0 } := by
    simp only [rewriteAndReduce, h, hke1, hke2, g1, g2, if_true, hf]
  have hrew : (rewriteAndReduce P code).rewritten = forceHumanArtifacts (transformChain code) := by
    simp only [rewriteAndReduce, h, hke1, g1, if_true]
  refine ⟨hrew, ?_, ?_, ?_, ?_, hafter, ?_, fun hs => by rw [analyze_short P code hs]⟩
  · rw [hafter]
  · rw [hafter]
    show (analyzeAICodeLikelihood P (forceHumanArtifacts (transformChain code))).breakdown.length = 10
    rw [analyze_breakdown P _ hlong]
    rfl
  · rw [hafter]
    exact confidence_gt_50 P _ hlong
  · rw [hafter]
    show (analyzeAICodeLikelihood P (forceHumanArtifacts (transformChain code))).language ≠ "unknown"
    rw [analyze_nondegenerate P _ hlong]
    exact detectLanguage_ne_unknown _
  · rw [hrew]
    exact hlong

theorem rewrite_from_zero_witness :
    (analyzeAICodeLikelihood referencePlatform (str "")).likelihood = ofNat 0 ∧
    (rewriteAndReduce referencePlatform (str "")).rewritten =
      forceHumanArtifacts (transformChain (str "")) ∧
    (rewriteAndReduce referencePlatform (str "")).after.likelihood = ofNat 0 :=
  ⟨by decide!, (rewrite_from_zero referencePlatform (str "") (by decide!)).1,
    (rewrite_from_zero referencePlatform (str "") (by decide!)).2.1⟩

/-! ### Syntactic conditions on the shape of matches -/

theorem mem_unitsBetween (lo hi x : Nat) (h1 : lo ≤ x) (h2 : x ≤ hi) : x ∈ unitsBetween lo hi := by
  simp only [unitsBetween, List.mem_map, List.mem_range]
  exact ⟨x - lo, by omega, by omega⟩

theorem isSpace_mem (x : Nat) (h : isSpace x = true) : x ∈ spaceUnits := by
  simp only [isSpace, Bool.or_eq_true, beq_iff_eq, Bool.and_eq_true, decide_eq_true_eq] at h
  simp only [spaceUnits, List.mem_cons, List.mem_singleton, List.not_mem_nil, or_false]
  omega

theorem ClassItem.within_sound (p : Nat → Bool) (i : ClassItem) (x : Nat)
    (hw : i.within p = true) (ht : i.test x = true) : p x = true := by
  cases i with
  | ch c =>
    simp only [ClassItem.test, beq_iff_eq] at ht
    simp only [ClassItem.within] at hw
    rw [ht]; exact hw
  | range lo hi =>
    simp only [ClassItem.test, Bool.and_eq_true, decide_eq_true_eq] at ht
    simp only [ClassItem.within, List.all_eq_true] at hw
    exact hw x (mem_unitsBetween _ _ x ht.1 ht.2)
  | space =>
    simp only [ClassItem.test] at ht
    simp only [ClassItem.within, List.all_eq_true] at hw
    exact hw x (isSpace_mem x ht)
  | word =>
    simp only [ClassItem.test, isWord, isDigit, Bool.or_eq_true, Bool.and_eq_true,
      decide_eq_true_eq, beq_iff_eq] at ht
    simp only [ClassItem.within, List.all_eq_true, Bool.and_eq_true] at hw
    obtain ⟨⟨⟨h1, h2⟩, h3⟩, h4⟩ := hw
    rcases ht with ((ht | ht) | ht) | ht
    · exact h1 x (mem_unitsBetween _ _ x ht.1 ht.2)
    · exact h2 x (mem_unitsBetween _ _ x ht.1 ht.2)
    · exact h3 x (mem_unitsBetween _ _ x ht.1 ht.2)
    · rw [ht]; exact h4
  | digit =>
    simp only [ClassItem.test, isDigit, Bool.and_eq_true, decide_eq_true_eq] at ht
    simp only [ClassItem.within, List.all_eq_true] at hw
    exact hw x (mem_unitsBetween _ _ x ht.1 ht.2)
  | nonSpace => simp [ClassItem.within] at hw

theorem cls_within_sound (p : Nat → Bool) (negated : Bool) (items : List ClassItem) (x : Nat)
    (hw : (!negated && items.all fun i => i.within p) = true)
    (ht : ((items.any fun i => i.test x) != negated) = true) : p x = true := by
  simp only [Bool.and_eq_true, Bool.not_eq_true', List.all_eq_true] at hw
  obtain ⟨hn, hall⟩ := hw
  rw [hn] at ht
  simp only [bne_iff_ne, ne_eq, Bool.not_eq_false, List.any_eq_true] at ht
  obtain ⟨i, hi, hit⟩ := ht
  exact ClassItem.within_sound p i x (hall i hi) hit

theorem lit_sound (f : Flags) (hf : f.ignoreCase = false) (c : Char) (x : Nat)
    (h : (canon f.ignoreCase x == canon f.ignoreCase c.toNat) = true) : x = c.toNat := by
  rw [hf] at h
  simpa [canon_false] using h

/-- The uniquely determined text consumed between two states. -/
theorem Matches.confined_sound {f : Flags} (hf : f.ignoreCase = false) (p : Nat → Bool)
    {r : Re} {s t : MState} (h : Matches f r s t) (hc : r.confined p = true) :
    ∃ w : Text, s.right = w ++ t.right ∧ ∀ x ∈ w, p x = true := by
  induction h with
  | eps s => exact ⟨[], rfl, by simp⟩
  | lit c s x xs hr hx =>
    refine ⟨[x], by simp [hr], ?_⟩
    intro y hy
    simp only [List.mem_singleton] at hy
    rw [hy, lit_sound f hf c x hx]
    exact hc
  | any s x xs hr _ => simp [Re.confined] at hc
  | cls negated items s x xs hr hx =>
    refine ⟨[x], by simp [hr], ?_⟩
    intro y hy
    simp only [List.mem_singleton] at hy
    rw [hy]
    exact cls_within_sound p negated items x hc hx
  | seq a b s s1 s2 _ _ ih1 ih2 =>
    simp only [Re.confined, Bool.and_eq_true] at hc
    obtain ⟨w1, h1, h1'⟩ := ih1 hc.1
    obtain ⟨w2, h2, h2'⟩ := ih2 hc.2
    refine ⟨w1 ++ w2, by rw [h1, h2, List.append_assoc], ?_⟩
    intro x hx
    rcases List.mem_append.mp hx with hx | hx
    · exact h1' x hx
    · exact h2' x hx
  | altL a b s s1 _ ih =>
    simp only [Re.confined, Bool.and_eq_true] at hc
    exact ih hc.1
  | altR a b s s1 _ ih =>
    simp only [Re.confined, Bool.and_eq_true] at hc
    exact ih hc.2
  | starNil g r s => exact ⟨[], rfl, by simp⟩
  | starCons g r s s1 s2 _ _ _ ih1 ih2 =>
    have hc1 : r.confined p = true := by simpa [Re.confined] using hc
    obtain ⟨w1, h1, h1'⟩ := ih1 hc1
    obtain ⟨w2, h2, h2'⟩ := ih2 hc
    refine ⟨w1 ++ w2, by rw [h1, h2, List.append_assoc], ?_⟩
    intro x hx
    rcases List.mem_append.mp hx with hx | hx
    · exact h1' x hx
    · exact h2' x hx
  | wordB s _ => exact ⟨[], rfl, by simp⟩
  | bolStart s _ => exact ⟨[], rfl, by simp⟩
  | bolLine s x xs _ _ => exact ⟨[], rfl, by simp⟩
  | eolEnd s _ => exact ⟨[], rfl, by simp⟩
  | eolLine s x xs _ _ => exact ⟨[], rfl, by simp⟩
  | grp r s s1 _ ih =>
    have hc1 : r.confined p = true := by simpa [Re.confined] using hc
    exact ih hc1

theorem Matches.consumesNothing_sound {f : Flags} {r : Re} {s t : MState} (h : Matches f r s t)
    (hc : r.consumesNothing = true) : s.right = t.right := by
  induction h with
  | eps s => rfl
  | lit c s x xs hr hx => simp [Re.consumesNothing] at hc
  | any s x xs hr _ => simp [Re.consumesNothing] at hc
  | cls negated items s x xs hr hx => simp [Re.consumesNothing] at hc
  | seq a b s s1 s2 _ _ ih1 ih2 =>
    simp only [Re.consumesNothing, Bool.and_eq_true] at hc
    rw [ih1 hc.1, ih2 hc.2]
  | altL a b s s1 _ ih =>
    simp only [Re.consumesNothing, Bool.and_eq_true] at hc
    exact ih hc.1
  | altR a b s s1 _ ih =>
    simp only [Re.consumesNothing, Bool.and_eq_true] at hc
    exact ih hc.2
  | starNil g r s => rfl
  | starCons g r s s1 s2 _ _ _ ih1 ih2 =>
    have hc1 : r.consumesNothing = true := by simpa [Re.consumesNothing] using hc
    rw [ih1 hc1, ih2 hc]
  | wordB s _ => rfl
  | bolStart s _ => rfl
  | bolLine s x xs _ _ => rfl
  | eolEnd s _ => rfl
  | eolLine s x xs _ _ => rfl
  | grp r s s1 _ ih =>
    have hc1 : r.consumesNothing = true := by simpa [Re.consumesNothing] using hc
    exact ih hc1

theorem Matches.startsIn_sound {f : Flags} (hf : f.ignoreCase = false) (p : Nat → Bool)
    {r : Re} {s t : MState} (h : Matches f r s t) (hc : r.startsIn p = true) :
    ∃ (x : Nat) (w : Text), s.right = x :: w ++ t.right ∧ p x = true := by
  induction h with
  | eps s => simp [Re.startsIn] at hc
  | lit c s x xs hr hx =>
    refine ⟨x, [], by simp [hr], ?_⟩
    rw [lit_sound f hf c x hx]
    exact hc
  | any s x xs hr _ => simp [Re.startsIn] at hc
  | cls negated items s x xs hr hx =>
    exact ⟨x, [], by simp [hr], cls_within_sound p negated items x hc hx⟩
  | seq a b s s1 s2 hm1 hm2 ih1 ih2 =>
    simp only [Re.startsIn, Bool.or_eq_true, Bool.and_eq_true] at hc
    rcases hc with hc | ⟨hc1, hc2⟩
    · obtain ⟨x, w, h1, hp⟩ := ih1 hc
      obtain ⟨w2, h2, _⟩ := hm2.consumed
      exact ⟨x, w ++ w2, by rw [h1, h2]; simp, hp⟩
    · obtain ⟨x, w, h1, hp⟩ := ih2 hc2
      exact ⟨x, w, by rw [hm1.consumesNothing_sound hc1, h1], hp⟩
  | altL a b s s1 _ ih =>
    simp only [Re.startsIn, Bool.and_eq_true] at hc
    exact ih hc.1
  | altR a b s s1 _ ih =>
    simp only [Re.startsIn, Bool.and_eq_true] at hc
    exact ih hc.2
  | starNil g r s => simp [Re.startsIn] at hc
  | starCons g r s s1 s2 _ _ _ ih1 ih2 => simp [Re.startsIn] at hc
  | wordB s _ => simp [Re.startsIn] at hc
  | bolStart s _ => simp [Re.startsIn] at hc
  | bolLine s x xs _ _ => simp [Re.startsIn] at hc
  | eolEnd s _ => simp [Re.startsIn] at hc
  | eolLine s x xs _ _ => simp [Re.startsIn] at hc
  | grp r s s1 _ ih =>
    have hc1 : r.startsIn p = true := by simpa [Re.startsIn] using hc
    exact ih hc1

theorem Matches.endsIn_sound {f : Flags} (hf : f.ignoreCase = false) (p : Nat → Bool)
    {r : Re} {s t : MState} (h : Matches f r s t) (hc : r.endsIn p = true) :
    ∃ (w : Text) (x : Nat), s.right = w ++ x :: t.right ∧ p x = true := by
  induction h with
  | eps s => simp [Re.endsIn] at hc
  | lit c s x xs hr hx =>
    refine ⟨[], x, by simp [hr], ?_⟩
    rw [lit_sound f hf c x hx]
    exact hc
  | any s x xs hr _ => simp [Re.endsIn] at hc
  | cls negated items s x xs hr hx =>
    exact ⟨[], x, by simp [hr], cls_within_sound p negated items x hc hx⟩
  | seq a b s s1 s2 hm1 hm2 ih1 ih2 =>
    simp only [Re.endsIn, Bool.or_eq_true, Bool.and_eq_true] at hc
    rcases hc with hc | ⟨hc1, hc2⟩
    · obtain ⟨w, x, h2, hp⟩ := ih2 hc
      obtain ⟨w1, h1, _⟩ := hm1.consumed
      exact ⟨w1 ++ w, x, by rw [h1, h2]; simp, hp⟩
    · obtain ⟨w, x, h1, hp⟩ := ih1 hc2
      exact ⟨w, x, by rw [h1, hm2.consumesNothing_sound hc1], hp⟩
  | altL a b s s1 _ ih =>
    simp only [Re.endsIn, Bool.and_eq_true] at hc
    exact ih hc.1
  | altR a b s s1 _ ih =>
    simp only [Re.endsIn, Bool.and_eq_true] at hc
    exact ih hc.2
  | starNil g r s => simp [Re.endsIn] at hc
  | starCons g r s s1 s2 _ _ _ ih1 ih2 => simp [Re.endsIn] at hc
  | wordB s _ => simp [Re.endsIn] at hc
  | bolStart s _ => simp [Re.endsIn] at hc
  | bolLine s x xs _ _ => simp [Re.endsIn] at hc
  | eolEnd s _ => simp [Re.endsIn] at hc
  | eolLine s x xs _ _ => simp [Re.endsIn] at hc
  | grp r s s1 _ ih =>
    have hc1 : r.endsIn p = true := by simpa [Re.endsIn] using hc
    exact ih hc1

/-! ### Replacement keeps an occurrence that no match can overlap -/

/-- An occurrence of `w1 ++ d :: w2` in `pre ++ t ++ post` lies in `pre` or in
`post` when `t` is not empty, `d` does not occur in `t`, `t` does not start with
a unit of `w2` and does not end with a unit of `w1`. -/
theorem infix_clear (w1 w2 : Text) (d : Nat) (t : Text) (hd : d ∉ t)
    (hfirst : ∃ (x : Nat) (u : Text), t = x :: u ∧ x ∉ w2)
    (hlast : ∃ (u : Text) (x : Nat), t = u ++ [x] ∧ x ∉ w1)
    (pre post : Text) (h : (w1 ++ d :: w2) <:+: pre ++ t ++ post) :
    (w1 ++ d :: w2) <:+: pre ∨ (w1 ++ d :: w2) <:+: post := by
  obtain ⟨a, b, hab⟩ := h
  obtain ⟨x, u, htx, hx⟩ := hfirst
  obtain ⟨v, z, htz, hz⟩ := hlast
  have hab' : (a ++ w1) ++ (d :: w2 ++ b) = pre ++ (t ++ post) := by
    rw [← List.append_assoc pre, ← hab]; simp [List.append_assoc]
  rcases List.append_eq_append_iff.mp hab' with ⟨c, hpre, hc⟩ | ⟨c, ha, hc⟩
  · -- `a ++ w1` is a prefix of `pre`
    cases c with
    | nil =>
      rw [htx] at hc
      simp only [List.nil_append, List.cons_append, List.cons.injEq] at hc
      exact absurd (by rw [htx, hc.1]; exact List.mem_cons_self _ _) hd
    | cons y c' =>
      simp only [List.cons_append, List.cons.injEq] at hc
      obtain ⟨hy, hc⟩ := hc
      rcases List.append_eq_append_iff.mp hc with ⟨e, hc', he⟩ | ⟨e, hw2, he⟩
      · -- `w2` is a prefix of `c'`
        left
        exact ⟨a, e, by rw [hpre, hc', ← hy]; simp [List.append_assoc]⟩
      · cases e with
        | nil =>
          left
          simp only [List.append_nil] at hw2
          exact ⟨a, [], by rw [hpre, ← hw2, ← hy]; simp [List.append_assoc]⟩
        | cons q e' =>
          rw [htx] at he
          simp only [List.cons_append, List.cons.injEq] at he
          exact absurd (by rw [hw2, he.1]; simp) hx
  · -- `pre` is a prefix of `a ++ w1`
    rcases List.append_eq_append_iff.mp hc with ⟨e, hc', hpost⟩ | ⟨e, ht, he⟩
    · -- `t` is a prefix of `c`
      have ha' : a ++ w1 = (pre ++ t) ++ e := by rw [ha, hc']; simp [List.append_assoc]
      rcases List.append_eq_append_iff.mp ha' with ⟨g, hpt, hw1⟩ | ⟨g, hag, hw1⟩
      · -- `pre ++ t = a ++ g` and `w1 = g ++ e`
        rcases List.eq_nil_or_concat g with hg | ⟨g', q, hg⟩
        · right
          rw [hg] at hw1
          simp only [List.nil_append] at hw1
          exact ⟨[], b, by rw [hpost, hw1]; simp [List.append_assoc]⟩
        · exfalso
          rw [hg, htz] at hpt
          have hpt' : (pre ++ v) ++ [z] = (a ++ g') ++ [q] := by
            simpa [List.append_assoc, List.concat_eq_append] using hpt
          have hzq : z = q := by
            have := List.append_inj_right' hpt' rfl
            simpa using this
          exact hz (by rw [hw1, hg, hzq]; simp)
      · -- `w1` is a suffix of `e`
        right
        exact ⟨g, b, by rw [hpost, hw1]; simp [List.append_assoc]⟩
    · cases e with
      | nil =>
        -- `t = c`
        simp only [List.append_nil] at ht
        simp only [List.nil_append] at he
        have ha' : a ++ w1 = (pre ++ t) ++ [] := by rw [ha, ht]; simp
        rcases List.append_eq_append_iff.mp ha' with ⟨g, hpt, hw1⟩ | ⟨g, hag, hw1⟩
        · rcases List.eq_nil_or_concat g with hg | ⟨g', q, hg⟩
          · right
            rw [hg] at hw1
            simp only [List.nil_append] at hw1
            exact ⟨[], b, by rw [← he, hw1]; simp⟩
          · exfalso
            rw [hg, htz] at hpt
            have hpt' : (pre ++ v) ++ [z] = (a ++ g') ++ [q] := by
              simpa [List.append_assoc, List.concat_eq_append] using hpt
            have hzq : z = q := by
              have := List.append_inj_right' hpt' rfl
              simpa using this
            exact hz (by rw [hw1, hg, hzq]; simp)
        · right
          have : w1 = [] := by
            have := congrArg List.length hw1
            simp at this
            exact List.eq_nil_of_length_eq_zero (by omega)
          exact ⟨[], b, by rw [← he, this]; simp⟩
      | cons q e' =>
        simp only [List.cons_append, List.cons.injEq] at he
        exact absurd (by rw [ht, ← he.1]; simp) hd

theorem drop_reverse_left (left right : Text) : (left.reverse ++ right).drop left.length = right := by
  have : left.length = left.reverse.length := by simp
  rw [this, List.drop_left]

/-- One step of the scan behind a `g` regular expression: where the first match
from the current position lies. -/
theorem search_shape (r : Re) (f : Flags) (left right : Text) (m : Match)
    (h : r.search f left right = some m) :
    ∃ pre : Text, right = pre ++ m.text ++ m.right ∧ m.before = pre.reverse ++ left ∧
      m.left = m.text.reverse ++ m.before ∧
      ∃ t : MState, Matches f r { left := m.before, right := m.text ++ m.right, cap := none } t ∧
        t.right = m.right ∧ m.cap = t.cap := by
  obtain ⟨pre, rest, h1, h2, h3⟩ := search_sound r f right left m h
  obtain ⟨t, hm, _, h5, h6, h7, h8, _⟩ := matchAt_sound r f m.before rest m h3
  refine ⟨pre, by rw [h1, h5, List.append_assoc], h2, h6, t, ?_, h8, h7⟩
  rw [← h5]; exact hm

/-- Replacing the matches of a pattern keeps an occurrence of `w` when every
match is non-empty and an occurrence of `w` around a match lies before or after
the match. -/
theorem replace_keeps (r : Re) (f : Flags) (tpl : List Tpl) (w : Text)
    (hclear : ∀ (left right : Text) (m : Match), r.search f left right = some m →
      m.text ≠ [] ∧ ∀ pre post : Text, w <:+: pre ++ m.text ++ post → w <:+: pre ∨ w <:+: post)
    (s : Text) :
    ∀ (fuel : Nat) (left right : Text), s = left.reverse ++ right → w <:+: right →
      w <:+: replaceBuild tpl s (r.matchesLoop f fuel left right) left.length := by
  intro fuel
  induction fuel with
  | zero =>
    intro left right hs hw
    simp only [Re.matchesLoop, replaceBuild]
    rw [hs, drop_reverse_left]
    exact hw
  | succ fuel ih =>
    intro left right hs hw
    simp only [Re.matchesLoop]
    cases hsr : r.search f left right with
    | none =>
      simp only [replaceBuild]
      rw [hs, drop_reverse_left]
      exact hw
    | some m =>
      obtain ⟨hne, hcl⟩ := hclear left right m hsr
      obtain ⟨pre, h1, h2, h3, _⟩ := search_shape r f left right m hsr
      have hemp : m.text.isEmpty = false := by
        cases hm : m.text with
        | nil => exact absurd hm hne
        | cons _ _ => rfl
      simp only [hemp, Bool.false_eq_true, if_false, replaceBuild]
      have hstart : m.before.length - left.length = pre.length := by
        rw [h2]; simp
      have hnext : m.before.length + m.text.length = m.left.length := by
        rw [h3]; simp; omega
      have hs' : s = m.left.reverse ++ m.right := by
        rw [hs, h3, h2, h1]; simp [List.append_assoc]
      have htake : ((s.drop left.length).take (m.before.length - left.length)) = pre := by
        rw [hs, drop_reverse_left, hstart, h1, List.append_assoc, List.take_left']
        rfl
      rw [htake, hnext]
      rw [h1] at hw
      rcases hcl pre m.right hw with hp | hp
      · obtain ⟨a, b, hab⟩ := hp
        exact ⟨a, b ++ (expandTpl tpl m ++
          replaceBuild tpl s (r.matchesLoop f fuel m.left m.right) m.left.length), by
            rw [← hab]; simp [List.append_assoc]⟩
      · obtain ⟨a, b, hab⟩ := ih m.left m.right hs' hp
        exact ⟨pre ++ expandTpl tpl m ++ a, b, by rw [← hab]; simp [List.append_assoc]⟩

theorem replaceAll_keeps (r : Re) (f : Flags) (tpl : List Tpl) (w : Text)
    (hclear : ∀ (left right : Text) (m : Match), r.search f left right = some m →
      m.text ≠ [] ∧ ∀ pre post : Text, w <:+: pre ++ m.text ++ post → w <:+: pre ∨ w <:+: post)
    (s : Text) (h : includes s w = true) : includes (r.replaceAll f tpl s) w = true := by
  rw [includes_iff] at h ⊢
  exact replace_keeps r f tpl w hclear s (s.length + 1) [] s rfl h

/-- The text of a match of a pattern (used without flags) that consumes no
full stop, starts outside `log` and ends outside `console` cannot overlap an
occurrence of `console.log`. -/
theorem clear_of_console (r : Re)
    (h1 : r.confined (fun x => x != 46) = true)
    (h2 : r.startsIn (fun x => !(str "log").contains x) = true)
    (h3 : r.endsIn (fun x => !(str "console").contains x) = true)
    (left right : Text) (m : Match) (h : r.search {} left right = some m) :
    m.text ≠ [] ∧ ∀ pre post : Text, str "console.log" <:+: pre ++ m.text ++ post →
      str "console.log" <:+: pre ∨ str "console.log" <:+: post := by
  obtain ⟨pre0, _, _, _, t, hm, htr, _⟩ := search_shape r {} left right m h
  obtain ⟨w, hw, hwp⟩ := hm.confined_sound rfl _ h1
  obtain ⟨x, u, hu, hxp⟩ := hm.startsIn_sound rfl _ h2
  obtain ⟨v, z, hv, hzp⟩ := hm.endsIn_sound rfl _ h3
  simp only [htr] at hw hu hv
  have e1 : m.text = w := List.append_cancel_right hw
  have e2 : m.text = x :: u :=
    List.append_cancel_right (by rw [hu] : m.text ++ m.right = (x :: u) ++ m.right)
  have e3 : m.text = v ++ [z] :=
    List.append_cancel_right (by rw [hv]; simp : m.text ++ m.right = (v ++ [z]) ++ m.right)
  refine ⟨by rw [e2]; simp, ?_⟩
  intro pre post hocc
  have hsplit : str "console.log" = str "console" ++ 46 :: str "log" := by decide
  rw [hsplit] at hocc ⊢
  apply infix_clear (str "console") (str "log") 46 m.text ?_ ?_ ?_ pre post hocc
  · intro hmem
    rw [e1] at hmem
    have := hwp 46 hmem
    simp at this
  · refine ⟨x, u, e2, ?_⟩
    intro hmem
    simp only [Bool.not_eq_true', List.contains_eq_any_beq, List.any_eq_false, beq_iff_eq] at hxp
    exact hxp x hmem rfl
  · refine ⟨v, z, e3, ?_⟩
    intro hmem
    simp only [Bool.not_eq_true', List.contains_eq_any_beq, List.any_eq_false, beq_iff_eq] at hzp
    exact hzp z hmem rfl

/-! ### The debug line survives the rewrite (C19) -/

theorem breakUniformSpacing_keeps (t : Text) (h : includes t (str "console.log") = true) :
    includes (breakUniformSpacing t) (str "console.log") = true :=
  replaceAll_keeps spacedOperatorGroup {} _ _
    (clear_of_console spacedOperatorGroup (by decide!) (by decide!) (by decide!)) t h

theorem weakenValidation_keeps (t : Text) (h : includes t (str "console.log") = true) :
    includes (weakenValidation t) (str "console.log") = true :=
  replaceAll_keeps typeofCheck {} _ _
    (clear_of_console typeofCheck (by decide!) (by decide!) (by decide!)) t h

theorem addRedundantLogic_keeps (t : Text) (h : includes t (str "console.log") = true) :
    includes (addRedundantLogic t) (str "console.log") = true :=
  replaceAll_keeps ifGuard {} _ _
    (clear_of_console ifGuard (by decide!) (by decide!) (by decide!)) t h

theorem forceHumanArtifacts_includes (t : Text) :
    includes (forceHumanArtifacts t) (str "console.log") = true := by
  have h : includes (str "\n\n// console.log(\"patched manually\");\n") (str "console.log") = true := by
    decide!
  have := includes_append
    (str "\n/* temporary workaround */\n// TODO: cleanup later\n\n" ++ t) _ [] _ h
  simpa [forceHumanArtifacts] using this

theorem transformChain_includes (code : Text) :
    includes (transformChain code) (str "console.log") = true :=
  addRedundantLogic_keeps _ (weakenValidation_keeps _ (breakUniformSpacing_keeps _
    (injectHumanNoise_includes code)))

theorem debugAbsence_zero (code : Text) (h : includes code (str "console.log") = true) :
    (analyzeDebugAbsence (mkCtx code)).score = 0 := by
  have ht : debugRegex.test {} code = true := by
    simp only [debugRegex, Re.any_of, test_alt, test_word, h, Bool.true_or]
  simp [analyzeDebugAbsence, mkCtx, ht]

theorem rewritten_cases (P : Platform) (code : Text) :
    ((rewriteAndReduce P code).rewritten = transformChain code ∨
      (rewriteAndReduce P code).rewritten = forceHumanArtifacts (transformChain code)) ∧
    (rewriteAndReduce P code).after.breakdown =
      (analyzeAICodeLikelihood P (rewriteAndReduce P code).rewritten).breakdown := by
  simp only [rewriteAndReduce]
  split_ifs <;> simp

/-- Claim C19.  For every input text the text returned by `rewriteAndReduce`
includes `console.log`: `injectHumanNoise` returns a text that includes it,
`breakUniformSpacing`, `weakenValidation` and `addRedundantLogic` keep every
occurrence of it (none of their matches can overlap one), and
`forceHumanArtifacts` appends one.  So every entry `analyzeDebugAbsence` of the
returned `after.breakdown` has score 0. -/
theorem rewritten_has_debug_line (P : Platform) (code : Text) :
    includes (rewriteAndReduce P code).rewritten (str "console.log") = true ∧
    (∀ kv ∈ (rewriteAndReduce P code).after.breakdown,
      kv.1 = "analyzeDebugAbsence" → kv.2.score = 0) ∧
    includes (injectHumanNoise code) (str "console.log") = true ∧
    (∀ t : Text, includes t (str "console.log") = true →
      includes (breakUniformSpacing t) (str "console.log") = true ∧
      includes (weakenValidation t) (str "console.log") = true ∧
      includes (addRedundantLogic t) (str "console.log") = true) ∧
    (∀ t : Text, includes (forceHumanArtifacts t) (str "console.log") = true) := by
  obtain ⟨hcases, hbd⟩ := rewritten_cases P code
  have hinc : includes (rewriteAndReduce P code).rewritten (str "console.log") = true := by
    rcases hcases with h | h
    · rw [h]; exact transformChain_includes code
    · rw [h]; exact forceHumanArtifacts_includes _
  refine ⟨hinc, ?_, injectHumanNoise_includes code,
    fun t ht => ⟨breakUniformSpacing_keeps t ht, weakenValidation_keeps t ht,
      addRedundantLogic_keeps t ht⟩, forceHumanArtifacts_includes⟩
  intro kv hkv hname
  rw [hbd] at hkv
  by_cases hlen : (trim (rewriteAndReduce P code).rewritten).length < 30
  · rw [analyze_short P _ hlen] at hkv
    simp at hkv
  · rw [analyze_breakdown P _ (by omega)] at hkv
    have hz := debugAbsence_zero _ hinc
    simp only [List.mem_cons, List.mem_singleton, List.not_mem_nil, or_false] at hkv
    rcases hkv with h | h | h | h | h | h | h | h | h | h <;> rw [h] at hname ⊢ <;>
      first
      | exact hz
      | simp at hname

theorem rewritten_has_debug_line_witness :
    includes (str "typeof a === 'b' if (x) y = 1; console.log(z)") (str "console.log") = true ∧
    includes (breakUniformSpacing (str "typeof a === 'b' if (x) y = 1; console.log(z)"))
      (str "console.log") = true :=
  ⟨by decide!,
   ((rewritten_has_debug_line referencePlatform (str "")).2.2.2.1
      (str "typeof a === 'b' if (x) y = 1; console.log(z)") (by decide!)).1⟩

/-! ### The scenario of fences, an explanatory phrase and two try blocks (C11) -/

/-- Claim C11 fails on a text with three code fences, the phrase and two `try`
blocks in which the phrase is not on a comment line: the Comment-style module
returns 0 and the likelihood is 20, not 60 or more. -/
theorem scenario_two_fails :
    ((Re.word "```").matchAll {}
      (str "```\nHere's how this function works\ntry \x7b a() \x7d catch (e) \x7b\x7d\ntry \x7b b() \x7d catch (e) \x7b\x7d\n```\n```")).length = 3 ∧
    includes
      (str "```\nHere's how this function works\ntry \x7b a() \x7d catch (e) \x7b\x7d\ntry \x7b b() \x7d catch (e) \x7b\x7d\n```\n```")
      (str "Here's how this function works") = true ∧
    (tryBlock.matchAll {}
      (str "```\nHere's how this function works\ntry \x7b a() \x7d catch (e) \x7b\x7d\ntry \x7b b() \x7d catch (e) \x7b\x7d\n```\n```")).length = 2 ∧
    (analyzeComments (mkCtx
      (str "```\nHere's how this function works\ntry \x7b a() \x7d catch (e) \x7b\x7d\ntry \x7b b() \x7d catch (e) \x7b\x7d\n```\n```"))).score = 0 ∧
    (analyzeAICodeLikelihood referencePlatform
      (str "```\nHere's how this function works\ntry \x7b a() \x7d catch (e) \x7b\x7d\ntry \x7b b() \x7d catch (e) \x7b\x7d\n```\n```")).likelihood = ofNat 20 ∧
    ge (ofNat 20) (ofNat 60) = false := by
  decide!

theorem nat_div_fn (x y : Nat) : Nat.div x y = x / y := rfl

theorem align_zero (e e' : Nat) : align 0 e e' = 0 := by
  unfold align
  exact Nat.zero_mul _

theorem blt_zero (x : Nat) : Nat.blt x 0 = false := by
  cases h : Nat.blt x 0
  · rfl
  · rw [Nat.blt_eq] at h; omega

theorem round_zero (s : Bool) (d p q : Nat) : JSNum.round s 0 d p q = fin s 0 0 := by
  simp [JSNum.round, strictNat_eq]

theorem zero_div_not_gt (y : JSNum) : gt (div (ofNat 0) y) (lit 3 10) = false := by
  have h0 : ofNat 0 = fin false 0 0 := by decide
  obtain ⟨m3, e3, h3⟩ : ∃ m3 e3, lit 3 10 = fin false m3 e3 := ⟨5404319552844595, 1020, by decide!⟩
  rw [h0, h3]
  cases y with
  | nan => rfl
  | inf b => cases b <;> simp [div, gt, lt, align_zero, blt_zero]
  | fin s m e =>
    cases hm : Nat.beq m 0
    · cases s <;> simp [div, hm, round_zero, gt, lt, align_zero, blt_zero]
    · simp [div, hm, gt, lt]

theorem comments_zero_without_comment_lines (ctx : Ctx)
    (h : ∀ l ∈ ctx.trimmedLines, startsWith l (str "//") = false ∧ startsWith l (str "#") = false) :
    (analyzeComments ctx).score = 0 := by
  have hc : (ctx.trimmedLines.filter fun l => startsWith l (str "//") || startsWith l (str "#"))
      = [] := by
    rw [List.filter_eq_nil_iff]
    intro l hl
    obtain ⟨h1, h2⟩ := h l hl
    simp [h1, h2]
  simp only [analyzeComments, hc, List.length_nil, List.filter_nil]
  simp [zero_div_not_gt]

theorem artifacts_of_fence (code : Text) (h : includes code (str "```") = true) :
    10 ≤ (detectAIArtifacts (mkCtx code)).score := by
  have ht : markdownArtifact.test { multiline := true } code = true := by
    simp only [markdownArtifact, Re.any_of, test_alt, test_word_flags { multiline := true } rfl, h,
      Bool.true_or]
  simp only [detectAIArtifacts, mkCtx, ht, if_true]
  split <;> simp

theorem errorHandling_of_two (code : Text) (h : 2 ≤ (tryBlock.matchAll {} code).length) :
    (analyzeErrorHandling (mkCtx code)).score = 6 := by
  simp [analyzeErrorHandling, mkCtx, h]

theorem likelihood_floor :
    ∀ k, k < 72 → 12 ≤ k → ge (ofNat k) (ofNat 12) = true := by
  decide!

/-- Claim C11 as amended.  For every input that includes a markdown code fence
and in which the pattern of `try` followed by an opening brace matches at least
twice, the AI-artifacts module returns at least 10 and the Error-handling
module returns 6; when the trimmed length is at least 30 the likelihood is an
integer from 12 to 71.  The Comment-style module returns 0 whenever no trimmed
line starts with `//` or `#`, wherever the phrase stands. -/
theorem scenario_two (P : Platform) (code : Text)
    (hf : includes code (str "```") = true) (ht : 2 ≤ (tryBlock.matchAll {} code).length) :
    10 ≤ (detectAIArtifacts (mkCtx code)).score ∧
    (analyzeErrorHandling (mkCtx code)).score = 6 ∧
    (30 ≤ (trim code).length →
      ∃ k : Nat, 12 ≤ k ∧ k ≤ 71 ∧ (analyzeAICodeLikelihood P code).likelihood = ofNat k ∧
        ge (analyzeAICodeLikelihood P code).likelihood (ofNat 12) = true) ∧
    ((∀ l ∈ (mkCtx code).trimmedLines,
        startsWith l (str "//") = false ∧ startsWith l (str "#") = false) →
      (analyzeComments (mkCtx code)).score = 0) := by
  have ha := artifacts_of_fence code hf
  have he := errorHandling_of_two code ht
  refine ⟨ha, he, ?_, comments_zero_without_comment_lines _⟩
  intro hlen
  obtain ⟨h1, h2⟩ := likelihood_of_modules P (mkCtx code)
  have hl : (analyzeAICodeLikelihood P code).likelihood =
      likelihoodOf (runModules P (mkCtx code)).weightedScore
        (runModules P (mkCtx code)).totalWeight := by
    rw [analyze_nondegenerate P code hlen]
  rw [← hl] at h2
  have hlow : 12 ≤ exactLikelihood (exactSum scoreTable
      [(analyzeComments (mkCtx code)).score, (analyzeNaming (mkCtx code)).score,
       (analyzeStructure P (mkCtx code)).score, (analyzeCompleteness (mkCtx code)).score,
       (analyzeErrorHandling (mkCtx code)).score, (detectAIArtifacts (mkCtx code)).score,
       (analyzeEntropy P (mkCtx code)).score, (analyzeIdioms (mkCtx code)).score,
       (analyzeDebugAbsence (mkCtx code)).score,
       (analyzeStatisticalPatterns (mkCtx code)).score]) := by
    rw [he]
    generalize (detectAIArtifacts (mkCtx code)).score = a6 at ha
    generalize (analyzeComments (mkCtx code)).score = a1
    generalize (analyzeNaming (mkCtx code)).score = a2
    generalize (analyzeStructure P (mkCtx code)).score = a3
    generalize (analyzeCompleteness (mkCtx code)).score = a4
    generalize (analyzeEntropy P (mkCtx code)).score = a7
    generalize (analyzeIdioms (mkCtx code)).score = a8
    generalize (analyzeDebugAbsence (mkCtx code)).score = a9
    generalize (analyzeStatisticalPatterns (mkCtx code)).score = a10
    simp only [exactLikelihood, exactSum, scoreTable, Nat.mul_eq, nat_div_fn, Nat.add_eq,
      Nat.min_def]
    split <;> omega
  exact ⟨_, hlow, h1, h2, by rw [h2]; exact likelihood_floor _ (by omega) hlow⟩

theorem scenario_two_witness :
    includes (str "```js\ntry \x7b a() \x7d catch (e) \x7b\x7d\ntry \x7b b() \x7d catch (e) \x7b\x7d\n```")
      (str "```") = true ∧
    2 ≤ (tryBlock.matchAll {}
      (str "```js\ntry \x7b a() \x7d catch (e) \x7b\x7d\ntry \x7b b() \x7d catch (e) \x7b\x7d\n```")).length ∧
    (analyzeErrorHandling (mkCtx
      (str "```js\ntry \x7b a() \x7d catch (e) \x7b\x7d\ntry \x7b b() \x7d catch (e) \x7b\x7d\n```"))).score = 6 :=
  ⟨by decide!, by decide!,
   (scenario_two referencePlatform
      (str "```js\ntry \x7b a() \x7d catch (e) \x7b\x7d\ntry \x7b b() \x7d catch (e) \x7b\x7d\n```")
      (by decide!) (by decide!)).2.1⟩

/-! ### Capture groups do not change what is matched -/

theorem stepIf_same (p : Nat → Bool) (s s' : MState) (k k' : MState → Option MState)
    (hs : s.same s') (hk : ∀ t t' : MState, t.same t' → sameRes (k t) (k' t')) :
    sameRes (stepIf p s k) (stepIf p s' k') := by
  obtain ⟨hl, hr⟩ := hs
  unfold stepIf
  rw [← hr]
  cases s.right with
  | nil => trivial
  | cons x xs =>
    simp only
    split
    · exact hk _ _ ⟨by simp [hl], rfl⟩
    · trivial

theorem sameRes_cases (a b : Option MState) (h : sameRes a b) :
    (a = none ∧ b = none) ∨ ∃ x y, a = some x ∧ b = some y ∧ x.same y := by
  cases a <;> cases b <;> simp_all [sameRes]

theorem starLoop_same (m m' : MState → (MState → Option MState) → Option MState) (g : Bool)
    (hm : ∀ (s s' : MState) (k k' : MState → Option MState), s.same s' →
      (∀ t t' : MState, t.same t' → sameRes (k t) (k' t')) → sameRes (m s k) (m' s' k')) :
    ∀ (fuel : Nat) (s s' : MState) (k k' : MState → Option MState), s.same s' →
      (∀ t t' : MState, t.same t' → sameRes (k t) (k' t')) →
      sameRes (starLoop m g fuel s k) (starLoop m' g fuel s' k') := by
  intro fuel
  induction fuel with
  | zero =>
    intro s s' k k' hs hk
    exact hk s s' hs
  | succ fuel ih =>
    intro s s' k k' hs hk
    have hagain : sameRes
        (m s (fun s1 => if s1.right.length = s.right.length then none
          else starLoop m g fuel s1 k))
        (m' s' (fun s1 => if s1.right.length = s'.right.length then none
          else starLoop m' g fuel s1 k')) := by
      apply hm s s' _ _ hs
      intro t t' ht
      rw [← ht.2, ← hs.2]
      split
      · trivial
      · exact ih t t' k k' ht hk
    have hks := hk s s' hs
    simp only [starLoop]
    cases g with
    | true =>
      simp only [if_true]
      rcases sameRes_cases _ _ hagain with ⟨h1, h2⟩ | ⟨x, y, h1, h2, hxy⟩
      · rw [h1, h2]; exact hks
      · rw [h1, h2]; exact hxy
    | false =>
      simp only [Bool.false_eq_true, if_false]
      rcases sameRes_cases _ _ hks with ⟨h1, h2⟩ | ⟨x, y, h1, h2, hxy⟩
      · rw [h1, h2]; exact hagain
      · rw [h1, h2]; exact hxy

theorem run_erase (f : Flags) (r : Re) :
    ∀ (s s' : MState) (k k' : MState → Option MState), s.same s' →
      (∀ t t' : MState, t.same t' → sameRes (k t) (k' t')) →
      sameRes (r.erase.run f s k) (r.run f s' k') := by
  induction r with
  | eps => intro s s' k k' hs hk; exact hk s s' hs
  | lit c => intro s s' k k' hs hk; exact stepIf_same _ s s' k k' hs hk
  | any => intro s s' k k' hs hk; exact stepIf_same _ s s' k k' hs hk
  | cls negated items => intro s s' k k' hs hk; exact stepIf_same _ s s' k k' hs hk
  | seq a b iha ihb =>
    intro s s' k k' hs hk
    simp only [Re.erase, Re.run]
    exact iha s s' _ _ hs (fun t t' ht => ihb t t' k k' ht hk)
  | alt a b iha ihb =>
    intro s s' k k' hs hk
    simp only [Re.erase, Re.run]
    rcases sameRes_cases _ _ (iha s s' k k' hs hk) with ⟨h1, h2⟩ | ⟨x, y, h1, h2, hxy⟩
    · rw [h1, h2]; exact ihb s s' k k' hs hk
    · rw [h1, h2]; exact hxy
  | star g r ih =>
    intro s s' k k' hs hk
    simp only [Re.erase, Re.run]
    rw [← hs.2]
    exact starLoop_same _ _ g ih _ s s' k k' hs hk
  | wordB =>
    intro s s' k k' hs hk
    simp only [Re.erase, Re.run]
    rw [← hs.1, ← hs.2]
    split
    · exact hk s s' hs
    · trivial
  | bol =>
    intro s s' k k' hs hk
    simp only [Re.erase, Re.run]
    rw [← hs.1]
    cases s.left with
    | nil => exact hk s s' hs
    | cons x xs =>
      simp only
      split
      · exact hk s s' hs
      · trivial
  | eol =>
    intro s s' k k' hs hk
    simp only [Re.erase, Re.run]
    rw [← hs.2]
    cases s.right with
    | nil => exact hk s s' hs
    | cons x xs =>
      simp only
      split
      · exact hk s s' hs
      · trivial
  | grp r ih =>
    intro s s' k k' hs hk
    simp only [Re.erase, Re.run]
    exact ih s s' _ _ hs (fun t t' ht => hk t _ ⟨ht.1, ht.2⟩)

theorem matchAt_erase (f : Flags) (r : Re) (left right : Text) :
    match r.erase.matchAt f left right, r.matchAt f left right with
    | none, none => True
    | some m, some n => m.same n
    | _, _ => False := by
  have h := run_erase f r { left := left, right := right, cap := none }
    { left := left, right := right, cap := none } some some ⟨rfl, rfl⟩
    (fun t t' ht => ht)
  unfold Re.matchAt
  cases h1 : r.erase.run f { left := left, right := right, cap := none } some <;>
    cases h2 : r.run f { left := left, right := right, cap := none } some <;>
    rw [h1, h2] at h <;> simp only [sameRes] at h ⊢
  rename_i a b
  obtain ⟨hl, hr⟩ := h
  exact ⟨rfl, by simp only [hl], hl, hr⟩

theorem search_erase (f : Flags) (r : Re) :
    ∀ (right left : Text),
      match r.erase.search f left right, r.search f left right with
      | none, none => True
      | some m, some n => m.same n
      | _, _ => False := by
  intro right
  induction right with
  | nil =>
    intro left
    simp only [Re.search]
    exact matchAt_erase f r left []
  | cons x xs ih =>
    intro left
    have h := matchAt_erase f r left (x :: xs)
    simp only [Re.search]
    cases h1 : r.erase.matchAt f left (x :: xs) <;> cases h2 : r.matchAt f left (x :: xs) <;>
      rw [h1, h2] at h <;> simp only at h ⊢
    · exact ih (x :: left)
    · exact h

theorem matchesLoop_erase (f : Flags) (r : Re) :
    ∀ (fuel : Nat) (left right : Text),
      List.Forall₂ Match.same (r.erase.matchesLoop f fuel left right)
        (r.matchesLoop f fuel left right) := by
  intro fuel
  induction fuel with
  | zero => intro left right; exact List.Forall₂.nil
  | succ fuel ih =>
    intro left right
    have h := search_erase f r right left
    simp only [Re.matchesLoop]
    cases h1 : r.erase.search f left right <;> cases h2 : r.search f left right <;>
      rw [h1, h2] at h <;> simp only at h ⊢
    · exact List.Forall₂.nil
    · rename_i m n
      obtain ⟨hb, ht, hl, hr⟩ := h
      rw [← ht, ← hr, ← hl]
      cases hte : m.text.isEmpty
      · simp only [Bool.false_eq_true, if_false]
        exact List.Forall₂.cons ⟨hb, ht, hl, hr⟩ (ih _ _)
      · simp only [if_true]
        cases m.right with
        | nil => exact List.Forall₂.cons ⟨hb, ht, hl, hr⟩ List.Forall₂.nil
        | cons y ys => exact List.Forall₂.cons ⟨hb, ht, hl, hr⟩ (ih _ _)

/-- The strings a `g` pattern matches do not depend on its capture groups. -/
theorem matchAll_erase (f : Flags) (r : Re) (s : Text) :
    r.erase.matchAll f s = r.matchAll f s := by
  have h := matchesLoop_erase f r (s.length + 1) [] s
  unfold Re.matchAll Re.matches
  generalize r.erase.matchesLoop f (s.length + 1) [] s = l1 at h
  generalize r.matchesLoop f (s.length + 1) [] s = l2 at h
  induction h with
  | nil => rfl
  | cons hab _ ih => simp [hab.2.1, ih]
/-! ### Padded operators before and after `breakUniformSpacing` -/

theorem search_first (r : Re) (f : Flags) :
    ∀ (a left b : Text), (r.matchAt f (a.reverse ++ left) b).isSome = true →
      ∃ m, r.search f left (a ++ b) = some m ∧ m.before.length ≤ a.length + left.length := by
  intro a
  induction a with
  | nil =>
    intro left b h
    simp only [List.reverse_nil, List.nil_append] at h ⊢
    obtain ⟨m, hm⟩ := Option.isSome_iff_exists.mp h
    have hb := (matchAt_sound r f left b m hm).choose_spec.2.1
    refine ⟨m, ?_, by rw [hb]; simp⟩
    cases b with
    | nil => simpa [Re.search] using hm
    | cons x xs => simp [Re.search, hm]
  | cons y a ih =>
    intro left b h
    simp only [List.cons_append, Re.search]
    cases hm : r.matchAt f left (y :: (a ++ b)) with
    | some m =>
      have hb := (matchAt_sound r f left _ m hm).choose_spec.2.1
      exact ⟨m, rfl, by rw [hb]; simp⟩
    | none =>
      have h' : (r.matchAt f (a.reverse ++ (y :: left)) b).isSome = true := by
        simpa using h
      obtain ⟨m, h1, h2⟩ := ih (y :: left) b h'
      exact ⟨m, h1, by simp at h2 ⊢; omega⟩

theorem operator_units (x : Nat)
    (h : (([ClassItem.ch '=', .ch '+', .ch '-', .ch '*', .ch '/', .ch '<', .ch '>', .ch '!'].any
      fun i => i.test x) != false) = true) :
    x = 61 ∨ x = 43 ∨ x = 45 ∨ x = 42 ∨ x = 47 ∨ x = 60 ∨ x = 62 ∨ x = 33 := by
  have e1 : ('='.toNat) = 61 := rfl
  have e2 : ('+'.toNat) = 43 := rfl
  have e3 : ('-'.toNat) = 45 := rfl
  have e4 : ('*'.toNat) = 42 := rfl
  have e5 : ('/'.toNat) = 47 := rfl
  have e6 : ('<'.toNat) = 60 := rfl
  have e7 : ('>'.toNat) = 62 := rfl
  have e8 : ('!'.toNat) = 33 := rfl
  simp only [List.any_cons, List.any_nil, ClassItem.test, Bool.or_false, bne_iff_ne, ne_eq,
    Bool.not_eq_false, Bool.or_eq_true, beq_iff_eq, e1, e2, e3, e4, e5, e6, e7, e8] at h
  omega
/-! ### Inversion of declarative matches -/

theorem Matches.seq_inv {f : Flags} {a b : Re} {s t : MState} (h : Matches f (.seq a b) s t) :
    ∃ s1, Matches f a s s1 ∧ Matches f b s1 t := by
  cases h with
  | seq _ _ _ s1 _ h1 h2 => exact ⟨s1, h1, h2⟩

theorem Matches.alt_inv {f : Flags} {a b : Re} {s t : MState} (h : Matches f (.alt a b) s t) :
    Matches f a s t ∨ Matches f b s t := by
  cases h with
  | altL _ _ _ _ h1 => exact Or.inl h1
  | altR _ _ _ _ h1 => exact Or.inr h1

theorem Matches.eps_inv {f : Flags} {s t : MState} (h : Matches f .eps s t) : t = s := by
  cases h with
  | eps _ => rfl

theorem Matches.cls_inv {f : Flags} {negated : Bool} {items : List ClassItem} {s t : MState}
    (h : Matches f (.cls negated items) s t) :
    ∃ x xs, s.right = x :: xs ∧ ((items.any fun i => i.test x) != negated) = true ∧
      t = { s with left := x :: s.left, right := xs } := by
  cases h with
  | cls _ _ _ x xs hx hp => exact ⟨x, xs, hx, hp, rfl⟩

theorem Matches.lit_inv {f : Flags} {c : Char} {s t : MState} (h : Matches f (.lit c) s t) :
    ∃ x xs, s.right = x :: xs ∧ (canon f.ignoreCase x == canon f.ignoreCase c.toNat) = true ∧
      t = { s with left := x :: s.left, right := xs } := by
  cases h with
  | lit _ _ x xs hx hp => exact ⟨x, xs, hx, hp, rfl⟩

theorem Matches.grp_inv {f : Flags} {r : Re} {s t : MState} (h : Matches f (.grp r) s t) :
    ∃ s1, Matches f r s s1 ∧
      t = { s1 with cap := some ((s1.left.take (s1.left.length - s.left.length)).reverse) } := by
  cases h with
  | grp _ _ s1 h1 => exact ⟨s1, h1, rfl⟩

theorem space_unit (x : Nat) (h : (([ClassItem.space].any fun i => i.test x) != false) = true) :
    isSpace x = true := by
  simpa [ClassItem.test] using h

theorem mem_capList_one (o : Nat)
    (h : o = 61 ∨ o = 43 ∨ o = 45 ∨ o = 42 ∨ o = 47 ∨ o = 60 ∨ o = 62 ∨ o = 33) :
    [o] ∈ capList := by
  rcases h with h | h | h | h | h | h | h | h <;> subst h <;> decide

theorem mem_capList_two (o : Nat)
    (h : o = 61 ∨ o = 43 ∨ o = 45 ∨ o = 42 ∨ o = 47 ∨ o = 60 ∨ o = 62 ∨ o = 33) :
    [o, 61] ∈ capList := by
  rcases h with h | h | h | h | h | h | h | h <;> subst h <;> decide

/-- What the operator part `[=+\-*/<>!]=?` consumes: an operator character,
alone or followed by `=`. -/
theorem operator_shape (s t : MState)
    (h : Matches {}
      (.seq (.cls false [.ch '=', .ch '+', .ch '-', .ch '*', .ch '/', .ch '<', .ch '>', .ch '!'])
        (.alt (.lit '=') .eps)) s t) :
    ∃ c : Text, c ∈ capList ∧ s.right = c ++ t.right ∧ t.left = c.reverse ++ s.left := by
  obtain ⟨s1, h1, h2⟩ := h.seq_inv
  obtain ⟨o, os, ho, hop, hs1⟩ := h1.cls_inv
  have hou := operator_units o hop
  rcases h2.alt_inv with h3 | h3
  · obtain ⟨q, qs, hq, hqp, ht⟩ := h3.lit_inv
    have hq61 : q = 61 := lit_sound {} rfl '=' q hqp
    refine ⟨[o, 61], mem_capList_two o hou, ?_, ?_⟩
    · rw [ht, ho]
      rw [hs1] at hq
      simp only at hq
      rw [hq, hq61]
      rfl
    · rw [ht, hs1, hq61]
      rfl
  · have ht := h3.eps_inv
    refine ⟨[o], mem_capList_one o hou, ?_, ?_⟩
    · rw [ht, hs1, ho]
      rfl
    · rw [ht, hs1]
      rfl

/-- What a match of `\s([=+\-*/<>!]=?)\s` looks like: a whitespace unit, a
captured operator, a whitespace unit. -/
theorem group_shape (s t : MState) (h : Matches {} spacedOperatorGroup s t) :
    ∃ (x y : Nat) (c : Text), c ∈ capList ∧ isSpace x = true ∧ isSpace y = true ∧
      s.right = x :: (c ++ y :: t.right) ∧ t.cap = some c := by
  have e : spacedOperatorGroup =
      .seq (.cls false [.space])
        (.seq (.grp (.seq
          (.cls false [.ch '=', .ch '+', .ch '-', .ch '*', .ch '/', .ch '<', .ch '>', .ch '!'])
          (.alt (.lit '=') .eps)))
          (.cls false [.space])) := rfl
  rw [e] at h
  obtain ⟨s1, h1, h2⟩ := h.seq_inv
  obtain ⟨x, xs, hx, hxp, hs1⟩ := h1.cls_inv
  obtain ⟨s2, h3, h4⟩ := h2.seq_inv
  obtain ⟨s3, h5, hs2⟩ := h3.grp_inv
  obtain ⟨c, hc, hcr, hcl⟩ := operator_shape s1 s3 h5
  obtain ⟨y, ys, hy, hyp, ht⟩ := h4.cls_inv
  refine ⟨x, y, c, hc, space_unit x hxp, space_unit y hyp, ?_, ?_⟩
  · rw [hx]
    have h6 : xs = c ++ s3.right := by rw [← hcr, hs1]
    have h7 : s3.right = y :: ys := by rw [← hy, hs2]
    rw [h6, h7, ht]
  · rw [ht, hs2]
    simp only
    rw [hcl, take_reverse_left]

/-- What a match of `\s[=+\-*/<>!]=?\s` looks like. -/
theorem spaced_shape (s t : MState) (h : Matches {} spacedOperator s t) :
    ∃ (x y : Nat) (c : Text), c ∈ capList ∧ s.right = x :: (c ++ y :: t.right) := by
  have e : spacedOperator =
      .seq (.cls false [.space])
        (.seq
          (.cls false [.ch '=', .ch '+', .ch '-', .ch '*', .ch '/', .ch '<', .ch '>', .ch '!'])
          (.seq (.alt (.lit '=') .eps) (.cls false [.space]))) := rfl
  rw [e] at h
  obtain ⟨s1, h1, h2⟩ := h.seq_inv
  obtain ⟨x, xs, hx, _, hs1⟩ := h1.cls_inv
  obtain ⟨s2, h3, h4⟩ := h2.seq_inv
  obtain ⟨s3, h5, h6⟩ := h4.seq_inv
  obtain ⟨c, hc, hcr, _⟩ := operator_shape s1 s3 (Matches.seq _ _ _ _ _ h3 h5)
  obtain ⟨y, ys, hy, _, ht⟩ := h6.cls_inv
  refine ⟨x, y, c, hc, ?_⟩
  rw [hx]
  have h7 : xs = c ++ s3.right := by rw [← hcr, hs1]
  rw [h7, hy, ht]

theorem capList_length (c : Text) (h : c ∈ capList) : 1 ≤ c.length ∧ c.length ≤ 2 := by
  simp only [capList, List.mem_cons, List.mem_singleton, List.not_mem_nil, or_false] at h
  rcases h with h | h | h | h | h | h | h | h | h | h | h | h | h | h | h | h <;>
    subst h <;> exact ⟨by decide, by decide⟩

/-! ### The count of padded operators does not fall under `breakUniformSpacing` -/

theorem replaceBuild_step (tpl : List Tpl) (s left pre : Text) (m : Match) (ms : List Match)
    (hs : s = left.reverse ++ (pre ++ m.text ++ m.right))
    (hb : m.before = pre.reverse ++ left) (hl : m.left = m.text.reverse ++ m.before) :
    replaceBuild tpl s (m :: ms) left.length =
      pre ++ expandTpl tpl m ++ replaceBuild tpl s ms m.left.length := by
  have hstart : m.before.length - left.length = pre.length := by
    rw [hb]; simp
  have hnext : m.before.length + m.text.length = m.left.length := by
    rw [hl]; simp; omega
  have htake : ((s.drop left.length).take (m.before.length - left.length)) = pre := by
    rw [hs, drop_reverse_left, hstart, List.append_assoc, List.take_left']
    rfl
  simp only [replaceBuild]
  rw [htake, hnext]

theorem matchesLoop_step (r : Re) (f : Flags) (fuel : Nat) (left right : Text) (m : Match)
    (h : r.search f left right = some m) (hne : m.text ≠ []) :
    r.matchesLoop f (fuel + 1) left right = m :: r.matchesLoop f fuel m.left m.right := by
  have hemp : m.text.isEmpty = false := by
    cases hm : m.text with
    | nil => exact absurd hm hne
    | cons _ _ => rfl
  simp only [Re.matchesLoop, h, hemp, Bool.false_eq_true, if_false]

/-- The replacement text of `breakUniformSpacing` is matched again by the
pattern of the Statistical-spacing module, whatever surrounds it. -/
theorem spaced_rematch (c : Text) (hc : c ∈ capList) (left rest : Text) :
    (spacedOperator.matchAt {} left (32 :: (c ++ 32 :: 32 :: rest))).isSome = true := by
  simp only [capList, List.mem_cons, List.mem_singleton, List.not_mem_nil, or_false] at hc
  rcases hc with h | h | h | h | h | h | h | h | h | h | h | h | h | h | h | h <;>
    subst h <;> rfl

theorem expand_break (m : Match) (c : Text) (h : m.cap = some c) :
    expandTpl [.text " ", .group, .text "  "] m = 32 :: (c ++ [32, 32]) := by
  simp only [expandTpl, List.foldr, h, Option.getD_some, List.append_nil]
  rfl

/-- After `breakUniformSpacing` the scan of the module's pattern finds at least
as many matches as the scan of the transform's pattern found before, from any
position at or before the first replacement. -/
theorem count_after_break (s : Text) :
    ∀ (fuel : Nat) (left right : Text), s = left.reverse ++ right →
      ∀ (junk left' : Text) (fuel' : Nat),
        (junk ++ replaceBuild [.text " ", .group, .text "  "] s
          (spacedOperatorGroup.matchesLoop {} fuel left right) left.length).length < fuel' →
        (spacedOperatorGroup.matchesLoop {} fuel left right).length ≤
          (spacedOperator.matchesLoop {} fuel' left'
            (junk ++ replaceBuild [.text " ", .group, .text "  "] s
              (spacedOperatorGroup.matchesLoop {} fuel left right) left.length)).length := by
  intro fuel
  induction fuel with
  | zero =>
    intro left right _ junk left' fuel' _
    simp [Re.matchesLoop]
  | succ fuel ih =>
    intro left right hs junk left' fuel' hfuel
    cases hsr : spacedOperatorGroup.search {} left right with
    | none => simp [Re.matchesLoop, hsr]
    | some m =>
      obtain ⟨pre, h1, h2, h3, t, hm, htr, hcap⟩ := search_shape _ _ left right m hsr
      obtain ⟨x, y, c, hc, _, _, hshape, htc⟩ := group_shape _ _ hm
      simp only at hshape
      rw [htr] at hshape
      have htext : m.text = x :: (c ++ [y]) :=
        List.append_cancel_right
          (by rw [hshape]; simp : m.text ++ m.right = (x :: (c ++ [y])) ++ m.right)
      have hne : m.text ≠ [] := by rw [htext]; simp
      have hmc : m.cap = some c := by rw [hcap, htc]
      have hs' : s = m.left.reverse ++ m.right := by
        rw [hs, h3, h2, h1]; simp [List.append_assoc]
      rw [matchesLoop_step _ _ fuel left right m hsr hne] at hfuel ⊢
      rw [replaceBuild_step _ s left pre m _ (by rw [hs, h1]) h2 h3, expand_break m c hmc]
        at hfuel ⊢
      generalize hout : replaceBuild [.text " ", .group, .text "  "] s
        (spacedOperatorGroup.matchesLoop {} fuel m.left m.right) m.left.length = out at hfuel ⊢
      -- the module's pattern matches at the replacement
      have hre := spaced_rematch c hc ((junk ++ pre).reverse ++ left') out
      have hwhole : junk ++ (pre ++ 32 :: (c ++ [32, 32]) ++ out) =
          (junk ++ pre) ++ (32 :: (c ++ 32 :: 32 :: out)) := by
        simp [List.append_assoc]
      rw [hwhole] at hfuel ⊢
      obtain ⟨m', hs1, hle⟩ := search_first spacedOperator {} (junk ++ pre) left' _ hre
      obtain ⟨pre', g1, g2, g3, t', hm', htr', _⟩ := search_shape _ _ _ _ m' hs1
      obtain ⟨x', y', c', hc', hshape'⟩ := spaced_shape _ _ hm'
      simp only at hshape'
      rw [htr'] at hshape'
      have htext' : m'.text = x' :: (c' ++ [y']) :=
        List.append_cancel_right
          (by rw [hshape']; simp : m'.text ++ m'.right = (x' :: (c' ++ [y'])) ++ m'.right)
      have hne' : m'.text ≠ [] := by rw [htext']; simp
      have hlen' : m'.text.length ≤ 4 := by
        have := (capList_length c' hc').2
        rw [htext']; simp; omega
      have hclen : 1 ≤ c.length := (capList_length c hc).1
      have hpre' : pre'.length ≤ (junk ++ pre).length := by
        rw [g2] at hle
        simp at hle ⊢
        omega
      cases fuel' with
      | zero => exact absurd hfuel (by simp)
      | succ f' =>
        rw [matchesLoop_step _ _ f' left' _ m' hs1 hne']
        -- what remains after the match ends with the rest of the output
        have hsplit : ((junk ++ pre) ++ 32 :: (c ++ [32, 32])) ++ out =
            (pre' ++ m'.text) ++ m'.right := by
          rw [← g1]; simp [List.append_assoc]
        obtain ⟨junk', hj⟩ : ∃ junk' : Text, m'.right = junk' ++ out := by
          rcases List.append_eq_append_iff.mp hsplit with ⟨a', ha, hb⟩ | ⟨c2, ha, hb⟩
          · have hl := congrArg List.length ha
            simp at hl hpre'
            have hc2 : a' = [] := List.eq_nil_of_length_eq_zero (by omega)
            rw [hc2] at hb
            exact ⟨[], by simpa using hb.symm⟩
          · exact ⟨c2, hb⟩
        have hlenw := congrArg List.length g1
        have hfuel2 : (junk' ++ out).length < f' := by
          rw [← hj]
          have h0 : 1 ≤ m'.text.length := by
            cases hmt : m'.text with
            | nil => exact absurd hmt hne'
            | cons _ _ => simp
          simp at hlenw hfuel
          simp
          omega
        have := ih m.left m.right hs' junk' m'.left f' (by rw [hout]; exact hfuel2)
        rw [hout, ← hj] at this
        simp only [List.length_cons]
        omega

/-! ### The Statistical-spacing module after the spacing transform (C17) -/

theorem matchAt_congr (f : Flags) (r1 r2 : Re)
    (h : ∀ (s : MState) (k : MState → Option MState), r1.run f s k = r2.run f s k)
    (left right : Text) : r1.matchAt f left right = r2.matchAt f left right := by
  unfold Re.matchAt
  rw [h]

theorem search_congr (f : Flags) (r1 r2 : Re)
    (h : ∀ (s : MState) (k : MState → Option MState), r1.run f s k = r2.run f s k) :
    ∀ (right left : Text), r1.search f left right = r2.search f left right := by
  intro right
  induction right with
  | nil => intro left; simp only [Re.search, matchAt_congr f r1 r2 h]
  | cons x xs ih => intro left; simp only [Re.search, matchAt_congr f r1 r2 h, ih]

theorem matchesLoop_congr (f : Flags) (r1 r2 : Re)
    (h : ∀ (s : MState) (k : MState → Option MState), r1.run f s k = r2.run f s k) :
    ∀ (fuel : Nat) (left right : Text),
      r1.matchesLoop f fuel left right = r2.matchesLoop f fuel left right := by
  intro fuel
  induction fuel with
  | zero => intro left right; rfl
  | succ fuel ih => intro left right; simp only [Re.matchesLoop, search_congr f r1 r2 h, ih]

theorem spaced_run_erase (s : MState) (k : MState → Option MState) :
    spacedOperator.run {} s k = spacedOperatorGroup.erase.run {} s k := rfl

/-- The module's pattern and the transform's pattern match the same strings. -/
theorem spaced_matchAll (t : Text) :
    spacedOperator.matchAll {} t = spacedOperatorGroup.matchAll {} t := by
  have h1 : spacedOperator.matchAll {} t = spacedOperatorGroup.erase.matchAll {} t := by
    unfold Re.matchAll Re.matches
    rw [matchesLoop_congr {} _ _ spaced_run_erase]
  rw [h1, matchAll_erase]

theorem break_count (t : Text) :
    (spacedOperator.matchAll {} t).length ≤
      (spacedOperator.matchAll {} (breakUniformSpacing t)).length := by
  rw [spaced_matchAll t]
  have h := count_after_break t (t.length + 1) [] t rfl [] []
    ((breakUniformSpacing t).length + 1) (by
      simp only [List.nil_append, List.length_nil]
      exact Nat.lt_succ_self _)
  simp only [List.nil_append, List.length_nil] at h
  simpa [Re.matchAll, Re.matches, breakUniformSpacing, Re.replaceAll] using h

/-- Claim C17 fails in both parts.  On eleven assignments `a = b;` the
Statistical-spacing module fires before and after `breakUniformSpacing`; on
six copies of `a = = b;` the module returns 0 before and 4 after, because the
second space inserted after the first `=` pads the second `=`. -/
theorem break_spacing_fails :
    (analyzeStatisticalPatterns (mkCtx
      (str "a = b; a = b; a = b; a = b; a = b; a = b; a = b; a = b; a = b; a = b; a = b;"))).score
      = 4 ∧
    (analyzeStatisticalPatterns (mkCtx (breakUniformSpacing
      (str "a = b; a = b; a = b; a = b; a = b; a = b; a = b; a = b; a = b; a = b; a = b;")))).score
      = 4 ∧
    (analyzeStatisticalPatterns (mkCtx
      (str "a = = b; a = = b; a = = b; a = = b; a = = b; a = = b;"))).score = 0 ∧
    (analyzeStatisticalPatterns (mkCtx (breakUniformSpacing
      (str "a = = b; a = = b; a = = b; a = = b; a = = b; a = = b;")))).score = 4 := by
  decide!

/-- Claim C17 as amended.  `breakUniformSpacing` never lowers the count of
whitespace-padded operators the Statistical-spacing module makes: each
replacement (a space, the operator, two spaces) is matched again.  So for every
text on which the module fires (more than 10 padded operators) it still fires
on the transformed text, and the module's score on the transformed text is
never lower than on the text. -/
theorem break_spacing_keeps (t : Text) :
    (spacedOperator.matchAll {} t).length ≤
      (spacedOperator.matchAll {} (breakUniformSpacing t)).length ∧
    ((analyzeStatisticalPatterns (mkCtx t)).score = 4 →
      (analyzeStatisticalPatterns (mkCtx (breakUniformSpacing t))).score = 4) ∧
    (analyzeStatisticalPatterns (mkCtx t)).score ≤
      (analyzeStatisticalPatterns (mkCtx (breakUniformSpacing t))).score := by
  have h := break_count t
  have key : ∀ u : Text, (analyzeStatisticalPatterns (mkCtx u)).score =
      if 10 < (spacedOperator.matchAll {} u).length then 4 else 0 := by
    intro u
    by_cases hu : 10 < (spacedOperator.matchAll {} u).length
    · simp [analyzeStatisticalPatterns, mkCtx, hu]
    · simp [analyzeStatisticalPatterns, mkCtx, hu]
  rw [key t, key (breakUniformSpacing t)]
  refine ⟨h, ?_, ?_⟩
  · intro h4
    split at h4
    · rw [if_pos (by omega)]
    · exact absurd h4 (by decide)
  · split
    · rw [if_pos (by omega)]
    · exact Nat.zero_le _

theorem break_spacing_keeps_witness :
    (analyzeStatisticalPatterns (mkCtx
      (str "a = b; a = b; a = b; a = b; a = b; a = b; a = b; a = b; a = b; a = b; a = b;"))).score
      = 4 ∧
    (analyzeStatisticalPatterns (mkCtx (breakUniformSpacing
      (str "a = b; a = b; a = b; a = b; a = b; a = b; a = b; a = b; a = b; a = b; a = b;")))).score
      = 4 :=
  ⟨by decide!,
   (break_spacing_keeps
      (str "a = b; a = b; a = b; a = b; a = b; a = b; a = b; a = b; a = b; a = b; a = b;")).2.1
      (by decide!)⟩

/-! ### Tokens (C20) -/

theorem Matches.wordB_inv {f : Flags} {s t : MState} (h : Matches f .wordB s t) : t = s := by
  cases h with
  | wordB _ _ => rfl

theorem Matches.any_inv {f : Flags} {s t : MState} (h : Matches f .any s t) :
    ∃ x xs, s.right = x :: xs ∧ (!isLineTerminator x) = true ∧
      t = { s with left := x :: s.left, right := xs } := by
  cases h with
  | any _ x xs hx hp => exact ⟨x, xs, hx, hp, rfl⟩

/-- A repetition of a pattern that consumes one code unit satisfying `p` at a
time consumes only such units. -/
theorem Matches.star_units {f : Flags} {g : Bool} {r : Re} (p : Nat → Bool)
    (hr : ∀ s t : MState, Matches f r s t → ∃ x, s.right = x :: t.right ∧ p x = true)
    {s t : MState} (h : Matches f (.star g r) s t) :
    ∃ w : Text, s.right = w ++ t.right ∧ ∀ x ∈ w, p x = true := by
  generalize hq : Re.star g r = q at h
  induction h with
  | starNil g' r' s => exact ⟨[], rfl, by simp⟩
  | starCons g' r' s s1 s2 h1 _ _ _ ih2 =>
    injection hq with hg hr'
    subst hg
    subst hr'
    obtain ⟨x, hx, hpx⟩ := hr _ _ h1
    obtain ⟨w, hw, hpw⟩ := ih2 rfl
    refine ⟨x :: w, by rw [hx, hw]; rfl, ?_⟩
    intro y hy
    rcases List.mem_cons.mp hy with hy | hy
    · rw [hy]; exact hpx
    · exact hpw y hy
  | eps _ => cases hq
  | lit _ _ _ _ _ _ => cases hq
  | any _ _ _ _ _ => cases hq
  | cls _ _ _ _ _ _ _ => cases hq
  | seq _ _ _ _ _ _ _ _ _ => cases hq
  | altL _ _ _ _ _ _ => cases hq
  | altR _ _ _ _ _ _ => cases hq
  | wordB _ _ => cases hq
  | bolStart _ _ => cases hq
  | bolLine _ _ _ _ _ => cases hq
  | eolEnd _ _ => cases hq
  | eolLine _ _ _ _ _ => cases hq
  | grp _ _ _ _ _ => cases hq

theorem Matches.cls_unit {f : Flags} {negated : Bool} {items : List ClassItem} (p : Nat → Bool)
    (hp : ∀ x, ((items.any fun i => i.test x) != negated) = true → p x = true)
    (s t : MState) (h : Matches f (.cls negated items) s t) :
    ∃ x, s.right = x :: t.right ∧ p x = true := by
  obtain ⟨x, xs, hx, hpx, ht⟩ := h.cls_inv
  exact ⟨x, by rw [hx, ht], hp x hpx⟩

theorem Matches.lit_unit {c : Char} (s t : MState) (h : Matches {} (.lit c) s t) :
    s.right = c.toNat :: t.right := by
  obtain ⟨x, xs, hx, hpx, ht⟩ := h.lit_inv
  rw [hx, ht, lit_sound {} rfl c x hpx]

theorem identStart_unit (x : Nat)
    (h : (([ClassItem.range 'a' 'z', .range 'A' 'Z', .ch '_'].any fun i => i.test x) != false)
      = true) : isIdentStartUnit x = true := by
  have e1 : ('a'.toNat) = 0x61 := rfl
  have e2 : ('z'.toNat) = 0x7A := rfl
  have e3 : ('A'.toNat) = 0x41 := rfl
  have e4 : ('Z'.toNat) = 0x5A := rfl
  have e5 : ('_'.toNat) = 0x5F := rfl
  simp only [List.any_cons, List.any_nil, ClassItem.test, Bool.or_false, bne_iff_ne, ne_eq,
    Bool.not_eq_false, Bool.or_eq_true, Bool.and_eq_true, decide_eq_true_eq, beq_iff_eq,
    e1, e2, e3, e4, e5] at h
  simp only [isIdentStartUnit, Bool.or_eq_true, Bool.and_eq_true, decide_eq_true_eq, beq_iff_eq]
  omega

theorem identPart_unit (x : Nat)
    (h : (([ClassItem.range 'a' 'z', .range 'A' 'Z', .range '0' '9', .ch '_'].any
      fun i => i.test x) != false) = true) : isIdentPartUnit x = true := by
  have e1 : ('a'.toNat) = 0x61 := rfl
  have e2 : ('z'.toNat) = 0x7A := rfl
  have e3 : ('A'.toNat) = 0x41 := rfl
  have e4 : ('Z'.toNat) = 0x5A := rfl
  have e5 : ('_'.toNat) = 0x5F := rfl
  have e6 : ('0'.toNat) = 0x30 := rfl
  have e7 : ('9'.toNat) = 0x39 := rfl
  simp only [List.any_cons, List.any_nil, ClassItem.test, Bool.or_false, bne_iff_ne, ne_eq,
    Bool.not_eq_false, Bool.or_eq_true, Bool.and_eq_true, decide_eq_true_eq, beq_iff_eq,
    e1, e2, e3, e4, e5, e6, e7] at h
  simp only [isIdentPartUnit, isIdentStartUnit, isDigit, Bool.or_eq_true, Bool.and_eq_true,
    decide_eq_true_eq, beq_iff_eq]
  omega

theorem digit_unit (x : Nat)
    (h : (([ClassItem.range '0' '9'].any fun i => i.test x) != false) = true) :
    isDigit x = true := by
  have e6 : ('0'.toNat) = 0x30 := rfl
  have e7 : ('9'.toNat) = 0x39 := rfl
  simpa [ClassItem.test, isDigit, e6, e7] using h

theorem dropWhile_all {p : Nat → Bool} (a : Text) (h : ∀ x ∈ a, p x = true) :
    a.dropWhile p = [] := by
  induction a with
  | nil => rfl
  | cons x xs ih =>
    simp only [List.dropWhile, h x (List.mem_cons_self _ _)]
    exact ih (fun y hy => h y (List.mem_cons_of_mem _ hy))

theorem dropWhile_until {p : Nat → Bool} (a : Text) (y : Nat) (b : Text)
    (h : ∀ x ∈ a, p x = true) (hy : p y = false) : (a ++ y :: b).dropWhile p = y :: b := by
  induction a with
  | nil => simp [List.dropWhile, hy]
  | cons x xs ih =>
    simp only [List.cons_append, List.dropWhile, h x (List.mem_cons_self _ _)]
    exact ih (fun z hz => h z (List.mem_cons_of_mem _ hz))

theorem identifier_shape (s t : MState)
    (h : Matches {} (Re.cat [.wordB, identStart, .star true identPart, .wordB]) s t) :
    ∃ w : Text, s.right = w ++ t.right ∧ isIdentifierTok w = true := by
  have e : Re.cat [.wordB, identStart, .star true identPart, .wordB] =
      .seq .wordB (.seq (.cls false [.range 'a' 'z', .range 'A' 'Z', .ch '_'])
        (.seq (.star true (.cls false [.range 'a' 'z', .range 'A' 'Z', .range '0' '9', .ch '_']))
          .wordB)) := rfl
  rw [e] at h
  obtain ⟨s1, h1, h2⟩ := h.seq_inv
  obtain ⟨s2, h3, h4⟩ := h2.seq_inv
  obtain ⟨s3, h5, h6⟩ := h4.seq_inv
  have e1 := h1.wordB_inv
  have e6 := h6.wordB_inv
  obtain ⟨x, hx, hpx⟩ := Matches.cls_unit _ identStart_unit _ _ h3
  obtain ⟨w, hw, hpw⟩ := Matches.star_units _ (Matches.cls_unit _ identPart_unit) h5
  refine ⟨x :: w, by rw [e6, ← e1, hx, hw]; rfl, ?_⟩
  simp only [isIdentifierTok, hpx, Bool.true_and, List.all_eq_true]
  exact hpw

theorem number_shape (s t : MState)
    (h : Matches {} (Re.cat [Re.plus digit09, Re.opt (.lit '.'), .star true digit09]) s t) :
    ∃ w : Text, s.right = w ++ t.right ∧ isNumberTok w = true := by
  have e : Re.cat [Re.plus digit09, Re.opt (.lit '.'), .star true digit09] =
      .seq (.seq (.cls false [.range '0' '9']) (.star true (.cls false [.range '0' '9'])))
        (.seq (.alt (.lit '.') .eps) (.star true (.cls false [.range '0' '9']))) := rfl
  rw [e] at h
  obtain ⟨s1, h1, h2⟩ := h.seq_inv
  obtain ⟨s2, h3, h4⟩ := h1.seq_inv
  obtain ⟨s3, h5, h6⟩ := h2.seq_inv
  obtain ⟨d, hd, hpd⟩ := Matches.cls_unit _ digit_unit _ _ h3
  obtain ⟨w1, hw1, hp1⟩ := Matches.star_units _ (Matches.cls_unit _ digit_unit) h4
  obtain ⟨w2, hw2, hp2⟩ := Matches.star_units _ (Matches.cls_unit _ digit_unit) h6
  have hall : ∀ x ∈ d :: w1, isDigit x = true := by
    intro x hx
    rcases List.mem_cons.mp hx with hx | hx
    · rw [hx]; exact hpd
    · exact hp1 x hx
  rcases h5.alt_inv with h7 | h7
  · have hdot := Matches.lit_unit _ _ h7
    have hdot' : s1.right = 46 :: s3.right := hdot
    refine ⟨(d :: w1) ++ 46 :: w2, by rw [hd, hw1, hdot', hw2]; simp, ?_⟩
    have h46 : isDigit 46 = false := by decide
    simp only [isNumberTok, List.cons_append, List.takeWhile, hpd, List.isEmpty_cons,
      Bool.not_false, Bool.true_and]
    have := dropWhile_until (d :: w1) 46 w2 hall h46
    simp only [List.cons_append] at this
    rw [this]
    simp only [beq_self_eq_true, Bool.true_and, List.all_eq_true]
    exact hp2
  · have e7 := h7.eps_inv
    refine ⟨(d :: w1) ++ w2, by rw [hd, hw1, ← e7, hw2]; simp, ?_⟩
    have hall2 : ∀ x ∈ (d :: w1) ++ w2, isDigit x = true := by
      intro x hx
      rcases List.mem_append.mp hx with hx | hx
      · exact hall x hx
      · exact hp2 x hx
    have := dropWhile_all _ hall2
    simp only [List.cons_append] at this
    simp only [isNumberTok, List.cons_append, List.takeWhile, hpd, List.isEmpty_cons,
      Bool.not_false, Bool.true_and, this]

theorem quoted_shape (q : Char) (s t : MState)
    (h : Matches {} (Re.cat [.lit q, .star true (.cls true [.ch q]), .lit q]) s t) :
    ∃ w : Text, s.right = w ++ t.right ∧ isQuotedTok q.toNat w = true := by
  have e : Re.cat [.lit q, .star true (.cls true [.ch q]), .lit q] =
      .seq (.lit q) (.seq (.star true (.cls true [.ch q])) (.lit q)) := rfl
  rw [e] at h
  obtain ⟨s1, h1, h2⟩ := h.seq_inv
  obtain ⟨s2, h3, h4⟩ := h2.seq_inv
  have hq1 := Matches.lit_unit _ _ h1
  have hq2 := Matches.lit_unit _ _ h4
  have hunit : ∀ x, (([ClassItem.ch q].any fun i => i.test x) != true) = true →
      (x != q.toNat) = true := by
    intro x hx
    simpa [ClassItem.test] using hx
  obtain ⟨w, hw, hpw⟩ := Matches.star_units _ (Matches.cls_unit _ hunit) h3
  refine ⟨q.toNat :: (w ++ [q.toNat]), by rw [hq1, hw, hq2]; simp, ?_⟩
  have hnot : w.reverse.contains q.toNat = false := by
    rw [List.contains_eq_any_beq, List.any_eq_false]
    intro x hx
    have := hpw x (List.mem_reverse.mp hx)
    simp only [bne_iff_ne, ne_eq] at this
    simp only [beq_iff_eq]
    exact fun hc => this hc.symm
  simp only [isQuotedTok, beq_self_eq_true, Bool.true_and, List.reverse_append,
    List.reverse_cons, List.reverse_nil, List.nil_append, List.singleton_append, hnot,
    Bool.not_false]

theorem lineComment_shape (s t : MState)
    (h : Matches {} (Re.cat [.lit '/', .lit '/', .star true .any]) s t) :
    ∃ w : Text, s.right = w ++ t.right ∧ isLineCommentTok w = true := by
  have e : Re.cat [.lit '/', .lit '/', .star true .any] =
      .seq (.lit '/') (.seq (.lit '/') (.star true .any)) := rfl
  rw [e] at h
  obtain ⟨s1, h1, h2⟩ := h.seq_inv
  obtain ⟨s2, h3, h4⟩ := h2.seq_inv
  have hq1 : s.right = 47 :: s1.right := Matches.lit_unit _ _ h1
  have hq2 : s1.right = 47 :: s2.right := Matches.lit_unit _ _ h3
  have hany : ∀ a b : MState, Matches {} .any a b →
      ∃ x, a.right = x :: b.right ∧ (!isLineTerminator x) = true := by
    intro a b hab
    obtain ⟨x, xs, hx, hp, hb⟩ := hab.any_inv
    exact ⟨x, by rw [hx, hb], hp⟩
  obtain ⟨w, hw, hpw⟩ := Matches.star_units _ hany h4
  refine ⟨47 :: 47 :: w, by rw [hq1, hq2, hw]; rfl, ?_⟩
  simp only [isLineCommentTok, List.all_eq_true]
  exact hpw

theorem blockComment_shape (s t : MState)
    (h : Matches {} (Re.cat [.lit '/', .lit '*',
      .star false (.cls false [.space, .nonSpace]), .lit '*', .lit '/']) s t) :
    ∃ w : Text, s.right = w ++ t.right ∧ isBlockCommentTok w = true := by
  have e : Re.cat [.lit '/', .lit '*', .star false (.cls false [.space, .nonSpace]),
      .lit '*', .lit '/'] =
      .seq (.lit '/') (.seq (.lit '*') (.seq (.star false (.cls false [.space, .nonSpace]))
        (.seq (.lit '*') (.lit '/')))) := rfl
  rw [e] at h
  obtain ⟨s1, h1, h2⟩ := h.seq_inv
  obtain ⟨s2, h3, h4⟩ := h2.seq_inv
  obtain ⟨s3, h5, h6⟩ := h4.seq_inv
  obtain ⟨s4, h7, h8⟩ := h6.seq_inv
  have hq1 : s.right = 47 :: s1.right := Matches.lit_unit _ _ h1
  have hq2 : s1.right = 42 :: s2.right := Matches.lit_unit _ _ h3
  have hq3 : s3.right = 42 :: s4.right := Matches.lit_unit _ _ h7
  have hq4 : s4.right = 47 :: t.right := Matches.lit_unit _ _ h8
  obtain ⟨w, hw, _⟩ := h5.consumed
  refine ⟨47 :: 42 :: (w ++ [42, 47]), by rw [hq1, hq2, hw, hq3, hq4]; simp, ?_⟩
  simp [isBlockCommentTok, startsWith]

theorem symbol_shape (s t : MState) (h : Matches {} symbolClass s t) :
    ∃ w : Text, s.right = w ++ t.right ∧ isSymbolTok w = true := by
  have hc : symbolClass.confined (fun x => symbolUnits.contains x) = true := by decide
  obtain ⟨x, xs, hx, hpx, ht⟩ := (show Matches {} (.cls false _) s t from h).cls_inv
  obtain ⟨w, hw, hpw⟩ := h.confined_sound rfl _ hc
  have hwx : w = [x] := by
    rw [ht] at hw
    simp only at hw
    rw [hx] at hw
    exact (List.append_cancel_right (by rw [← hw]; rfl : [x] ++ xs = w ++ xs)).symm
  refine ⟨[x], by rw [ht, hx]; rfl, ?_⟩
  simp only [isSymbolTok]
  exact hpw x (by rw [hwx]; exact List.mem_singleton_self _)

/-- What a match of the token pattern consumes is one of the kinds of token. -/
theorem token_shape (s t : MState) (h : Matches {} tokenRegex s t) :
    ∃ w : Text, s.right = w ++ t.right ∧ isToken w = true := by
  have e : tokenRegex =
      .alt (Re.cat [.wordB, identStart, .star true identPart, .wordB])
        (.alt (Re.cat [Re.plus digit09, Re.opt (.lit '.'), .star true digit09])
          (.alt (Re.cat [.lit chQuote, .star true (.cls true [.ch chQuote]), .lit chQuote])
            (.alt (Re.cat [.lit chApostrophe, .star true (.cls true [.ch chApostrophe]),
                .lit chApostrophe])
              (.alt (Re.cat [.lit chBackquote, .star true (.cls true [.ch chBackquote]),
                  .lit chBackquote])
                (.alt (Re.cat [.lit '/', .lit '/', .star true .any])
                  (.alt (Re.cat [.lit '/', .lit '*',
                      .star false (.cls false [.space, .nonSpace]), .lit '*', .lit '/'])
                    symbolClass)))))) := rfl
  rw [e] at h
  rcases h.alt_inv with h | h
  · obtain ⟨w, hw, hs⟩ := identifier_shape s t h
    exact ⟨w, hw, by simp [isToken, hs]⟩
  rcases h.alt_inv with h | h
  · obtain ⟨w, hw, hs⟩ := number_shape s t h
    exact ⟨w, hw, by simp [isToken, hs]⟩
  rcases h.alt_inv with h | h
  · obtain ⟨w, hw, hs⟩ := quoted_shape chQuote s t h
    have hq : chQuote.toNat = 34 := rfl
    rw [hq] at hs
    exact ⟨w, hw, by simp [isToken, hs]⟩
  rcases h.alt_inv with h | h
  · obtain ⟨w, hw, hs⟩ := quoted_shape chApostrophe s t h
    have hq : chApostrophe.toNat = 39 := rfl
    rw [hq] at hs
    exact ⟨w, hw, by simp [isToken, hs]⟩
  rcases h.alt_inv with h | h
  · obtain ⟨w, hw, hs⟩ := quoted_shape chBackquote s t h
    have hq : chBackquote.toNat = 96 := rfl
    rw [hq] at hs
    exact ⟨w, hw, by simp [isToken, hs]⟩
  rcases h.alt_inv with h | h
  · obtain ⟨w, hw, hs⟩ := lineComment_shape s t h
    exact ⟨w, hw, by simp [isToken, hs]⟩
  rcases h.alt_inv with h | h
  · obtain ⟨w, hw, hs⟩ := blockComment_shape s t h
    exact ⟨w, hw, by simp [isToken, hs]⟩
  · obtain ⟨w, hw, hs⟩ := symbol_shape s t h
    exact ⟨w, hw, by simp [isToken, hs]⟩

theorem isToken_ne_nil (w : Text) (h : isToken w = true) : w ≠ [] := by
  intro hw
  rw [hw] at h
  revert h
  decide

theorem Tiles.prepend (ts : List Text) (a s : Text) (h : Tiles ts s) : Tiles ts (a ++ s) := by
  cases ts with
  | nil => trivial
  | cons t ts =>
    obtain ⟨pre, rest, h1, h2⟩ := h
    exact ⟨a ++ pre, rest, by rw [h1]; simp [List.append_assoc], h2⟩

/-- The strings a `g` pattern matches lie in the text in order without
overlapping, when no match is empty. -/
theorem matchesLoop_tiles (r : Re) (f : Flags)
    (hne : ∀ (left right : Text) (m : Match), r.search f left right = some m → m.text ≠ []) :
    ∀ (fuel : Nat) (left right : Text),
      Tiles ((r.matchesLoop f fuel left right).map fun m => m.text) right := by
  intro fuel
  induction fuel with
  | zero => intro left right; trivial
  | succ fuel ih =>
    intro left right
    cases hsr : r.search f left right with
    | none => simp only [Re.matchesLoop, hsr]; trivial
    | some m =>
      rw [matchesLoop_step r f fuel left right m hsr (hne left right m hsr)]
      obtain ⟨pre, h1, _⟩ := search_shape r f left right m hsr
      exact ⟨pre, m.right, h1, ih m.left m.right⟩

theorem matchesLoop_all (r : Re) (f : Flags) (q : Text → Prop)
    (hq : ∀ (left right : Text) (m : Match), r.search f left right = some m → q m.text) :
    ∀ (fuel : Nat) (left right : Text),
      ∀ t ∈ (r.matchesLoop f fuel left right).map (fun m => m.text), q t := by
  intro fuel
  induction fuel with
  | zero => intro left right t ht; simp [Re.matchesLoop] at ht
  | succ fuel ih =>
    intro left right t ht
    simp only [Re.matchesLoop] at ht
    cases hsr : r.search f left right with
    | none => rw [hsr] at ht; simp at ht
    | some m =>
      rw [hsr] at ht
      simp only at ht
      have hm := hq left right m hsr
      split at ht
      · split at ht
        · simp only [List.map_cons, List.map_nil, List.mem_singleton] at ht
          rw [ht]; exact hm
        · simp only [List.map_cons, List.mem_cons] at ht
          rcases ht with ht | ht
          · rw [ht]; exact hm
          · exact ih _ _ t ht
      · simp only [List.map_cons, List.mem_cons] at ht
        rcases ht with ht | ht
        · rw [ht]; exact hm
        · exact ih _ _ t ht

theorem token_of_search (left right : Text) (m : Match)
    (h : tokenRegex.search {} left right = some m) : isToken m.text = true := by
  obtain ⟨pre, _, _, _, t, hm, htr, _⟩ := search_shape _ _ left right m h
  obtain ⟨w, hw, hs⟩ := token_shape _ _ hm
  simp only [htr] at hw
  rw [List.append_cancel_right hw]
  exact hs

/-! ### Texts made of identifiers (C12) -/

theorem mem_litUnits (ic : Bool) (x c : Nat) (h : (canon ic x == canon ic c) = true) :
    x ∈ litUnits ic c := by
  simp only [beq_iff_eq] at h
  unfold canon at h
  unfold litUnits
  cases ic
  · simpa using h
  · simp only [true_and] at h ⊢
    split_ifs at h ⊢ <;> simp <;> omega

/-- A match of a pattern that forces `p` consumes a code unit satisfying `p`. -/
theorem Matches.forces_sound {f : Flags} (p : Nat → Bool) {r : Re} {s t : MState}
    (h : Matches f r s t) (hc : r.forces f.ignoreCase p = true) :
    ∃ (a : Text) (x : Nat) (b : Text), s.right = a ++ x :: b ++ t.right ∧ p x = true := by
  induction h with
  | eps _ => simp [Re.forces] at hc
  | lit c s x xs hx hp =>
    simp only [Re.forces, List.all_eq_true] at hc
    exact ⟨[], x, [], by simpa using hx, hc x (mem_litUnits _ _ _ hp)⟩
  | any _ _ _ _ _ => simp [Re.forces] at hc
  | cls negated items s x xs hx hp =>
    simp only [Re.forces] at hc
    exact ⟨[], x, [], by simpa using hx, cls_within_sound p negated items x hc hp⟩
  | seq a b s s1 s2 h1 h2 ih1 ih2 =>
    simp only [Re.forces, Bool.or_eq_true] at hc
    rcases hc with hc | hc
    · obtain ⟨u, x, v, hu, hpx⟩ := ih1 hc
      obtain ⟨w, hw, _⟩ := h2.consumed
      exact ⟨u, x, v ++ w, by rw [hu, hw]; simp, hpx⟩
    · obtain ⟨u, x, v, hu, hpx⟩ := ih2 hc
      obtain ⟨w, hw, _⟩ := h1.consumed
      exact ⟨w ++ u, x, v, by rw [hw, hu]; simp, hpx⟩
  | altL a b s s1 _ ih =>
    simp only [Re.forces, Bool.and_eq_true] at hc
    exact ih hc.1
  | altR a b s s1 _ ih =>
    simp only [Re.forces, Bool.and_eq_true] at hc
    exact ih hc.2
  | starNil _ _ _ => simp [Re.forces] at hc
  | starCons _ _ _ _ _ _ _ _ _ _ => simp [Re.forces] at hc
  | wordB _ _ => simp [Re.forces] at hc
  | bolStart _ _ => simp [Re.forces] at hc
  | bolLine _ _ _ _ _ => simp [Re.forces] at hc
  | eolEnd _ _ => simp [Re.forces] at hc
  | eolLine _ _ _ _ _ => simp [Re.forces] at hc
  | grp r s s1 _ ih =>
    simp only [Re.forces] at hc
    exact ih hc

/-- A pattern that forces `p` matches nowhere in a text without a code unit
satisfying `p`. -/
theorem search_none_of_forces (r : Re) (f : Flags) (p : Nat → Bool)
    (hc : r.forces f.ignoreCase p = true) (left right : Text)
    (hr : ∀ x ∈ right, p x = false) : r.search f left right = none := by
  cases hs : r.search f left right with
  | none => rfl
  | some m =>
    obtain ⟨pre, h1, _, _, t, hm, ht, _⟩ := search_shape r f left right m hs
    obtain ⟨a, x, b, hx, hpx⟩ := hm.forces_sound p hc
    simp only at hx
    have hmem : x ∈ right := by
      rw [h1, List.append_assoc, hx]
      simp
    rw [hr x hmem] at hpx
    exact Bool.noConfusion hpx

theorem test_false_of_forces (r : Re) (f : Flags) (p : Nat → Bool)
    (hc : r.forces f.ignoreCase p = true) (s : Text) (hr : ∀ x ∈ s, p x = false) :
    r.test f s = false := by
  simp [Re.test, search_none_of_forces r f p hc [] s hr]

theorem matchAll_nil_of_forces (r : Re) (f : Flags) (p : Nat → Bool)
    (hc : r.forces f.ignoreCase p = true) (s : Text) (hr : ∀ x ∈ s, p x = false) :
    r.matchAll f s = [] := by
  simp [Re.matchAll, Re.matches, Re.matchesLoop, search_none_of_forces r f p hc [] s hr]

/-! #### What a text made of identifiers holds -/

theorem identStart_not_space (x : Nat) (h : isIdentStartUnit x = true) : isSpace x = false := by
  simp only [isIdentStartUnit, Bool.or_eq_true, Bool.and_eq_true, decide_eq_true_eq,
    beq_iff_eq] at h
  cases hs : isSpace x
  · rfl
  · simp only [isSpace, Bool.or_eq_true, Bool.and_eq_true, decide_eq_true_eq, beq_iff_eq] at hs
    omega

theorem identPart_not_space (x : Nat) (h : isIdentPartUnit x = true) : isSpace x = false := by
  simp only [isIdentPartUnit, isIdentStartUnit, isDigit, Bool.or_eq_true, Bool.and_eq_true,
    decide_eq_true_eq, beq_iff_eq] at h
  cases hs : isSpace x
  · rfl
  · simp only [isSpace, Bool.or_eq_true, Bool.and_eq_true, decide_eq_true_eq, beq_iff_eq] at hs
    omega

theorem identStart_not_digit (x : Nat) (h : isIdentStartUnit x = true) : isDigit x = false := by
  simp only [isIdentStartUnit, Bool.or_eq_true, Bool.and_eq_true, decide_eq_true_eq,
    beq_iff_eq] at h
  cases hs : isDigit x
  · rfl
  · simp only [isDigit, Bool.and_eq_true, decide_eq_true_eq] at hs
    omega

theorem identStart_soup (x : Nat) (h : isIdentStartUnit x = true) : isSoupUnit x = true := by
  simp [isSoupUnit, isIdentPartUnit, h]

/-- The scan of a text made of identifiers, one code unit on. -/
theorem soup_cons (st : SoupState) (x : Nat) (xs : Text) (h : soup st (x :: xs) = true) :
    isSoupUnit x = true ∧ ∃ st1, soup st1 xs = true := by
  cases st with
  | lineStart =>
    simp only [soup, Bool.and_eq_true] at h
    exact ⟨identStart_soup x h.1, _, h.2⟩
  | inIdent =>
    simp only [soup] at h
    split_ifs at h with h1 h2 h3
    · exact ⟨by simp [isSoupUnit, h1], _, h⟩
    · exact ⟨by simp [isSoupUnit, h2], _, h⟩
    · exact ⟨by simp [isSoupUnit, h3], _, h⟩
  | afterSpace =>
    simp only [soup] at h
    split_ifs at h with h1
    · exact ⟨by simp [isSoupUnit, h1], _, h⟩
    · simp only [Bool.and_eq_true] at h
      exact ⟨identStart_soup x h.1, _, h.2⟩

theorem soup_units (code : Text) :
    ∀ st, soup st code = true → ∀ x ∈ code, isSoupUnit x = true := by
  induction code with
  | nil => intro _ _ x hx; simp at hx
  | cons c cs ih =>
    intro st h x hx
    obtain ⟨hc, st1, h1⟩ := soup_cons st c cs h
    rcases List.mem_cons.mp hx with hx | hx
    · rw [hx]; exact hc
    · exact ih st1 h1 x hx

/-- What starts after a space or a line feed of a text made of identifiers is
not a digit. -/
theorem soup_pair (st : SoupState) (x y : Nat) (b : Text)
    (h : soup st (x :: y :: b) = true) (hx : isSpace x = true) : isDigit y = false := by
  have h32 : isDigit 32 = false := by decide
  have after : soup .afterSpace (y :: b) = true → isDigit y = false := by
    intro h2
    simp only [soup] at h2
    split_ifs at h2 with h3
    · simp only [beq_iff_eq] at h3
      rw [h3]; exact h32
    · simp only [Bool.and_eq_true] at h2
      exact identStart_not_digit y h2.1
  have line : soup .lineStart (y :: b) = true → isDigit y = false := by
    intro h2
    simp only [soup, Bool.and_eq_true] at h2
    exact identStart_not_digit y h2.1
  cases st with
  | lineStart =>
    simp only [soup, Bool.and_eq_true] at h
    rw [identStart_not_space x h.1] at hx
    exact Bool.noConfusion hx
  | inIdent =>
    rw [soup] at h
    split_ifs at h with h1 h2 h3
    · rw [identPart_not_space x h1] at hx
      exact Bool.noConfusion hx
    · exact after h
    · exact line h
  | afterSpace =>
    rw [soup] at h
    split_ifs at h with h1
    · exact after h
    · simp only [Bool.and_eq_true] at h
      rw [identStart_not_space x h.1] at hx
      exact Bool.noConfusion hx

theorem soup_no_space_digit (a : Text) :
    ∀ (st : SoupState) (x y : Nat) (b : Text), soup st (a ++ x :: y :: b) = true →
      isSpace x = true → isDigit y = false := by
  induction a with
  | nil => intro st x y b h hx; exact soup_pair st x y b h hx
  | cons c cs ih =>
    intro st x y b h hx
    obtain ⟨_, st1, h1⟩ := soup_cons st c (cs ++ x :: y :: b) h
    exact ih st1 x y b h1 hx

theorem not_soup_false (code : Text) (h : identifierSoup code = true) :
    ∀ x ∈ code, (fun y => !isSoupUnit y) x = false := by
  intro x hx
  simp [soup_units code _ h x hx]

/-! #### The modules on a text made of identifiers -/

theorem mem_of_mem_trim (t : Text) (c : Nat) (h : c ∈ trim t) : c ∈ t := by
  unfold trim at h
  rw [List.mem_reverse] at h
  have h1 := (List.dropWhile_sublist isSpace).subset h
  rw [List.mem_reverse] at h1
  exact (List.dropWhile_sublist isSpace).subset h1

theorem splitLoop_sub (t : Text) :
    ∀ (cur : Text) (l : Text), l ∈ splitLoop t cur → ∀ c ∈ l, c ∈ t ∨ c ∈ cur := by
  induction t with
  | nil =>
    intro cur l hl c hc
    simp only [splitLoop, List.mem_singleton] at hl
    rw [hl, List.mem_reverse] at hc
    exact Or.inr hc
  | cons x xs ih =>
    intro cur l hl c hc
    simp only [splitLoop] at hl
    split_ifs at hl with hx
    · rcases List.mem_cons.mp hl with hl | hl
      · rw [hl, List.mem_reverse] at hc
        exact Or.inr hc
      · rcases ih [] l hl c hc with h | h
        · exact Or.inl (List.mem_cons_of_mem _ h)
        · simp at h
    · rcases ih (x :: cur) l hl c hc with h | h
      · exact Or.inl (List.mem_cons_of_mem _ h)
      · rcases List.mem_cons.mp h with h | h
        · exact Or.inl (by rw [h]; exact List.mem_cons_self _ _)
        · exact Or.inr h

theorem startsWith_cons_mem (l : Text) (p : Nat) (ps : Text) (h : startsWith l (p :: ps) = true) :
    p ∈ l := by
  cases l with
  | nil => simp [startsWith] at h
  | cons c cs =>
    simp only [startsWith, Bool.and_eq_true, beq_iff_eq] at h
    rw [h.1]
    exact List.mem_cons_self _ _

theorem soup_comments (code : Text) (h : identifierSoup code = true) :
    (analyzeComments (mkCtx code)).score = 0 := by
  apply comments_zero_without_comment_lines
  intro l hl
  simp only [mkCtx, List.mem_map] at hl
  obtain ⟨l0, hl0, hl1⟩ := hl
  have hsub : ∀ c ∈ l, isSoupUnit c = true := by
    intro c hc
    rw [← hl1] at hc
    have h1 := mem_of_mem_trim l0 c hc
    rcases splitLoop_sub code [] l0 hl0 c h1 with h2 | h2
    · exact soup_units code _ h c h2
    · simp at h2
  have h47 : isSoupUnit 47 = false := by decide
  have h35 : isSoupUnit 35 = false := by decide
  constructor
  · cases hs : startsWith l (str "//") with
    | false => rfl
    | true =>
      have := hsub 47 (startsWith_cons_mem l 47 [47] hs)
      rw [h47] at this
      exact Bool.noConfusion this
  · cases hs : startsWith l (str "#") with
    | false => rfl
    | true =>
      have := hsub 35 (startsWith_cons_mem l 35 [] hs)
      rw [h35] at this
      exact Bool.noConfusion this

/-- What a match of `step\s+\d+` holds: a whitespace unit followed by a digit. -/
theorem step_shape {f : Flags} (s t : MState)
    (h : Matches f (Re.cat [Re.word "step", Re.plus reSpace, Re.plus (.cls false [.digit])]) s t) :
    ∃ (a : Text) (x y : Nat) (b : Text), s.right = a ++ x :: y :: b ++ t.right ∧
      isSpace x = true ∧ isDigit y = true := by
  have e : Re.cat [Re.word "step", Re.plus reSpace, Re.plus (.cls false [.digit])] =
      .seq (Re.word "step") (.seq (.seq (.cls false [.space]) (.star true (.cls false [.space])))
        (.seq (.cls false [.digit]) (.star true (.cls false [.digit])))) := rfl
  rw [e] at h
  obtain ⟨s1, h1, h2⟩ := h.seq_inv
  obtain ⟨s2, h3, h4⟩ := h2.seq_inv
  obtain ⟨s3, h5, h6⟩ := h3.seq_inv
  obtain ⟨s4, h7, h8⟩ := h4.seq_inv
  obtain ⟨w0, hw0, _⟩ := h1.consumed
  obtain ⟨x, hx, hpx⟩ := Matches.cls_unit _ space_unit _ _ h5
  obtain ⟨w, hw, hpw⟩ := Matches.star_units _ (Matches.cls_unit _ space_unit) h6
  have hd : ∀ x, (([ClassItem.digit].any fun i => i.test x) != false) = true →
      isDigit x = true := by
    intro x hx
    simpa [ClassItem.test] using hx
  obtain ⟨y, hy, hpy⟩ := Matches.cls_unit _ hd _ _ h7
  obtain ⟨w1, hw1, _⟩ := h8.consumed
  have hall : ∀ z ∈ x :: w, isSpace z = true := by
    intro z hz
    rcases List.mem_cons.mp hz with hz | hz
    · rw [hz]; exact hpx
    · exact hpw z hz
  obtain ⟨init, sp, hsp⟩ : ∃ (init : Text) (sp : Nat), x :: w = init ++ [sp] :=
    ⟨(x :: w).dropLast, (x :: w).getLast (by simp),
      (List.dropLast_append_getLast (by simp)).symm⟩
  have hspace : isSpace sp = true := hall sp (by rw [hsp]; simp)
  refine ⟨w0 ++ init, sp, y, w1, ?_, hspace, hpy⟩
  have e2 : x :: (w ++ y :: (w1 ++ t.right)) = (x :: w) ++ y :: (w1 ++ t.right) := rfl
  rw [hw0, hx, hw, hy, hw1, e2, hsp]
  simp [List.append_assoc]

theorem soup_artifacts (code : Text) (h : identifierSoup code = true) :
    (detectAIArtifacts (mkCtx code)).score = 0 := by
  have hp := not_soup_false code h
  have h1 : markdownArtifact.test { multiline := true } code = false :=
    test_false_of_forces _ _ (fun y => !isSoupUnit y) (by decide) code hp
  have h2 : (Re.word "example:").test { ignoreCase := true } code = false :=
    test_false_of_forces _ _ (fun y => !isSoupUnit y) (by decide) code hp
  have h3 : (Re.cat [Re.word "step", Re.plus reSpace, Re.plus (.cls false [.digit])]).test
      { ignoreCase := true } code = false := by
    unfold Re.test
    cases hs : (Re.cat [Re.word "step", Re.plus reSpace, Re.plus (.cls false [.digit])]).search
        { ignoreCase := true } [] code with
    | none => rfl
    | some m =>
      obtain ⟨pre, e1, _, _, t, hm, ht, _⟩ := search_shape _ _ [] code m hs
      obtain ⟨a, x, y, b, hxy, hx, hy⟩ := step_shape _ _ hm
      simp only at hxy
      have hcode : code = (pre ++ a) ++ x :: y :: (b ++ t.right) := by
        rw [e1, List.append_assoc pre, hxy]
        simp [List.append_assoc]
      have := soup_no_space_digit (pre ++ a) .lineStart x y (b ++ t.right)
        (by rw [← hcode]; exact h) hx
      rw [this] at hy
      exact Bool.noConfusion hy
  have h4 : tutorialPhrase.test { ignoreCase := true } code = false := by
    have e : tutorialPhrase =
        .alt (Re.cat [Re.word "step", Re.plus reSpace, Re.plus (.cls false [.digit])])
          (Re.word "example:") := rfl
    rw [e, test_alt, h2, h3]
    rfl
  simp [detectAIArtifacts, mkCtx, h1, h4]

theorem lt_asymm_true (a b : JSNum) (h : lt a b = true) : lt b a = false := by
  cases a with
  | nan => simp [lt] at h
  | inf sa =>
    cases b with
    | nan => simp [lt] at h
    | inf sb => cases sa <;> cases sb <;> simp_all [lt]
    | fin s m e => cases sa <;> simp_all [lt]
  | fin s1 m1 e1 =>
    cases b with
    | nan => simp [lt] at h
    | inf sb => cases sb <;> simp_all [lt]
    | fin s2 m2 e2 =>
      cases s1 <;> cases s2 <;> simp only [lt] at h ⊢
      · rw [Nat.blt_eq] at h
        cases hb : Nat.blt (align m2 e2 e1) (align m1 e1 e2)
        · rfl
        · rw [Nat.blt_eq] at hb; omega
      · exact Bool.noConfusion h
      · rw [Nat.blt_eq] at h
        cases hb : Nat.blt (align m1 e1 e2) (align m2 e2 e1)
        · rfl
        · rw [Nat.blt_eq] at hb; omega

theorem entropy_zero_of_gt (P : Platform) (code : Text)
    (h : gt (calculateEntropy P ((Re.plus reSpace).replaceAll {} [.text " "] code)) (lit 41 10)
      = true) : (analyzeEntropy P (mkCtx code)).score = 0 := by
  have h1 := lt_asymm_true _ _ h
  simp [analyzeEntropy, mkCtx, h1]

theorem soup_others (code : Text) (h : identifierSoup code = true) :
    (analyzeErrorHandling (mkCtx code)).score = 0 ∧ (analyzeIdioms (mkCtx code)).score = 0 ∧
      (analyzeStatisticalPatterns (mkCtx code)).score = 0 := by
  have hp := not_soup_false code h
  have h1 : tryBlock.matchAll {} code = [] :=
    matchAll_nil_of_forces _ _ (fun y => !isSoupUnit y) (by decide) code hp
  have h2 : idiomRegex.test {} code = false :=
    test_false_of_forces _ _ (fun y => !isSoupUnit y) (by decide) code hp
  have h3 : spacedOperator.matchAll {} code = [] :=
    matchAll_nil_of_forces _ _ (fun y => !isSoupUnit y) (by decide) code hp
  refine ⟨?_, ?_, ?_⟩
  · simp [analyzeErrorHandling, mkCtx, h1]
  · simp [analyzeIdioms, mkCtx, h2]
  · simp [analyzeStatisticalPatterns, mkCtx, h3]

/-- The likelihoods that remain when only the Naming, Structure, Completeness
and Debug-absence modules fire: at most 28. -/
theorem soup_likelihoods :
    ∀ n ∈ [0, 4, 5, 9], ∀ s ∈ [0, 4, 6, 10], ∀ c ∈ [0, 6], ∀ d ∈ [0, 8],
      exactLikelihood (exactSum scoreTable [0, n, s, c, 0, 0, 0, 0, d, 0]) ≤ 28 ∧
      lt (ofNat (exactLikelihood (exactSum scoreTable [0, n, s, c, 0, 0, 0, 0, d, 0])))
        (ofNat 30) = true := by
  decide!

/-- Claim C12.  For every input made of non-empty lines that hold only
identifiers separated by spaces, whatever their number and so for 40 of them,
whose whitespace-collapsed entropy as the program computes it exceeds 4.1: the
Comment-style, AI-artifacts and Entropy modules each return score 0, and the
overall likelihood is the Number of an integer of at most 28, hence below
30. -/
theorem identifier_soup_low (P : Platform) (code : Text) (hsoup : identifierSoup code = true)
    (hent : gt (calculateEntropy P ((Re.plus reSpace).replaceAll {} [.text " "] code))
      (lit 41 10) = true) :
    (analyzeComments (mkCtx code)).score = 0 ∧ (detectAIArtifacts (mkCtx code)).score = 0 ∧
    (analyzeEntropy P (mkCtx code)).score = 0 ∧
    (∃ k : Nat, k ≤ 28 ∧ (analyzeAICodeLikelihood P code).likelihood = ofNat k) ∧
    lt (analyzeAICodeLikelihood P code).likelihood (ofNat 30) = true := by
  have c1 := soup_comments code hsoup
  have c2 := soup_artifacts code hsoup
  have c3 := entropy_zero_of_gt P code hent
  obtain ⟨c4, c5, c6⟩ := soup_others code hsoup
  have key : ∃ k : Nat, k ≤ 28 ∧ (analyzeAICodeLikelihood P code).likelihood = ofNat k ∧
      lt (ofNat k) (ofNat 30) = true := by
    by_cases hlen : (trim code).length < 30
    · exact ⟨0, by omega, by rw [analyze_short P code hlen], by decide!⟩
    · obtain ⟨_, h2⟩ := likelihood_of_modules P (mkCtx code)
      have hin := moduleScores_in P (mkCtx code)
      rw [c1, c2, c3, c4, c5, c6] at h2 hin
      simp only [scoresIn, scoreTable] at hin
      obtain ⟨_, hn, hs, hc, _, _, _, _, hd, _, _⟩ := hin
      obtain ⟨b1, b2⟩ := soup_likelihoods _ hn _ hs _ hc _ hd
      exact ⟨_, b1, by rw [analyze_nondegenerate P code (by omega)]; exact h2, b2⟩
  obtain ⟨k, hk, hke, hlt⟩ := key
  exact ⟨c1, c2, c3, ⟨k, hk, hke⟩, by rw [hke]; exact hlt⟩

set_option maxRecDepth 1000000 in
theorem identifier_soup_low_witness :
    (splitLines soupExample).length = 40 ∧
    (mkCtx soupExample).nonEmptyLines.length = 40 ∧
    (analyzeComments (mkCtx soupExample)).score = 0 ∧
    (detectAIArtifacts (mkCtx soupExample)).score = 0 ∧
    (analyzeEntropy referencePlatform (mkCtx soupExample)).score = 0 ∧
    lt (analyzeAICodeLikelihood referencePlatform soupExample).likelihood (ofNat 30) = true :=
  have h := identifier_soup_low referencePlatform soupExample (by decide!) (by decide!)
  ⟨by decide!, by decide!, h.1, h.2.1, h.2.2.1, h.2.2.2.2⟩

/-! ### Rounding depends only on the value rounded -/

theorem cross_lt (x y x1 y1 k t : Nat) (_hy : 0 < y) (hy1 : 0 < y1) (h : x * y1 = x1 * y)
    (hlt : x * k < y * t) : x1 * k < y1 * t := by
  by_contra hc
  push_neg at hc
  have a1 := Nat.mul_le_mul_right y hc
  have a2 := Nat.mul_lt_mul_of_pos_right hlt hy1
  have a3 : x * y1 * k = x1 * y * k := by rw [h]
  nlinarith

theorem cross_le (x y x1 y1 k t : Nat) (hy : 0 < y) (_hy1 : 0 < y1) (h : x * y1 = x1 * y)
    (hle : y * t ≤ x * k) : y1 * t ≤ x1 * k := by
  by_contra hc
  push_neg at hc
  have a1 := Nat.mul_lt_mul_of_pos_right hc hy
  have a2 := Nat.mul_le_mul_right y1 hle
  have a3 : x * y1 * k = x1 * y * k := by rw [h]
  nlinarith

theorem half_lt_congr (d1 d2 r1 r2 : Nat) (_h1 : 0 < d1) (h2 : 0 < d2)
    (hr : r1 * d2 = r2 * d1) (hlt : d1 < 2 * r1) : d2 < 2 * r2 := by
  by_contra hc
  push_neg at hc
  have a1 := Nat.mul_le_mul_right d1 hc
  have a2 := Nat.mul_lt_mul_of_pos_right hlt h2
  nlinarith

theorem half_eq_congr (d1 d2 r1 r2 : Nat) (h1 : 0 < d1)
    (hr : r1 * d2 = r2 * d1) (he : 2 * r1 = d1) : 2 * r2 = d2 := by
  apply Nat.eq_of_mul_eq_mul_right h1
  have a1 : 2 * r1 * d2 = d1 * d2 := by rw [he]
  nlinarith

theorem roundQuotient_congr (n1 d1 n2 d2 : Nat) (h1 : 0 < d1) (h2 : 0 < d2)
    (h : n1 * d2 = n2 * d1) : roundQuotient n1 d1 = roundQuotient n2 d2 := by
  have hq : n1 / d1 = n2 / d2 := by
    rw [← Nat.mul_div_mul_right n1 d1 h2, ← Nat.mul_div_mul_right n2 d2 h1, h, Nat.mul_comm d1 d2]
  have hr : (n1 % d1) * d2 = (n2 % d2) * d1 := by
    have e1 := Nat.mod_add_div n1 d1
    have e2 := Nat.mod_add_div n2 d2
    rw [← hq] at e2
    generalize n1 / d1 = q at e1 e2
    generalize n1 % d1 = r1 at e1 ⊢
    generalize n2 % d2 = r2 at e2 ⊢
    zify at *
    linear_combination (d2 : ℤ) * e1 - (d1 : ℤ) * e2 + h
  have c1 : Nat.blt d1 (Nat.mul 2 (Nat.mod n1 d1)) = Nat.blt d2 (Nat.mul 2 (Nat.mod n2 d2)) := by
    rw [Bool.eq_iff_iff, Nat.blt_eq, Nat.blt_eq]
    exact ⟨half_lt_congr d1 d2 _ _ h1 h2 hr, half_lt_congr d2 d1 _ _ h2 h1 hr.symm⟩
  have c2 : Nat.beq (Nat.mul 2 (Nat.mod n1 d1)) d1 = Nat.beq (Nat.mul 2 (Nat.mod n2 d2)) d2 := by
    rw [Bool.eq_iff_iff, Nat.beq_eq, Nat.beq_eq]
    exact ⟨half_eq_congr d1 d2 _ _ h1 hr, half_eq_congr d2 d1 _ _ h2 hr.symm⟩
  have hq2 : Nat.div n1 d1 = Nat.div n2 d2 := hq
  unfold roundQuotient
  rw [c1, c2, hq2]

theorem roundAt_congr (s : Bool) (n d p q n1 d1 p1 q1 eb : Nat) (hd : 0 < d) (hd1 : 0 < d1)
    (h : n * d1 * 2 ^ (p + q1) = n1 * d * 2 ^ (p1 + q)) :
    roundAt s n d p q eb = roundAt s n1 d1 p1 q1 eb := by
  have hcross : n * 2 ^ (p + 1074 - (q + eb)) * (d1 * 2 ^ (q1 + eb - (p1 + 1074))) =
      n1 * 2 ^ (p1 + 1074 - (q1 + eb)) * (d * 2 ^ (q + eb - (p + 1074))) := by
    have hx : 2 ^ (p1 + q) * (2 ^ (p + 1074 - (q + eb)) * 2 ^ (q1 + eb - (p1 + 1074))) =
        (2 ^ (p1 + 1074 - (q1 + eb)) * 2 ^ (q + eb - (p + 1074))) * 2 ^ (p + q1) := by
      have hexp : p1 + q + (p + 1074 - (q + eb) + (q1 + eb - (p1 + 1074))) =
          p1 + 1074 - (q1 + eb) + (q + eb - (p + 1074)) + (p + q1) := by omega
      rw [← pow_add 2 (p + 1074 - (q + eb)), ← pow_add 2 (p1 + 1074 - (q1 + eb)),
        ← pow_add, ← pow_add, hexp]
    have hU : 0 < 2 ^ (p + q1) := by positivity
    generalize 2 ^ (p + q1) = U at h hx hU
    generalize 2 ^ (p1 + q) = W at h hx
    generalize 2 ^ (p + 1074 - (q + eb)) = A at hx ⊢
    generalize 2 ^ (q1 + eb - (p1 + 1074)) = B1 at hx ⊢
    generalize 2 ^ (p1 + 1074 - (q1 + eb)) = A1 at hx ⊢
    generalize 2 ^ (q + eb - (p + 1074)) = B at hx ⊢
    apply Nat.eq_of_mul_eq_mul_right hU
    zify at *
    linear_combination ((A : ℤ) * B1) * h + ((n1 : ℤ) * d) * hx
  have key := roundQuotient_congr _ _ _ _
    (by positivity : 0 < d * 2 ^ (q + eb - (p + 1074)))
    (by positivity : 0 < d1 * 2 ^ (q1 + eb - (p1 + 1074))) hcross
  unfold roundAt
  simp only [strictNat_eq, Nat.mul_eq, Nat.pow_eq, Nat.sub_eq, Nat.add_eq]
  rw [key]

/-- The two brackets of `n / d` by powers of two that fix the exponent field. -/
theorem log_bracket (n d : Nat) (hn : 0 < n) (hd : 0 < d) :
    d * 2 ^ bitLog n ≤
        n * 2 ^ (bitLog d + (if n * 2 ^ bitLog d < d * 2 ^ bitLog n then 1 else 0)) ∧
      n * 2 ^ (bitLog d + (if n * 2 ^ bitLog d < d * 2 ^ bitLog n then 1 else 0)) <
        d * 2 ^ (bitLog n + 1) := by
  obtain ⟨a1, a2⟩ := bitLog_spec n hn
  obtain ⟨b1, b2⟩ := bitLog_spec d hd
  generalize bitLog n = ln at a1 a2 ⊢
  generalize bitLog d = ld at b1 b2 ⊢
  by_cases hlt : n * 2 ^ ld < d * 2 ^ ln
  · simp only [hlt, if_true]
    constructor
    · calc d * 2 ^ ln ≤ 2 ^ (ld + 1) * 2 ^ ln := Nat.mul_le_mul_right _ (le_of_lt b2)
        _ = 2 ^ ln * 2 ^ (ld + 1) := by ring
        _ ≤ n * 2 ^ (ld + 1) := Nat.mul_le_mul_right _ a1
    · calc n * 2 ^ (ld + 1) = n * 2 ^ ld * 2 := by rw [pow_succ]; ring
        _ < d * 2 ^ ln * 2 := by omega
        _ = d * 2 ^ (ln + 1) := by rw [pow_succ]; ring
  · simp only [hlt, if_false]
    constructor
    · simpa using Nat.le_of_not_lt hlt
    · calc n * 2 ^ (ld + 0) = n * 2 ^ ld := by simp
        _ < 2 ^ (ln + 1) * 2 ^ ld := Nat.mul_lt_mul_of_pos_right a2 (by positivity)
        _ ≤ 2 ^ (ln + 1) * d := Nat.mul_le_mul_left _ b1
        _ = d * 2 ^ (ln + 1) := by ring

/-- What fixes the exponent field `eb` of the rounding of `(n / d) * 2^(p - q)`:
the value is below `2^(eb - 1021)`, and at least `2^(eb - 1022)` unless `eb`
is 0. -/
theorem expField_spec (n d p q : Nat) (hn : 0 < n) (hd : 0 < d) (eb : Nat)
    (he : eb = expField n d p q (bitLog n) (bitLog d)) :
    n * 2 ^ p * 2 ^ 1022 < d * 2 ^ q * 2 ^ (eb + 1) ∧
      (eb = 0 ∨ d * 2 ^ q * 2 ^ eb ≤ n * 2 ^ p * 2 ^ 1022) := by
  obtain ⟨s1, s2⟩ := log_bracket n d hn hd
  rw [expField_eq] at he
  generalize bitLog n = ln at s1 s2 he
  generalize bitLog d = ld at s1 s2 he
  generalize (if n * 2 ^ ld < d * 2 ^ ln then 1 else 0) = c at s1 s2 he
  have hpos : 0 < 2 ^ (ld + c) := by positivity
  constructor
  · apply Nat.lt_of_mul_lt_mul_right (a := 2 ^ (ld + c))
    calc n * 2 ^ p * 2 ^ 1022 * 2 ^ (ld + c) = n * 2 ^ (ld + c) * 2 ^ (p + 1022) := by
          rw [pow_add 2 p 1022]; ring
      _ < d * 2 ^ (ln + 1) * 2 ^ (p + 1022) := Nat.mul_lt_mul_of_pos_right s2 (by positivity)
      _ = d * 2 ^ (ln + 1 + (p + 1022)) := by rw [pow_add 2 (ln + 1)]; ring
      _ ≤ d * 2 ^ (q + (eb + 1) + (ld + c)) :=
          Nat.mul_le_mul_left _ (Nat.pow_le_pow_right (by decide) (by omega))
      _ = d * 2 ^ q * 2 ^ (eb + 1) * 2 ^ (ld + c) := by
          rw [pow_add 2 (q + (eb + 1)), pow_add 2 q]; ring
  · by_cases h0 : eb = 0
    · exact Or.inl h0
    · right
      apply Nat.le_of_mul_le_mul_right (c := 2 ^ (ld + c)) _ hpos
      calc d * 2 ^ q * 2 ^ eb * 2 ^ (ld + c) = d * 2 ^ (q + eb + (ld + c)) := by
            rw [pow_add 2 (q + eb), pow_add 2 q]; ring
        _ = d * 2 ^ (ln + (p + 1022)) := by
            have hexp : q + eb + (ld + c) = ln + (p + 1022) := by omega
            rw [hexp]
        _ = d * 2 ^ ln * 2 ^ (p + 1022) := by rw [pow_add 2 ln]; ring
        _ ≤ n * 2 ^ (ld + c) * 2 ^ (p + 1022) := Nat.mul_le_mul_right _ s1
        _ = n * 2 ^ p * 2 ^ 1022 * 2 ^ (ld + c) := by rw [pow_add 2 p 1022]; ring

theorem expField_congr (n d p q n1 d1 p1 q1 : Nat) (hn : 0 < n) (hn1 : 0 < n1) (hd : 0 < d)
    (hd1 : 0 < d1) (h : n * d1 * 2 ^ (p + q1) = n1 * d * 2 ^ (p1 + q)) :
    expField n d p q (bitLog n) (bitLog d) = expField n1 d1 p1 q1 (bitLog n1) (bitLog d1) := by
  obtain ⟨u1, u2⟩ := expField_spec n d p q hn hd _ rfl
  obtain ⟨v1, v2⟩ := expField_spec n1 d1 p1 q1 hn1 hd1 _ rfl
  generalize expField n d p q (bitLog n) (bitLog d) = e at u1 u2 ⊢
  generalize expField n1 d1 p1 q1 (bitLog n1) (bitLog d1) = e1 at v1 v2 ⊢
  have hy : 0 < d * 2 ^ q := by positivity
  have hy1 : 0 < d1 * 2 ^ q1 := by positivity
  have hc : n * 2 ^ p * (d1 * 2 ^ q1) = n1 * 2 ^ p1 * (d * 2 ^ q) := by
    rw [pow_add, pow_add] at h
    zify at *
    linear_combination h
  generalize n * 2 ^ p = x at u1 u2 hc
  generalize d * 2 ^ q = y at u1 u2 hc hy
  generalize n1 * 2 ^ p1 = x1 at v1 v2 hc
  generalize d1 * 2 ^ q1 = y1 at v1 v2 hc hy1
  generalize 2 ^ 1022 = K at u1 u2 v1 v2
  -- each field satisfies the bounds of the other value
  have w1 := cross_lt x y x1 y1 K (2 ^ (e + 1)) hy hy1 hc u1
  have w2 := cross_lt x1 y1 x y K (2 ^ (e1 + 1)) hy1 hy hc.symm v1
  by_contra hne
  rcases Nat.lt_or_gt_of_ne hne with hlt | hlt
  · -- `e < e1`, so `e1` is not 0
    rcases v2 with v2 | v2
    · omega
    · have : y1 * 2 ^ (e + 1) ≤ y1 * 2 ^ e1 :=
        Nat.mul_le_mul_left _ (Nat.pow_le_pow_right (by decide) (by omega))
      omega
  · rcases u2 with u2 | u2
    · omega
    · have : y * 2 ^ (e1 + 1) ≤ y * 2 ^ e :=
        Nat.mul_le_mul_left _ (Nat.pow_le_pow_right (by decide) (by omega))
      omega

theorem round_unfold (s : Bool) (n d p q : Nat) (hn : n ≠ 0) :
    JSNum.round s n d p q = roundAt s n d p q (expField n d p q (bitLog n) (bitLog d)) := by
  unfold JSNum.round
  simp only [strictNat_eq]
  have : Nat.beq n 0 = false := by
    cases hb : Nat.beq n 0
    · rfl
    · exact absurd (Nat.eq_of_beq_eq_true hb) hn
  rw [this]
  rfl

/-- Rounding depends only on the value rounded: two ways of writing the same
rational `(n / d) * 2^(p - q)` round to the same Number. -/
theorem round_congr (s : Bool) (n d p q n1 d1 p1 q1 : Nat) (hd : 0 < d) (hd1 : 0 < d1)
    (h : n * d1 * 2 ^ (p + q1) = n1 * d * 2 ^ (p1 + q)) :
    JSNum.round s n d p q = JSNum.round s n1 d1 p1 q1 := by
  by_cases hn : n = 0
  · have hn1 : n1 = 0 := by
      rw [hn] at h
      simp only [Nat.zero_mul] at h
      have hp : 0 < d * 2 ^ (p1 + q) := by positivity
      rcases Nat.eq_zero_or_pos n1 with h0 | h0
      · exact h0
      · have : 0 < n1 * d * 2 ^ (p1 + q) := by positivity
        omega
    rw [hn, hn1, round_zero, round_zero]
  · have hn1 : n1 ≠ 0 := by
      intro h0
      rw [h0] at h
      simp only [Nat.zero_mul] at h
      have : 0 < n * d1 * 2 ^ (p + q1) := by
        have := Nat.pos_of_ne_zero hn
        positivity
      omega
    rw [round_unfold s n d p q hn, round_unfold s n1 d1 p1 q1 hn1,
      expField_congr n d p q n1 d1 p1 q1 (Nat.pos_of_ne_zero hn) (Nat.pos_of_ne_zero hn1) hd hd1 h]
    exact roundAt_congr s n d p q n1 d1 p1 q1 _ hd hd1 h

/-! ### Exact sums and quotients of natural numbers -/

theorem nat_mod_fn (x y : Nat) : Nat.mod x y = x % y := rfl

theorem roundQuotient_one (x : Nat) : roundQuotient x 1 = x := by
  unfold roundQuotient
  rw [nat_mod_fn, nat_div_fn, Nat.mod_one, Nat.div_one]
  rfl

theorem beq_false_of_ne (x y : Nat) (h : x ≠ y) : Nat.beq x y = false := by
  cases hb : Nat.beq x y
  · rfl
  · exact absurd (Nat.eq_of_beq_eq_true hb) h

theorem blt_false_of_le (x y : Nat) (h : y ≤ x) : Nat.blt x y = false := by
  cases hb : Nat.blt x y
  · rfl
  · rw [Nat.blt_eq] at hb; omega

/-- The Number of a positive natural number below `2^53` is that number,
written with a mantissa of 53 bits. -/
theorem ofNat_exact (a : Nat) (h0 : 0 < a) (h : a < 2 ^ 53) :
    ofNat a = fin false (a * 2 ^ (52 - bitLog a)) (bitLog a + 1022) := by
  obtain ⟨a1, a2⟩ := bitLog_spec a h0
  have hb1 : bitLog 1 = 0 := by decide!
  have hln : bitLog a ≤ 52 := by
    by_contra hc
    have : 2 ^ 53 ≤ 2 ^ bitLog a := Nat.pow_le_pow_right (by decide) (by omega)
    omega
  unfold ofNat
  rw [round_unfold false a 1 0 0 (by omega), hb1, expField_eq]
  generalize bitLog a = ln at a1 a2 hln ⊢
  have hc : ¬ a * 2 ^ 0 < 1 * 2 ^ ln := by
    rw [pow_zero, Nat.mul_one, Nat.one_mul]
    omega
  rw [if_neg hc]
  have he : ln + 0 + 1022 - (0 + 0 + 0) = ln + 1022 := by omega
  rw [he]
  unfold roundAt
  simp only [strictNat_eq, Nat.mul_eq, Nat.pow_eq, Nat.sub_eq, Nat.add_eq]
  have e1 : 0 + 1074 - (0 + (ln + 1022)) = 52 - ln := by omega
  have e2 : 0 + (ln + 1022) - (0 + 1074) = 0 := by omega
  rw [e1, e2, pow_zero, Nat.mul_one, roundQuotient_one]
  have hm : a * 2 ^ (52 - ln) < 2 ^ 53 := by
    calc a * 2 ^ (52 - ln) < 2 ^ (ln + 1) * 2 ^ (52 - ln) :=
          Nat.mul_lt_mul_of_pos_right a2 (by positivity)
      _ = 2 ^ 53 := by
          rw [← pow_add]
          have : ln + 1 + (52 - ln) = 53 := by omega
          rw [this]
  unfold pack
  rw [show Nat.pow 2 53 = 2 ^ 53 from rfl, beq_false_of_ne _ _ (by omega),
    blt_false_of_le 2045 (ln + 1022) (by omega)]
  rfl

theorem ofNat_zero : ofNat 0 = fin false 0 0 := by decide

/-- The value of the Number of a natural number below `2^53`. -/
theorem ofNat_value (a : Nat) (h : a < 2 ^ 53) :
    ∃ m e, ofNat a = fin false m e ∧ m * 2 ^ e = a * 2 ^ 1074 ∧ (m = 0 → a = 0) := by
  rcases Nat.eq_zero_or_pos a with h0 | h0
  · subst h0
    exact ⟨0, 0, ofNat_zero, by rw [Nat.zero_mul, Nat.zero_mul], fun _ => rfl⟩
  · obtain ⟨a1, a2⟩ := bitLog_spec a h0
    have hln : bitLog a ≤ 52 := by
      by_contra hc
      have : 2 ^ 53 ≤ 2 ^ bitLog a := Nat.pow_le_pow_right (by decide) (by omega)
      omega
    refine ⟨_, _, ofNat_exact a h0 h, ?_, ?_⟩
    · rw [Nat.mul_assoc, ← pow_add]
      have : 52 - bitLog a + (bitLog a + 1022) = 1074 := by omega
      rw [this]
    · intro hm
      have : 0 < a * 2 ^ (52 - bitLog a) := by positivity
      omega

theorem align_min (m e e1 : Nat) :
    align m e e1 * 2 ^ (bif Nat.ble e e1 then e else e1) = m * 2 ^ e := by
  have h := align_mul m e e1
  by_cases hle : e ≤ e1
  · have hb : Nat.ble e e1 = true := by rw [Nat.ble_eq]; exact hle
    rw [hb]
    simpa [hle] using h
  · have hb : Nat.ble e e1 = false := by
      cases hc : Nat.ble e e1
      · rfl
      · rw [Nat.ble_eq] at hc; exact absurd hc hle
    rw [hb]
    simpa [hle] using h

theorem align_min_swap (m e e1 : Nat) :
    align m e e1 * 2 ^ (bif Nat.ble e1 e then e1 else e) = m * 2 ^ e := by
  have h := align_mul m e e1
  by_cases hle : e1 ≤ e
  · have hb : Nat.ble e1 e = true := by rw [Nat.ble_eq]; exact hle
    rw [hb]
    by_cases hle2 : e ≤ e1
    · have : e = e1 := by omega
      subst this
      simpa using h
    · simpa [hle2] using h
  · have hb : Nat.ble e1 e = false := by
      cases hc : Nat.ble e1 e
      · rfl
      · rw [Nat.ble_eq] at hc; exact absurd hc hle
    rw [hb]
    have hle2 : e ≤ e1 := by omega
    simpa [hle2] using h

/-- The sum of the Numbers of two natural numbers below `2^53` is the Number
of their sum. -/
theorem add_ofNat (a b : Nat) (ha : a < 2 ^ 53) (hb : b < 2 ^ 53) :
    add (ofNat a) (ofNat b) = ofNat (a + b) := by
  obtain ⟨m1, e1, x1, v1, z1⟩ := ofNat_value a ha
  obtain ⟨m2, e2, x2, v2, z2⟩ := ofNat_value b hb
  by_cases hm2 : m2 = 0
  · have hb0 := z2 hm2
    subst hb0
    rw [Nat.add_zero, ofNat_zero, x1]
    by_cases hm1 : m1 = 0
    · have ha0 := z1 hm1
      subst ha0
      rw [ofNat_zero] at x1
      injection x1 with _ hm he
      subst hm
      subst he
      rfl
    · simp only [add, beq_false_of_ne _ _ hm1]
      rfl
  · by_cases hm1 : m1 = 0
    · have ha0 := z1 hm1
      subst ha0
      rw [Nat.zero_add, ofNat_zero, x2]
      simp only [add, beq_false_of_ne _ _ hm2]
      rfl
    · rw [x1, x2]
      simp only [add, beq_false_of_ne _ _ hm1, beq_false_of_ne _ _ hm2, cond_false,
        beq_self_eq_true, cond_true, Nat.add_eq]
      unfold ofNat
      apply round_congr false _ 1 _ 1074 (a + b) 1 0 0 (by decide) (by decide)
      rw [Nat.mul_one, Nat.mul_one, Nat.add_zero, Nat.zero_add, Nat.add_mul, Nat.add_mul,
        align_min, align_min_swap, v1, v2]

theorem sum_ofNat (vs : List Nat) :
    ∀ acc : Nat, acc + vs.sum < 2 ^ 53 →
      (vs.map ofNat).foldl (fun a b => add a b) (ofNat acc) = ofNat (acc + vs.sum) := by
  induction vs with
  | nil => intro acc _; simp
  | cons v vs ih =>
    intro acc h
    simp only [List.sum_cons] at h
    simp only [List.map_cons, List.foldl_cons, List.sum_cons]
    rw [add_ofNat acc v (by omega) (by omega), ih (acc + v) (by omega), Nat.add_assoc]

/-- The quotient of the Numbers of two natural numbers below `2^53` is the
Number nearest to their exact quotient. -/
theorem div_ofNat (a b : Nat) (ha : a < 2 ^ 53) (hb0 : 0 < b) (hb : b < 2 ^ 53) :
    div (ofNat a) (ofNat b) = lit a b := by
  obtain ⟨m1, e1, x1, v1, _⟩ := ofNat_value a ha
  obtain ⟨m2, e2, x2, v2, z2⟩ := ofNat_value b hb
  have hm2 : m2 ≠ 0 := by
    intro h
    have := z2 h
    omega
  rw [x1, x2]
  simp only [div, beq_false_of_ne _ _ hm2, cond_false]
  have hs : (false != false) = false := rfl
  rw [hs]
  unfold lit
  apply round_congr false m1 m2 e1 e2 a b 0 0 (Nat.pos_of_ne_zero hm2) hb0
  rw [Nat.add_zero, Nat.zero_add]
  have hB : 0 < 2 ^ 1074 := by positivity
  generalize 2 ^ 1074 = B at v1 v2 hB
  apply Nat.eq_of_mul_eq_mul_right hB
  generalize 2 ^ e1 = E1 at v1 ⊢
  generalize 2 ^ e2 = E2 at v2 ⊢
  zify at *
  linear_combination ((b : ℤ) * B) * v1 - ((a : ℤ) * B) * v2

theorem lit_cancel (n v : Nat) (hn : 0 < n) : lit (n * v) n = ofNat v := by
  unfold lit ofNat
  apply round_congr false (n * v) n 0 0 v 1 0 0 hn (by decide)
  ring

/-- Dividing a zero by the Number of a positive natural number gives `+0`. -/
theorem zero_div_ofNat (n : Nat) (hn : 0 < n) : div (fin false 0 0) (ofNat n) = fin false 0 0 := by
  have hg := ofNat_geVal n 0 (0 + 1074) rfl (by simpa using hn)
  rcases hg with hg | ⟨m, e, hg, hme⟩
  · rw [hg]; rfl
  · rw [hg]
    have hm : m ≠ 0 := by
      intro h0
      subst h0
      rw [Nat.zero_mul] at hme
      have : 0 < 2 ^ (0 + 1074) := by positivity
      omega
    simp only [div, beq_false_of_ne _ _ hm, cond_false, round_zero]
    rfl

theorem sub_self_fin (s : Bool) (m e : Nat) : sub (fin s m e) (fin s m e) = fin false 0 0 := by
  unfold sub JSNum.neg
  by_cases hm : m = 0
  · subst hm
    cases s <;> rfl
  · have hb : Nat.beq (align m e e) (align m e e) = true := by
      generalize align m e e = x
      induction x with
      | zero => rfl
      | succ k ih => exact ih
    cases s <;> simp [add, beq_false_of_ne _ _ hm, hb]

theorem ofNat_fin (a : Nat) (h : a < 2 ^ 53) : ∃ m e, ofNat a = fin false m e := by
  obtain ⟨m, e, x, _, _⟩ := ofNat_value a h
  exact ⟨m, e, x⟩

/-! ### The statistics helper (C21) -/

theorem truthy_false_iff (x : JSNum) :
    truthy x = false ↔ x = nan ∨ ∃ s e, x = fin s 0 e := by
  cases x with
  | nan => simp [truthy]
  | inf b => simp [truthy]
  | fin s m e =>
    cases m with
    | zero => simp [truthy]
    | succ k => simp [truthy, Nat.beq]

theorem getStatistics_nonempty (P : Platform) (values : List JSNum) (h : values ≠ []) :
    getStatistics P values =
      { mean := div (values.foldl (fun a b => add a b) (ofNat 0)) (ofNat values.length)
        variance :=
          div (values.foldl (fun s v => add s (P.pow (sub v
            (div (values.foldl (fun a b => add a b) (ofNat 0)) (ofNat values.length)))
              (ofNat 2))) (ofNat 0)) (ofNat values.length)
        stdDev :=
          sqrt (div (values.foldl (fun s v => add s (P.pow (sub v
            (div (values.foldl (fun a b => add a b) (ofNat 0)) (ofNat values.length)))
              (ofNat 2))) (ofNat 0)) (ofNat values.length))
        cv :=
          if truthy (div (values.foldl (fun a b => add a b) (ofNat 0)) (ofNat values.length))
          then
            div (sqrt (div (values.foldl (fun s v => add s (P.pow (sub v
                (div (values.foldl (fun a b => add a b) (ofNat 0)) (ofNat values.length)))
                  (ofNat 2))) (ofNat 0)) (ofNat values.length)))
              (div (values.foldl (fun a b => add a b) (ofNat 0)) (ofNat values.length))
          else ofNat 0 } := by
  have hl : values.length ≠ 0 := by
    intro h0
    exact h (List.eq_nil_of_length_eq_zero h0)
  simp only [getStatistics, hl, if_false]

/-- The mean of natural numbers whose sum is below `2^53` is the Number
nearest to their exact mean. -/
theorem mean_ofNat (P : Platform) (vs : List Nat) (hne : vs ≠ []) (hsum : vs.sum < 2 ^ 53)
    (hlen : vs.length < 2 ^ 53) :
    (getStatistics P (vs.map ofNat)).mean = lit vs.sum vs.length := by
  have hpos : 0 < vs.length := List.length_pos.mpr hne
  rw [getStatistics_nonempty P _ (by simpa using hne)]
  simp only [List.length_map]
  rw [sum_ofNat vs 0 (by omega), Nat.zero_add, div_ofNat vs.sum vs.length hsum hpos hlen]

theorem fold_zero (P : Platform) (hpow : P.pow (ofNat 0) (ofNat 2) = ofNat 0) (m e : Nat) :
    ∀ n : Nat,
      (List.replicate n (fin false m e)).foldl
        (fun s v => add s (P.pow (sub v (fin false m e)) (ofNat 2))) (ofNat 0) = ofNat 0 := by
  intro n
  induction n with
  | zero => rfl
  | succ k ih =>
    have h0 : add (ofNat 0) (ofNat 0) = ofNat 0 := by decide
    rw [List.replicate_succ, List.foldl_cons, sub_self_fin, ← ofNat_zero, hpow, h0]
    exact ih

/-- A list of equal natural numbers whose sum is below `2^53` has their value
as mean, and variance, standard deviation and coefficient of variation 0. -/
theorem getStatistics_equal (P : Platform) (hpow : P.pow (ofNat 0) (ofNat 2) = ofNat 0)
    (n v : Nat) (hn : 0 < n) (h : n * v < 2 ^ 53) :
    getStatistics P (List.replicate n (ofNat v)) =
      { mean := ofNat v, variance := ofNat 0, stdDev := ofNat 0, cv := ofNat 0 } := by
  have hv : v < 2 ^ 53 := lt_of_le_of_lt (Nat.le_mul_of_pos_left v hn) h
  have hne : List.replicate n (ofNat v) ≠ [] := by
    intro h0
    have := congrArg List.length h0
    simp at this
    omega
  have hsum : (List.replicate n (ofNat v)).foldl (fun a b => add a b) (ofNat 0) =
      ofNat (n * v) := by
    have h1 := sum_ofNat (List.replicate n v) 0 (by simpa using h)
    simpa using h1
  have hmean : div (ofNat (n * v)) (ofNat n) = ofNat v := by
    rcases Nat.eq_zero_or_pos v with h0 | h0
    · subst h0
      rw [Nat.mul_zero, ofNat_zero]
      exact zero_div_ofNat n hn
    · have hn2 : n < 2 ^ 53 := lt_of_le_of_lt (Nat.le_mul_of_pos_right n h0) h
      rw [div_ofNat (n * v) n h hn hn2, lit_cancel n v hn]
  obtain ⟨m, e, hfin⟩ := ofNat_fin v hv
  have hsq : sqrt (fin false 0 0) = fin false 0 0 := rfl
  have hcv : (if truthy (ofNat v) then div (ofNat 0) (ofNat v) else ofNat 0) = ofNat 0 := by
    rcases Nat.eq_zero_or_pos v with h0 | h0
    · subst h0
      rfl
    · rw [ofNat_zero, zero_div_ofNat v h0]
      split <;> rfl
  rw [getStatistics_nonempty P _ hne]
  simp only [List.length_replicate]
  rw [hsum, hmean]
  have hvar : (List.replicate n (ofNat v)).foldl
      (fun s x => add s (P.pow (sub x (ofNat v)) (ofNat 2))) (ofNat 0) = ofNat 0 := by
    rw [hfin]
    exact fold_zero P hpow m e n
  rw [hvar, ofNat_zero, zero_div_ofNat n hn, hsq, ← ofNat_zero, hcv]

/-! ### The matcher finds a match whenever one exists -/

theorem stepIf_complete (p : Nat → Bool) (s : MState) (k : MState → Option MState)
    (x : Nat) (xs : Text) (hr : s.right = x :: xs) (hp : p x = true)
    (hk : (k { s with left := x :: s.left, right := xs }).isSome = true) :
    (stepIf p s k).isSome = true := by
  unfold stepIf
  rw [hr]
  simp only [hp, if_true]
  exact hk

theorem starLoop_complete (f : Flags) (g : Bool) (r : Re)
    (ih : ∀ (s t : MState) (k : MState → Option MState),
      Matches f r s t → (k t).isSome = true → (r.run f s k).isSome = true) :
    ∀ (fuel : Nat) (s t : MState) (k : MState → Option MState),
      s.right.length < fuel → Matches f (.star g r) s t → (k t).isSome = true →
        (starLoop (r.run f) g fuel s k).isSome = true := by
  intro fuel
  induction fuel with
  | zero => intro s t k h; omega
  | succ fuel ihf =>
    intro s t k hlen hm hk
    have hagain : ∀ s1 : MState, Matches f r s s1 → s1.right.length ≠ s.right.length →
        Matches f (.star g r) s1 t →
        (r.run f s (fun s1 => if s1.right.length = s.right.length then none
          else starLoop (r.run f) g fuel s1 k)).isSome = true := by
      intro s1 h1 hne h2
      apply ih s s1 _ h1
      simp only [hne, if_false]
      obtain ⟨w, hw, _⟩ := h1.consumed
      have hle : s1.right.length ≤ s.right.length := by
        rw [hw]; simp
      exact ihf s1 t k (by omega) h2 hk
    cases hm with
    | starNil =>
      simp only [starLoop]
      cases g with
      | true =>
        simp only [if_true]
        split
        · rfl
        · exact hk
      | false =>
        simp only [Bool.false_eq_true, if_false]
        split
        · rfl
        · rename_i hn
          rw [hn] at hk
          exact absurd hk (by simp)
    | starCons _ _ _ s1 _ h1 hne h2 =>
      have ha := hagain s1 h1 hne h2
      simp only [starLoop]
      cases g with
      | true =>
        simp only [if_true]
        split
        · rfl
        · rename_i hn
          rw [hn] at ha
          exact absurd ha (by simp)
      | false =>
        simp only [Bool.false_eq_true, if_false]
        split
        · rfl
        · exact ha

/-- Completeness of the backtracking matcher: when the pattern can take the
matcher from `s` to `t` and the continuation accepts `t`, the matcher
succeeds (possibly through a choice of higher priority). -/
theorem run_complete (f : Flags) (r : Re) :
    ∀ (s t : MState) (k : MState → Option MState),
      Matches f r s t → (k t).isSome = true → (r.run f s k).isSome = true := by
  induction r with
  | eps =>
    intro s t k h hk
    cases h
    exact hk
  | lit c =>
    intro s t k h hk
    cases h with
    | lit _ _ x xs hr hp => exact stepIf_complete _ s k x xs hr hp hk
  | any =>
    intro s t k h hk
    cases h with
    | any _ x xs hr hp => exact stepIf_complete _ s k x xs hr hp hk
  | cls negated items =>
    intro s t k h hk
    cases h with
    | cls _ _ _ x xs hr hp => exact stepIf_complete _ s k x xs hr hp hk
  | seq a b iha ihb =>
    intro s t k h hk
    cases h with
    | seq _ _ _ s1 _ h1 h2 =>
      simp only [Re.run]
      exact iha s s1 _ h1 (ihb s1 t k h2 hk)
  | alt a b iha ihb =>
    intro s t k h hk
    simp only [Re.run]
    cases h with
    | altL _ _ _ _ h1 =>
      have := iha s t k h1 hk
      split
      · rfl
      · rename_i hn
        rw [hn] at this
        exact absurd this (by simp)
    | altR _ _ _ _ h1 =>
      split
      · rfl
      · exact ihb s t k h1 hk
  | star g r ih =>
    intro s t k h hk
    simp only [Re.run]
    exact starLoop_complete f g r ih _ s t k (by omega) h hk
  | wordB =>
    intro s t k h hk
    cases h with
    | wordB _ hw =>
      simp only [Re.run, hw, if_true]
      exact hk
  | bol =>
    intro s t k h hk
    cases h with
    | bolStart _ hl =>
      simp only [Re.run, hl]
      exact hk
    | bolLine _ x xs hl hx =>
      simp only [Re.run, hl, hx, if_true]
      exact hk
  | eol =>
    intro s t k h hk
    cases h with
    | eolEnd _ hl =>
      simp only [Re.run, hl]
      exact hk
    | eolLine _ x xs hl hx =>
      simp only [Re.run, hl, hx, if_true]
      exact hk
  | grp r ih =>
    intro s t k h hk
    cases h with
    | grp _ _ s1 h1 =>
      simp only [Re.run]
      exact ih s s1 _ h1 hk

/-- The matcher fails at a position only if the pattern has no match there. -/
theorem matchAt_complete (r : Re) (f : Flags) (left right : Text) (t : MState)
    (h : Matches f r { left := left, right := right, cap := none } t) :
    (r.matchAt f left right).isSome = true := by
  have := run_complete f r _ t some h rfl
  unfold Re.matchAt
  split
  · rename_i hn
    rw [hn] at this
    exact absurd this (by simp)
  · rfl

/-- No position before the first match holds a match. -/
theorem search_gap (r : Re) (f : Flags) (left right : Text) (m : Match)
    (h : r.search f left right = some m) (a b : Text) (hab : right = a ++ b)
    (hlt : a.length + left.length < m.before.length) (t : MState) :
    ¬ Matches f r { left := a.reverse ++ left, right := b, cap := none } t := by
  intro hm
  have hs := matchAt_complete r f _ _ t hm
  obtain ⟨m1, h1, h2⟩ := search_first r f a left b hs
  rw [← hab, h] at h1
  cases h1
  omega

/-- When the search fails, no position holds a match. -/
theorem search_none (r : Re) (f : Flags) (left right : Text)
    (h : r.search f left right = none) (a b : Text) (hab : right = a ++ b) (t : MState) :
    ¬ Matches f r { left := a.reverse ++ left, right := b, cap := none } t := by
  intro hm
  have hs := matchAt_complete r f _ _ t hm
  obtain ⟨m1, h1, _⟩ := search_first r f a left b hs
  rw [← hab, h] at h1
  cases h1

/-! ### The scan returns every match -/

theorem matchesLoop_scan (r : Re) (f : Flags)
    (hne : ∀ (left right : Text) (m : Match), r.search f left right = some m → m.text ≠ []) :
    ∀ (fuel : Nat) (left right : Text), right.length < fuel →
      Scan f r left right ((r.matchesLoop f fuel left right).map fun m => m.text) := by
  intro fuel
  induction fuel with
  | zero => intro left right h; omega
  | succ fuel ih =>
    intro left right hlen
    cases hs : r.search f left right with
    | none =>
      have : r.matchesLoop f (fuel + 1) left right = [] := by
        simp only [Re.matchesLoop, hs]
      rw [this]
      exact Scan.finish left right (fun a b hab t => search_none r f left right hs a b hab t)
    | some m =>
      have hm := hne left right m hs
      obtain ⟨pre, h1, h2, h3, t, ht, htr, _⟩ := search_shape r f left right m hs
      rw [matchesLoop_step r f fuel left right m hs hm, List.map_cons]
      have hlen2 : m.right.length < fuel := by
        have hpos : 0 < m.text.length := List.length_pos.mpr hm
        have := congrArg List.length h1
        simp only [List.length_append] at this
        omega
      have hleft : m.left = m.text.reverse ++ (pre.reverse ++ left) := by rw [h3, h2]
      have hrec : Scan f r (m.text.reverse ++ (pre.reverse ++ left)) m.right
          ((r.matchesLoop f fuel m.left m.right).map fun m => m.text) := by
        rw [← hleft]
        exact ih m.left m.right hlen2
      refine Scan.token left right pre m.text m.right _ (by rw [h1, List.append_assoc]) hm ?_
        ⟨t, by rw [← h2]; exact ht, htr⟩ hrec
      intro a b hab hb t1
      apply search_gap r f left right m hs a (b ++ (m.text ++ m.right))
      · rw [h1, hab]; simp [List.append_assoc]
      · rw [h2, hab]
        have hpos : 0 < b.length := List.length_pos.mpr hb
        simp only [List.length_append, List.length_reverse]
        omega

theorem tokenize_scan (code : Text) : Scan {} tokenRegex [] code (tokenize code) :=
  matchesLoop_scan tokenRegex {}
    (fun l r m h => isToken_ne_nil _ (token_of_search l r m h)) _ [] code (by omega)

theorem tokenize_nil_iff (code : Text) :
    (∀ a b : Text, code = a ++ b →
      ∀ t : MState, ¬ Matches {} tokenRegex { left := a.reverse, right := b, cap := none } t) ↔
    tokenize code = [] := by
  constructor
  · intro h
    cases hs : tokenRegex.search {} [] code with
    | none => simp only [tokenize, Re.matchAll, Re.matches, Re.matchesLoop, hs, List.map_nil]
    | some m =>
      exfalso
      obtain ⟨pre, h1, h2, _, t, ht, _, _⟩ := search_shape tokenRegex {} [] code m hs
      rw [h2, List.append_nil] at ht
      exact h pre (m.text ++ m.right) (by rw [h1, List.append_assoc]) t ht
  · intro h a b hab t ht
    cases hs : tokenRegex.search {} [] code with
    | none =>
      apply search_none tokenRegex {} [] code hs a b hab t
      rw [List.append_nil]
      exact ht
    | some m =>
      have hm := isToken_ne_nil _ (token_of_search [] code m hs)
      simp only [tokenize, Re.matchAll, Re.matches] at h
      rw [matchesLoop_step tokenRegex {} code.length [] code m hs hm] at h
      simp at h

/-- Claim C20.  For every text, the tokens `tokenize` returns lie in the text in
their order without overlapping; each is non-empty and is an identifier, a
numeric literal, a double-, single- or back-quoted literal, a line comment, a
block comment or one of the single-character symbols; so a code unit that
belongs to no such match, like whitespace outside literals and comments, is in
no token (identifiers, numbers and symbols hold no whitespace).  The list is
complete: it is the scan of the text from left to right, in which the token
pattern matches at no position of the gap before a token, each token is a
match of the pattern where the gap ends, and the pattern matches at no position
after the last token.  The list is empty exactly when the pattern matches at
no position of the text.  On a text holding every kind of token the list is
the expected one: `3.5` is one token, the block comment ends at the first `*/`,
and a quote that is never closed is in no token. -/
theorem tokenize_tokens (code : Text) :
    Tiles (tokenize code) code ∧
    (∀ t ∈ tokenize code, t ≠ [] ∧ isToken t = true) ∧
    (∀ t ∈ tokenize code,
      (isIdentifierTok t = true ∨ isNumberTok t = true ∨ isSymbolTok t = true) →
        ∀ x ∈ t, isSpace x = false) ∧
    (tokenRegex.search {} [] code = none → tokenize code = []) ∧
    Scan {} tokenRegex [] code (tokenize code) ∧
    ((∀ a b : Text, code = a ++ b →
      ∀ t : MState, ¬ Matches {} tokenRegex { left := a.reverse, right := b, cap := none } t) ↔
      tokenize code = []) ∧
    tokenize tokenExample =
      [str "let", str "x1", str "=", str "3.5", str ";", str "s", str "=", str "\"a b\"",
       str "+", str "'c'", str "+", str "`d e`", str ";", str "// note", str "/* b */",
       str "y", str "*", str "/", str "12", str "open"] := by
  refine ⟨?_, ?_, ?_, ?_, tokenize_scan code, tokenize_nil_iff code, by decide!⟩
  · exact matchesLoop_tiles tokenRegex {}
      (fun l r m h => isToken_ne_nil _ (token_of_search l r m h)) _ [] code
  · exact matchesLoop_all tokenRegex {} (fun t => t ≠ [] ∧ isToken t = true)
      (fun l r m h => ⟨isToken_ne_nil _ (token_of_search l r m h), token_of_search l r m h⟩)
      _ [] code
  · intro t _ hkind x hx
    rcases hkind with hk | hk | hk
    · cases t with
      | nil => simp at hx
      | cons y ys =>
        simp only [isIdentifierTok, Bool.and_eq_true, List.all_eq_true] at hk
        rcases List.mem_cons.mp hx with hx | hx
        · rw [hx]
          have := hk.1
          revert this
          simp only [isIdentStartUnit, isSpace, Bool.or_eq_true, Bool.and_eq_true,
            decide_eq_true_eq, beq_iff_eq, Bool.or_eq_false_iff, Bool.and_eq_false_iff,
            beq_eq_false_iff_ne, decide_eq_false_iff_not]
          omega
        · have := hk.2 x hx
          revert this
          simp only [isIdentPartUnit, isIdentStartUnit, isDigit, isSpace, Bool.or_eq_true,
            Bool.and_eq_true, decide_eq_true_eq, beq_iff_eq, Bool.or_eq_false_iff,
            Bool.and_eq_false_iff, beq_eq_false_iff_ne, decide_eq_false_iff_not]
          omega
    · have hsplit := List.takeWhile_append_dropWhile isDigit t
      rw [← hsplit] at hx
      simp only [isNumberTok, Bool.and_eq_true] at hk
      rcases List.mem_append.mp hx with hx | hx
      · have := List.mem_takeWhile_imp hx
        revert this
        simp only [isDigit, isSpace, Bool.or_eq_true, Bool.and_eq_true, decide_eq_true_eq,
          beq_iff_eq, Bool.or_eq_false_iff, Bool.and_eq_false_iff, beq_eq_false_iff_ne,
          decide_eq_false_iff_not]
        omega
      · have hk2 := hk.2
        cases hd : t.dropWhile isDigit with
        | nil => rw [hd] at hx; simp at hx
        | cons y ys =>
          rw [hd] at hx hk2
          simp only [Bool.and_eq_true, beq_iff_eq, List.all_eq_true] at hk2
          rcases List.mem_cons.mp hx with hx | hx
          · rw [hx, hk2.1]; decide
          · have := hk2.2 x hx
            revert this
            simp only [isDigit, isSpace, Bool.or_eq_true, Bool.and_eq_true, decide_eq_true_eq,
              beq_iff_eq, Bool.or_eq_false_iff, Bool.and_eq_false_iff, beq_eq_false_iff_ne,
              decide_eq_false_iff_not]
            omega
    · have hall : ∀ y ∈ symbolUnits, isSpace y = false := by decide
      cases t with
      | nil => simp at hx
      | cons y ys =>
        cases ys with
        | nil =>
          simp only [isSymbolTok, List.contains_eq_any_beq, List.any_eq_true, beq_iff_eq] at hk
          obtain ⟨z, hz, hyz⟩ := hk
          simp only [List.mem_singleton] at hx
          rw [hx, hyz]
          exact hall z hz
        | cons z zs => simp [isSymbolTok] at hk
  · intro h
    simp only [tokenize, Re.matchAll, Re.matches, Re.matchesLoop, h, List.map_nil]

theorem tokenize_tokens_witness :
    str "let" ∈ tokenize (str "let x1 = 3.5; // sum") ∧
    (str "let" ≠ [] ∧ isToken (str "let") = true) :=
  ⟨by decide!, (tokenize_tokens (str "let x1 = 3.5; // sum")).2.1 (str "let") (by decide!)⟩

/-! ### Patterns without assertions match whatever surrounds the text -/

theorem mstate_eta (t : MState) (r : Text) (h : t.right = r) :
    t = { left := t.left, right := r, cap := t.cap } := by
  cases t
  simp only at h
  subst h
  rfl

theorem nil_of_append_self (w x : Text) (h : x = w ++ x) : w = [] := by
  have := congrArg List.length h
  simp only [List.length_append] at this
  exact List.eq_nil_of_length_eq_zero (by omega)

theorem unit_of_cons_eq (w : Text) (x : Nat) (xs : Text) (h : x :: xs = w ++ xs) : w = [x] := by
  apply @List.append_cancel_right _ _ xs _
  rw [← h]
  rfl

/-- A match of a pattern without assertions depends only on the text it
consumes: the same text is matched after any other text, before any other
text, and whatever was captured before. -/
theorem Matches.transfer {f : Flags} {r : Re} {s t : MState} (h : Matches f r s t)
    (hfree : r.assertionFree = true) :
    ∀ (w : Text), s.right = w ++ t.right → ∀ (l rest : Text) (c : Option Text),
      ∃ t1 : MState, Matches f r { left := l, right := w ++ rest, cap := c } t1 ∧
        t1.right = rest ∧ t1.left = w.reverse ++ l := by
  induction h with
  | eps s =>
    intro w hw l rest c
    have hnil := nil_of_append_self w _ hw
    subst hnil
    exact ⟨_, Matches.eps _, rfl, rfl⟩
  | lit c0 s x xs hr hx =>
    intro w hw l rest c
    have hw1 : x :: xs = w ++ xs := by rw [← hr]; exact hw
    have hone := unit_of_cons_eq w x xs hw1
    subst hone
    exact ⟨_, Matches.lit c0 { left := l, right := [x] ++ rest, cap := c } x rest rfl hx, rfl, rfl⟩
  | any s x xs hr hx =>
    intro w hw l rest c
    have hw1 : x :: xs = w ++ xs := by rw [← hr]; exact hw
    have hone := unit_of_cons_eq w x xs hw1
    subst hone
    exact ⟨_, Matches.any { left := l, right := [x] ++ rest, cap := c } x rest rfl hx, rfl, rfl⟩
  | cls negated items s x xs hr hx =>
    intro w hw l rest c
    have hw1 : x :: xs = w ++ xs := by rw [← hr]; exact hw
    have hone := unit_of_cons_eq w x xs hw1
    subst hone
    exact ⟨_, Matches.cls negated items { left := l, right := [x] ++ rest, cap := c } x rest rfl hx,
      rfl, rfl⟩
  | seq a b s s1 s2 h1 h2 ih1 ih2 =>
    intro w hw l rest c
    simp only [Re.assertionFree, Bool.and_eq_true] at hfree
    obtain ⟨w1, e1, _⟩ := h1.consumed
    obtain ⟨w2, e2, _⟩ := h2.consumed
    have hw' : w = w1 ++ w2 := by
      apply @List.append_cancel_right _ _ s2.right _
      rw [← hw, e1, e2, List.append_assoc]
    subst hw'
    obtain ⟨t1, m1, r1, l1⟩ := ih1 hfree.1 w1 e1 l (w2 ++ rest) c
    obtain ⟨t2, m2, r2, l2⟩ := ih2 hfree.2 w2 e2 t1.left rest t1.cap
    refine ⟨t2, Matches.seq a b _ t1 t2 (by rw [List.append_assoc]; exact m1) ?_, r2, ?_⟩
    · rw [mstate_eta t1 _ r1]
      exact m2
    · rw [l2, l1]
      simp
  | altL a b s s1 h1 ih =>
    intro w hw l rest c
    simp only [Re.assertionFree, Bool.and_eq_true] at hfree
    obtain ⟨t1, m1, r1, l1⟩ := ih hfree.1 w hw l rest c
    exact ⟨t1, Matches.altL a b _ t1 m1, r1, l1⟩
  | altR a b s s1 h1 ih =>
    intro w hw l rest c
    simp only [Re.assertionFree, Bool.and_eq_true] at hfree
    obtain ⟨t1, m1, r1, l1⟩ := ih hfree.2 w hw l rest c
    exact ⟨t1, Matches.altR a b _ t1 m1, r1, l1⟩
  | starNil g r s =>
    intro w hw l rest c
    have hnil := nil_of_append_self w _ hw
    subst hnil
    exact ⟨_, Matches.starNil g r _, rfl, rfl⟩
  | starCons g r s s1 s2 h1 hne h2 ih1 ih2 =>
    intro w hw l rest c
    have hfree1 : r.assertionFree = true := by
      simpa only [Re.assertionFree] using hfree
    obtain ⟨w1, e1, _⟩ := h1.consumed
    obtain ⟨w2, e2, _⟩ := h2.consumed
    have hw' : w = w1 ++ w2 := by
      apply @List.append_cancel_right _ _ s2.right _
      rw [← hw, e1, e2, List.append_assoc]
    subst hw'
    obtain ⟨t1, m1, r1, l1⟩ := ih1 hfree1 w1 e1 l (w2 ++ rest) c
    obtain ⟨t2, m2, r2, l2⟩ := ih2 hfree w2 e2 t1.left rest t1.cap
    have hw1 : w1 ≠ [] := by
      intro h0
      apply hne
      rw [e1, h0]
      rfl
    refine ⟨t2, Matches.starCons g r _ t1 t2 (by rw [List.append_assoc]; exact m1) ?_ ?_, r2, ?_⟩
    · rw [r1]
      have hpos : 0 < w1.length := List.length_pos.mpr hw1
      simp only [List.length_append]
      omega
    · rw [mstate_eta t1 _ r1]
      exact m2
    · rw [l2, l1]
      simp
  | wordB s _ => simp [Re.assertionFree] at hfree
  | bolStart s _ => simp [Re.assertionFree] at hfree
  | bolLine s x xs _ _ => simp [Re.assertionFree] at hfree
  | eolEnd s _ => simp [Re.assertionFree] at hfree
  | eolLine s x xs _ _ => simp [Re.assertionFree] at hfree
  | grp r s s1 h1 ih =>
    intro w hw l rest c
    have hfree1 : r.assertionFree = true := by
      simpa only [Re.assertionFree] using hfree
    obtain ⟨t1, m1, r1, l1⟩ := ih hfree1 w hw l rest c
    exact ⟨_, Matches.grp r _ t1 m1, r1, l1⟩

theorem inLang_of_match (r : Re) (hfree : r.assertionFree = true) (l right : Text) (t : MState)
    (h : Matches {} r { left := l, right := right, cap := none } t) (w : Text)
    (hw : right = w ++ t.right) : InLang r w := by
  obtain ⟨t1, m1, r1, _⟩ := h.transfer hfree w hw [] [] none
  rw [List.append_nil] at m1
  exact ⟨t1, m1, r1⟩

theorem match_of_inLang (r : Re) (hfree : r.assertionFree = true) (w : Text) (h : InLang r w)
    (l rest : Text) :
    ∃ t : MState, Matches {} r { left := l, right := w ++ rest, cap := none } t := by
  obtain ⟨t, m, hr⟩ := h
  obtain ⟨t1, m1, _, _⟩ := m.transfer hfree w (by rw [hr, List.append_nil]) l rest none
  exact ⟨t1, m1⟩

/-! ### What the group of a pattern captures -/

theorem Matches.capturesIn_sound {f : Flags} (hf : f.ignoreCase = false) (p : Nat → Bool)
    {r : Re} {s t : MState} (h : Matches f r s t) (hc : r.capturesIn p = true)
    (hs : ∀ x ∈ s.cap.getD [], p x = true) : ∀ x ∈ t.cap.getD [], p x = true := by
  induction h with
  | eps s => exact hs
  | lit c s x xs _ _ => exact hs
  | any s x xs _ _ => exact hs
  | cls negated items s x xs _ _ => exact hs
  | seq a b s s1 s2 _ _ ih1 ih2 =>
    simp only [Re.capturesIn, Bool.and_eq_true] at hc
    exact ih2 hc.2 (ih1 hc.1 hs)
  | altL a b s s1 _ ih =>
    simp only [Re.capturesIn, Bool.and_eq_true] at hc
    exact ih hc.1 hs
  | altR a b s s1 _ ih =>
    simp only [Re.capturesIn, Bool.and_eq_true] at hc
    exact ih hc.2 hs
  | starNil g r s => exact hs
  | starCons g r s s1 s2 _ _ _ ih1 ih2 =>
    have hc1 : r.capturesIn p = true := by simpa only [Re.capturesIn] using hc
    exact ih2 hc (ih1 hc1 hs)
  | wordB s _ => exact hs
  | bolStart s _ => exact hs
  | bolLine s x xs _ _ => exact hs
  | eolEnd s _ => exact hs
  | eolLine s x xs _ _ => exact hs
  | grp r s s1 h1 _ =>
    have hc1 : r.confined p = true := by simpa only [Re.capturesIn] using hc
    obtain ⟨w, e1, hp⟩ := h1.confined_sound hf p hc1
    obtain ⟨w1, e2, e3⟩ := h1.consumed
    have hw : w1 = w := List.append_cancel_right (by rw [← e1, ← e2])
    subst hw
    intro x hx
    simp only [Option.getD_some] at hx
    rw [e3, take_reverse_left] at hx
    exact hp x hx

/-! ### Occurrences around a code unit -/

theorem prefix_before (d : Nat) :
    ∀ (A w B : Text), d ∉ w → w <+: A ++ d :: B → w <+: A := by
  intro A
  induction A with
  | nil =>
    intro w B hd h
    cases w with
    | nil => exact List.nil_prefix
    | cons x w1 =>
      rw [List.nil_append, List.cons_prefix_cons] at h
      exact absurd (by rw [h.1]; exact List.mem_cons_self _ _) hd
  | cons y A ih =>
    intro w B hd h
    cases w with
    | nil => exact List.nil_prefix
    | cons x w1 =>
      rw [List.cons_append, List.cons_prefix_cons] at h
      rw [List.cons_prefix_cons]
      exact ⟨h.1, ih w1 B (fun hm => hd (List.mem_cons_of_mem _ hm)) h.2⟩

/-- A text that does not hold the code unit `d` and occurs around it occurs
before it or after it. -/
theorem infix_split_unit (d : Nat) (w : Text) (hd : d ∉ w) :
    ∀ (A B : Text), w <:+: A ++ d :: B → w <:+: A ∨ w <:+: B := by
  intro A
  induction A with
  | nil =>
    intro B h
    rw [List.nil_append, List.infix_cons_iff] at h
    rcases h with h | h
    · exact Or.inl (prefix_before d [] w B hd h).isInfix
    · exact Or.inr h
  | cons y A ih =>
    intro B h
    rw [List.cons_append, List.infix_cons_iff] at h
    rcases h with h | h
    · exact Or.inl (prefix_before d (y :: A) w B hd h).isInfix
    · rcases ih B h with h1 | h1
      · exact Or.inl (List.infix_cons h1)
      · exact Or.inr h1

/-- A text whose first code unit is not in `u` and that occurs in `u ++ R`
occurs in `R`. -/
theorem infix_skip_head (x : Nat) (w1 : Text) :
    ∀ (u R : Text), x ∉ u → (x :: w1) <:+: u ++ R → (x :: w1) <:+: R := by
  intro u
  induction u with
  | nil => intro R _ h; exact h
  | cons y u ih =>
    intro R hx h
    rw [List.cons_append, List.infix_cons_iff] at h
    rcases h with h | h
    · rw [List.cons_prefix_cons] at h
      exact absurd (by rw [h.1]; exact List.mem_cons_self _ _) hx
    · exact ih R (fun hm => hx (List.mem_cons_of_mem _ hm)) h

/-- A text whose last code unit is not in `u` and that occurs in `pre ++ u`
occurs in `pre`. -/
theorem infix_skip_tail (z : Nat) (v u pre : Text) (hz : z ∉ u)
    (h : (v ++ [z]) <:+: pre ++ u) : (v ++ [z]) <:+: pre := by
  rw [← List.reverse_infix] at h ⊢
  rw [List.reverse_append, List.reverse_append] at h
  rw [List.reverse_append]
  exact infix_skip_head z v.reverse u.reverse pre.reverse (by simpa using hz) h

/-! ### Replacing in a text that holds no match -/

theorem replaceAll_of_free (r : Re) (hfree : r.assertionFree = true) (tpl : List Tpl) (s : Text)
    (h : Free r s) : r.replaceAll {} tpl s = s := by
  cases hs : r.search {} [] s with
  | none =>
    simp only [Re.replaceAll, Re.matches, Re.matchesLoop, hs, replaceBuild, List.drop_zero]
  | some m =>
    exfalso
    obtain ⟨pre, h1, _, _, t, ht, htr, _⟩ := search_shape r {} [] s m hs
    have hin := inLang_of_match r hfree _ _ t ht m.text (by rw [htr])
    exact h m.text ⟨pre, m.right, h1.symm⟩ hin

/-! ### `weakenValidation` leaves no match of its pattern -/

theorem typeof_lang (w : Text) (h : InLang typeofCheck w) :
    (∃ u : Text, w = 116 :: u) ∧ (∃ (v : Text) (z : Nat), w = v ++ [z] ∧ (z = 39 ∨ z = 34)) ∧
      33 ∉ w := by
  obtain ⟨t, m, hr⟩ := h
  refine ⟨?_, ?_, ?_⟩
  · obtain ⟨x, u, e, hp⟩ := m.startsIn_sound rfl (fun x => x == 116) (by decide!)
    simp only [hr, List.append_nil, beq_iff_eq] at e hp
    exact ⟨u, by rw [e, hp]⟩
  · obtain ⟨v, z, e, hp⟩ := m.endsIn_sound rfl (fun x => x == 39 || x == 34) (by decide!)
    simp only [hr, Bool.or_eq_true, beq_iff_eq] at e hp
    exact ⟨v, z, e, hp⟩
  · obtain ⟨w1, e, hp⟩ := m.confined_sound rfl (fun x => x != 33) (by decide!)
    simp only [hr, List.append_nil] at e
    intro hmem
    have := hp 33 (by rw [← e]; exact hmem)
    simp at this

theorem typeof_capture (l right : Text) (t : MState)
    (h : Matches {} typeofCheck { left := l, right := right, cap := none } t) :
    39 ∉ t.cap.getD [] ∧ 34 ∉ t.cap.getD [] ∧ 32 ∉ t.cap.getD [] := by
  have hp := h.capturesIn_sound rfl (fun x => x != 39 && x != 34 && x != 32) (by decide!)
    (by simp)
  refine ⟨fun hm => ?_, fun hm => ?_, fun hm => ?_⟩
  · have := hp 39 hm
    simp at this
  · have := hp 34 hm
    simp at this
  · have := hp 32 hm
    simp at this

theorem expand_weaken (m : Match) :
    expandTpl [Tpl.group, Tpl.text " != null"] m =
      m.cap.getD [] ++ 32 :: 33 :: [61, 32, 110, 117, 108, 108] := by
  simp only [expandTpl, List.foldr]
  rfl

theorem weaken_free (s : Text) :
    ∀ (fuel : Nat) (left right : Text), s = left.reverse ++ right → right.length < fuel →
      Free typeofCheck (replaceBuild [Tpl.group, Tpl.text " != null"] s
        (typeofCheck.matchesLoop {} fuel left right) left.length) := by
  have hfree : typeofCheck.assertionFree = true := by decide!
  intro fuel
  induction fuel with
  | zero => intro left right _ h; omega
  | succ fuel ih =>
    intro left right hs hlen
    cases hsr : typeofCheck.search {} left right with
    | none =>
      have hnil : typeofCheck.matchesLoop {} (fuel + 1) left right = [] := by
        simp only [Re.matchesLoop, hsr]
      rw [hnil]
      simp only [replaceBuild]
      rw [hs, drop_reverse_left]
      intro w hw hin
      obtain ⟨a, b, hab⟩ := hw
      obtain ⟨t, ht⟩ := match_of_inLang typeofCheck hfree w hin (a.reverse ++ left) b
      exact search_none typeofCheck {} left right hsr a (w ++ b)
        (by rw [← hab, List.append_assoc]) t ht
    | some m =>
      obtain ⟨pre, h1, h2, h3, t, ht, htr, hcap⟩ := search_shape typeofCheck {} left right m hsr
      have hin := inLang_of_match typeofCheck hfree _ _ t ht m.text (by rw [htr])
      obtain ⟨⟨u0, hu0⟩, _, _⟩ := typeof_lang m.text hin
      have hne : m.text ≠ [] := by rw [hu0]; simp
      obtain ⟨hq1, hq2, hq3⟩ := typeof_capture _ _ t ht
      rw [← hcap] at hq1 hq2 hq3
      rw [matchesLoop_step typeofCheck {} fuel left right m hsr hne,
        replaceBuild_step _ s left pre m _ (by rw [hs, h1]) h2 h3, expand_weaken]
      have hlen2 : m.right.length < fuel := by
        have hpos : 0 < m.text.length := List.length_pos.mpr hne
        have := congrArg List.length h1
        simp only [List.length_append] at this
        omega
      have hs2 : s = m.left.reverse ++ m.right := by
        rw [hs, h3, h2, h1]
        simp [List.append_assoc]
      have hrec := ih m.left m.right hs2 hlen2
      generalize replaceBuild [Tpl.group, Tpl.text " != null"] s
        (typeofCheck.matchesLoop {} fuel m.left m.right) m.left.length = R at hrec ⊢
      intro w hw hin2
      obtain ⟨⟨u, hu⟩, ⟨v, z, hv, hz⟩, hbang⟩ := typeof_lang w hin2
      have hshape : pre ++ (m.cap.getD [] ++ 32 :: 33 :: [61, 32, 110, 117, 108, 108]) ++ R =
          (pre ++ (m.cap.getD [] ++ [32])) ++ 33 :: ([61, 32, 110, 117, 108, 108] ++ R) := by
        simp [List.append_assoc]
      rw [hshape] at hw
      rcases infix_split_unit 33 w hbang _ _ hw with hw1 | hw1
      · -- the occurrence would lie in the gap before the match
        rw [hv] at hw1
        have hz2 : z ∉ m.cap.getD [] ++ [32] := by
          intro hm
          rcases List.mem_append.mp hm with hm | hm
          · rcases hz with hz | hz
            · rw [hz] at hm; exact hq1 hm
            · rw [hz] at hm; exact hq2 hm
          · simp only [List.mem_singleton] at hm
            rcases hz with hz | hz <;> omega
        have hw2 := infix_skip_tail z v _ pre hz2 hw1
        rw [← hv] at hw2
        obtain ⟨a, b, hab⟩ := hw2
        obtain ⟨t2, ht2⟩ := match_of_inLang typeofCheck hfree w hin2 (a.reverse ++ left)
          (b ++ (m.text ++ m.right))
        apply search_gap typeofCheck {} left right m hsr a (w ++ (b ++ (m.text ++ m.right)))
          ?_ ?_ t2 ht2
        · rw [h1, ← hab]
          simp [List.append_assoc]
        · rw [h2, ← hab, hu]
          simp only [List.length_append, List.length_reverse, List.length_cons]
          omega
      · -- the occurrence would lie after the replacement
        rw [hu] at hw1
        have hw2 := infix_skip_head 116 u [61, 32, 110, 117, 108, 108] R (by decide) hw1
        rw [← hu] at hw2
        exact hrec w hw2 hin2

theorem weakenValidation_free (t : Text) : Free typeofCheck (weakenValidation t) :=
  weaken_free t (t.length + 1) [] t rfl (by omega)

theorem weakenValidation_twice (t : Text) :
    weakenValidation (weakenValidation t) = weakenValidation t :=
  replaceAll_of_free typeofCheck (by decide!) _ _ (weakenValidation_free t)

theorem injectHumanNoise_twice (t : Text) :
    injectHumanNoise (injectHumanNoise t) = injectHumanNoise t := by
  have key : ∀ u : Text, (Re.word "console.log").test {} u = true → injectHumanNoise u = u := by
    intro u hu
    unfold injectHumanNoise
    rw [if_pos hu]
  have h := injectHumanNoise_includes t
  rw [← test_word] at h
  exact key _ h

/-- Claim C16 as amended.  `injectHumanNoise` and `weakenValidation` are
idempotent on every text.  The output of `injectHumanNoise` always includes
`console.log`, so a second pass returns it unchanged.  The output of
`weakenValidation` holds no match of its pattern: a match holds no `!`, starts
with `t` and ends with a quote, so it lies neither across the ` != null` of a
replacement, nor in the `= null` after it, nor across the captured word before
it, and a match inside the text between two replacements was a match of the
input that the scan would have found; so a second pass replaces nothing.
`breakUniformSpacing` and `addRedundantLogic` are not idempotent: on `a = b` the
first gives `a =  b` and then `a =   b`; on `if (x)` the second gives
`if (x) { if (x !== undefined)` and then wraps the leading guard once more. -/
theorem idempotent_transforms (t : Text) :
    injectHumanNoise (injectHumanNoise t) = injectHumanNoise t ∧
    weakenValidation (weakenValidation t) = weakenValidation t ∧
    weakenValidation (str "if (typeof x === 'string') y = typeof z;") =
      str "if (x != null) y = typeof z;" ∧
    breakUniformSpacing (str "a = b") = str "a =  b" ∧
    breakUniformSpacing (str "a =  b") = str "a =   b" ∧
    addRedundantLogic (str "if (x)") = str "if (x) \x7b if (x !== undefined)" ∧
    addRedundantLogic (str "if (x) \x7b if (x !== undefined)") =
      str "if (x) \x7b if (x !== undefined) \x7b if (x !== undefined)" :=
  ⟨injectHumanNoise_twice t, weakenValidation_twice t, by decide!, by decide!, by decide!,
    by decide!, by decide!⟩

/-! ### Exact differences and squares of natural numbers -/

theorem round_sign (n d p q : Nat) :
    JSNum.round true n d p q = JSNum.neg (JSNum.round false n d p q) := by
  unfold JSNum.round
  simp only [strictNat_eq]
  generalize Nat.beq n 0 = b0
  cases b0 with
  | true => rfl
  | false =>
    simp only [cond_false]
    unfold roundAt
    simp only [strictNat_eq]
    generalize roundQuotient _ _ = m
    generalize expField _ _ _ _ _ _ = eb
    unfold pack
    generalize Nat.beq m (Nat.pow 2 53) = b1
    generalize Nat.blt 2044 eb = b2
    generalize Nat.blt 2045 eb = b3
    cases b1 <;> cases b2 <;> cases b3 <;> rfl

theorem scaled_lt (x y pe b : Nat) (_hpe : 0 < pe) (hb : 0 < b) (a1 a2 : Nat)
    (h1 : a1 * pe = x * b) (h2 : a2 * pe = y * b) (h : y < x) : a2 < a1 := by
  by_contra hc
  have hle : a1 ≤ a2 := by omega
  have h3 : a1 * pe ≤ a2 * pe := Nat.mul_le_mul_right _ hle
  rw [h1, h2] at h3
  have h4 : y * b < x * b := Nat.mul_lt_mul_of_pos_right h hb
  omega

theorem scaled_eq (x pe b : Nat) (hpe : 0 < pe) (a1 a2 : Nat)
    (h1 : a1 * pe = x * b) (h2 : a2 * pe = x * b) : a1 = a2 :=
  Nat.eq_of_mul_eq_mul_right hpe (by rw [h1, h2])

theorem beq_true_of_eq (x y : Nat) (h : x = y) : Nat.beq x y = true := by
  subst h
  induction x with
  | zero => rfl
  | succ k ih => exact ih

theorem blt_true_of_lt (x y : Nat) (h : x < y) : Nat.blt x y = true := by
  rw [Nat.blt_eq]
  exact h

theorem mantissa_ne_zero (m e b : Nat) (v : m * 2 ^ e = b * 2 ^ 1074) (hb : 0 < b) : m ≠ 0 := by
  intro h0
  subst h0
  rw [Nat.zero_mul] at v
  have : 0 < b * 2 ^ 1074 := Nat.mul_pos hb (by positivity)
  omega

/-- The difference of the Numbers of two natural numbers below `2^53`, the
second not above the first, is the Number of their difference. -/
theorem sub_ofNat_ge (a b : Nat) (ha : a < 2 ^ 53) (hb : b < 2 ^ 53) (h : b ≤ a) :
    sub (ofNat a) (ofNat b) = ofNat (a - b) := by
  obtain ⟨m1, e1, x1, v1, z1⟩ := ofNat_value a ha
  obtain ⟨m2, e2, x2, v2, z2⟩ := ofNat_value b hb
  rcases Nat.eq_zero_or_pos b with hb0 | hb0
  · subst hb0
    rw [Nat.sub_zero, ofNat_zero]
    rcases Nat.eq_zero_or_pos a with ha0 | ha0
    · subst ha0
      rw [ofNat_zero]
      rfl
    · rw [x1]
      have hm1 := mantissa_ne_zero m1 e1 a v1 ha0
      simp only [sub, JSNum.neg, add, beq_false_of_ne _ _ hm1]
      rfl
  · have ha0 : 0 < a := by omega
    have hm1 := mantissa_ne_zero m1 e1 a v1 ha0
    have hm2 := mantissa_ne_zero m2 e2 b v2 hb0
    have k1 := align_min m1 e1 e2
    have k2 := align_min_swap m2 e2 e1
    rw [v1] at k1
    rw [v2] at k2
    rw [x1, x2]
    have hs : (false == !false) = false := rfl
    simp only [sub, JSNum.neg, add, beq_false_of_ne _ _ hm1, beq_false_of_ne _ _ hm2, cond_false,
      hs, Nat.sub_eq]
    have hpe : 0 < 2 ^ (bif Nat.ble e1 e2 then e1 else e2) := by positivity
    have hB : 0 < 2 ^ 1074 := by positivity
    rcases Nat.eq_or_lt_of_le h with hab | hab
    · subst hab
      have := scaled_eq b _ _ hpe _ _ k1 k2
      rw [beq_true_of_eq _ _ this, Nat.sub_self, ofNat_zero]
      rfl
    · have hlt := scaled_lt a b _ _ hpe hB _ _ k1 k2 hab
      rw [beq_false_of_ne _ _ (by omega), blt_true_of_lt _ _ hlt]
      simp only [cond_false, cond_true]
      unfold ofNat
      apply round_congr false _ 1 _ 1074 (a - b) 1 0 0 (by decide) (by decide)
      rw [Nat.mul_one, Nat.mul_one, Nat.add_zero, Nat.zero_add, Nat.sub_mul, Nat.sub_mul, k1, k2]

/-- The difference of the Numbers of two natural numbers below `2^53`, the
second above the first, is the opposite of the Number of their distance. -/
theorem sub_ofNat_lt (a b : Nat) (ha : a < 2 ^ 53) (hb : b < 2 ^ 53) (h : a < b) :
    sub (ofNat a) (ofNat b) = neg (ofNat (b - a)) := by
  obtain ⟨m1, e1, x1, v1, z1⟩ := ofNat_value a ha
  obtain ⟨m2, e2, x2, v2, z2⟩ := ofNat_value b hb
  have hb0 : 0 < b := by omega
  have hm2 := mantissa_ne_zero m2 e2 b v2 hb0
  rcases Nat.eq_zero_or_pos a with ha0 | ha0
  · subst ha0
    rw [Nat.sub_zero, ofNat_zero, x2]
    simp only [sub, JSNum.neg, add, beq_false_of_ne _ _ hm2]
    rfl
  · have hm1 := mantissa_ne_zero m1 e1 a v1 ha0
    have k1 := align_min m1 e1 e2
    have k2 := align_min_swap m2 e2 e1
    rw [v1] at k1
    rw [v2] at k2
    have hR : JSNum.neg (ofNat (b - a)) = JSNum.round true (b - a) 1 0 0 := by
      unfold ofNat
      rw [round_sign]
    rw [hR, x1, x2]
    have hs : (false == !false) = false := rfl
    simp only [sub, JSNum.neg, add, beq_false_of_ne _ _ hm1, beq_false_of_ne _ _ hm2, cond_false,
      hs, Nat.sub_eq]
    have hpe : 0 < 2 ^ (bif Nat.ble e1 e2 then e1 else e2) := by positivity
    have hB : 0 < 2 ^ 1074 := by positivity
    have hlt := scaled_lt b a _ _ hpe hB _ _ k2 k1 h
    rw [beq_false_of_ne _ _ (by omega), blt_false_of_le _ _ (by omega)]
    simp only [cond_false, Bool.not_false]
    apply round_congr true _ 1 _ 1074 (b - a) 1 0 0 (by decide) (by decide)
    rw [Nat.mul_one, Nat.mul_one, Nat.add_zero, Nat.zero_add, Nat.sub_mul, Nat.sub_mul, k1, k2]

/-- The square of the Number of a natural number is the Number of its square,
when the square is below `2^53`. -/
theorem mul_self_ofNat (d : Nat) (h : d * d < 2 ^ 53) :
    mul (ofNat d) (ofNat d) = ofNat (d * d) := by
  have hd : d < 2 ^ 53 := by
    rcases Nat.eq_zero_or_pos d with h0 | h0
    · subst h0; positivity
    · exact lt_of_le_of_lt (Nat.le_mul_of_pos_left d h0) h
  obtain ⟨m, e, x, v, _⟩ := ofNat_value d hd
  rw [x]
  have hs : (false != false) = false := rfl
  simp only [mul, hs, Nat.mul_eq, Nat.add_eq]
  unfold ofNat
  apply round_congr false (m * m) 1 (e + e) 2148 (d * d) 1 0 0 (by decide) (by decide)
  have hexp : 0 + 2148 = 1074 + 1074 := rfl
  rw [Nat.mul_one, Nat.mul_one, Nat.add_zero, hexp, pow_add, pow_add]
  generalize 2 ^ 1074 = B at v
  generalize 2 ^ e = E at v
  calc m * m * (E * E) = (m * E) * (m * E) := by ring
    _ = (d * B) * (d * B) := by rw [v]
    _ = d * d * (B * B) := by ring

theorem mul_self_neg (x : JSNum) : mul (neg x) (neg x) = mul x x := by
  cases x with
  | nan => rfl
  | inf a => cases a <;> rfl
  | fin s m e => cases s <;> rfl

/-- The squared deviation `(v - m) ** 2` of natural numbers below `2^53` is the
Number of the square of their distance. -/
theorem sq_dev_ofNat (P : Platform) (hpow : ∀ x : JSNum, P.pow x (ofNat 2) = mul x x)
    (v m : Nat) (hv : v < 2 ^ 53) (hm : m < 2 ^ 53) (h : Nat.dist v m ^ 2 < 2 ^ 53) :
    P.pow (sub (ofNat v) (ofNat m)) (ofNat 2) = ofNat (Nat.dist v m ^ 2) := by
  rw [hpow]
  rcases Nat.lt_or_ge v m with hlt | hge
  · have hd : Nat.dist v m = m - v := Nat.dist_eq_sub_of_le (by omega)
    rw [hd] at h ⊢
    rw [sub_ofNat_lt v m hv hm hlt, mul_self_neg, mul_self_ofNat _ (by rw [← pow_two]; exact h),
      pow_two]
  · have hd : Nat.dist v m = v - m := Nat.dist_eq_sub_of_le_right hge
    rw [hd] at h ⊢
    rw [sub_ofNat_ge v m hv hm hge, mul_self_ofNat _ (by rw [← pow_two]; exact h), pow_two]

theorem sum_sq_ofNat (P : Platform) (hpow : ∀ x : JSNum, P.pow x (ofNat 2) = mul x x)
    (m : Nat) (hm : m < 2 ^ 53) :
    ∀ (vs : List Nat) (acc : Nat), (∀ v ∈ vs, v < 2 ^ 53) →
      acc + (vs.map fun v => Nat.dist v m ^ 2).sum < 2 ^ 53 →
      (vs.map ofNat).foldl (fun s v => add s (P.pow (sub v (ofNat m)) (ofNat 2))) (ofNat acc) =
        ofNat (acc + (vs.map fun v => Nat.dist v m ^ 2).sum) := by
  intro vs
  induction vs with
  | nil => intro acc _ _; simp
  | cons v vs ih =>
    intro acc hall h
    simp only [List.map_cons, List.sum_cons] at h
    simp only [List.map_cons, List.foldl_cons, List.sum_cons]
    rw [sq_dev_ofNat P hpow v m (hall v (List.mem_cons_self _ _)) hm (by omega),
      add_ofNat acc _ (by omega) (by omega),
      ih (acc + Nat.dist v m ^ 2) (fun x hx => hall x (List.mem_cons_of_mem _ hx)) (by omega),
      Nat.add_assoc]

theorem mem_le_sum (vs : List Nat) : ∀ v ∈ vs, v ≤ vs.sum := by
  induction vs with
  | nil => intro v hv; simp at hv
  | cons x xs ih =>
    intro v hv
    simp only [List.sum_cons]
    rcases List.mem_cons.mp hv with h | h
    · omega
    · have := ih v h
      omega

/-- When the mean of natural numbers is the natural number `m`, the variance is
the Number nearest to the exact sum of the squared distances to `m` divided by
the number of values. -/
theorem variance_ofNat (P : Platform) (hpow : ∀ x : JSNum, P.pow x (ofNat 2) = mul x x)
    (vs : List Nat) (m : Nat) (hne : vs ≠ []) (hmean : vs.sum = vs.length * m)
    (hsum : vs.sum < 2 ^ 53) (hlen : vs.length < 2 ^ 53)
    (hsq : (vs.map fun v => Nat.dist v m ^ 2).sum < 2 ^ 53) :
    (getStatistics P (vs.map ofNat)).mean = ofNat m ∧
    (getStatistics P (vs.map ofNat)).variance =
      lit (vs.map fun v => Nat.dist v m ^ 2).sum vs.length := by
  have hpos : 0 < vs.length := List.length_pos.mpr hne
  have hm : m < 2 ^ 53 := lt_of_le_of_lt (Nat.le_mul_of_pos_left m hpos) (hmean ▸ hsum)
  have hmeanN : div ((vs.map ofNat).foldl (fun a b => add a b) (ofNat 0)) (ofNat vs.length) =
      ofNat m := by
    rw [sum_ofNat vs 0 (by omega), Nat.zero_add, div_ofNat vs.sum vs.length hsum hpos hlen, hmean,
      lit_cancel vs.length m hpos]
  rw [getStatistics_nonempty P _ (by simpa using hne)]
  simp only [List.length_map]
  rw [hmeanN]
  refine ⟨rfl, ?_⟩
  have hall : ∀ v ∈ vs, v < 2 ^ 53 := fun v hv => lt_of_le_of_lt (mem_le_sum vs v hv) hsum
  have := sum_sq_ofNat P hpow m hm vs 0 hall (by omega)
  rw [Nat.zero_add] at this
  rw [this, div_ofNat _ vs.length hsq hpos hlen]

/-- The Number nearest to a positive quotient of natural numbers is not a zero. -/
theorem lit_truthy (S N : Nat) (hS : 0 < S) (hN : 0 < N) (hN2 : N < 2 ^ 53) :
    truthy (lit S N) = true := by
  have hg : GeVal (lit S N) (2 ^ 0) := by
    apply round_geVal S N 0 0 0 hN
    have hmono : ∀ k : Nat, 53 ≤ k → (2 : Nat) ^ 53 ≤ 2 ^ k :=
      fun k hk => Nat.pow_le_pow_right (by decide) hk
    have h1 := hmono 1074 (by decide)
    have h2 : 2 ^ 1074 ≤ S * 2 ^ 1074 := Nat.le_mul_of_pos_left _ hS
    rw [Nat.add_zero, pow_zero, Nat.mul_one, Nat.zero_add]
    generalize 2 ^ 1074 = B at h1 h2 ⊢
    omega
  rcases hg with hg | ⟨m, e, hg, hme⟩
  · rw [hg]; rfl
  · rw [hg]
    have hm : m ≠ 0 := by
      intro h0
      subst h0
      rw [Nat.zero_mul, pow_zero] at hme
      omega
    simp only [truthy, beq_false_of_ne _ _ hm]
    rfl

theorem stats_natural (P : Platform) (hpow : ∀ x : JSNum, P.pow x (ofNat 2) = mul x x)
    (vs : List Nat) (hne : vs ≠ []) (hsum : vs.sum < 2 ^ 53) (hlen : vs.length < 2 ^ 53) :
    (getStatistics P (vs.map ofNat)).mean = lit vs.sum vs.length ∧
    (getStatistics P (vs.map ofNat)).variance =
      div ((vs.map ofNat).foldl
        (fun s v => add s (mul (sub v (lit vs.sum vs.length)) (sub v (lit vs.sum vs.length))))
        (ofNat 0)) (ofNat vs.length) ∧
    (getStatistics P (vs.map ofNat)).stdDev = sqrt (getStatistics P (vs.map ofNat)).variance ∧
    (0 < vs.sum → truthy (getStatistics P (vs.map ofNat)).mean = true ∧
      (getStatistics P (vs.map ofNat)).cv =
        div (getStatistics P (vs.map ofNat)).stdDev (getStatistics P (vs.map ofNat)).mean) ∧
    (vs.sum = 0 → (getStatistics P (vs.map ofNat)).mean = ofNat 0 ∧
      (getStatistics P (vs.map ofNat)).cv = ofNat 0) := by
  have hpos : 0 < vs.length := List.length_pos.mpr hne
  have hmeanN : div ((vs.map ofNat).foldl (fun a b => add a b) (ofNat 0)) (ofNat vs.length) =
      lit vs.sum vs.length := by
    rw [sum_ofNat vs 0 (by omega), Nat.zero_add, div_ofNat vs.sum vs.length hsum hpos hlen]
  rw [getStatistics_nonempty P _ (by simpa using hne)]
  simp only [List.length_map, hpow]
  rw [hmeanN]
  refine ⟨rfl, rfl, trivial, ?_, ?_⟩
  · intro hS
    have ht := lit_truthy vs.sum vs.length hS hpos hlen
    refine ⟨ht, ?_⟩
    simp only [ht, if_true]
  · intro hS
    have hz : lit vs.sum vs.length = ofNat 0 := by
      rw [hS]
      unfold lit
      rw [round_zero, ofNat_zero]
    refine ⟨hz, ?_⟩
    rw [hz]
    rfl

theorem pow_zero_of_square (P : Platform) (hpow : ∀ x : JSNum, P.pow x (ofNat 2) = mul x x) :
    P.pow (ofNat 0) (ofNat 2) = ofNat 0 := by
  rw [hpow]
  decide

/-- Claim C21, on the lists `getStatistics` receives: Numbers that are natural
numbers (the line counts of the function bodies).  Here `**` with the exponent
2 is the correctly rounded square, and sums and lengths are below `2^53`.
`getStatistics` returns mean 0, variance 0, stdDev 0 and cv 0 for the empty
list.  For a non-empty list of N natural numbers the mean is the Number nearest
to the exact quotient of their sum by N; the variance is the sum from the left
of the squares `(v - mean) * (v - mean)` divided by N, each operation rounded;
stdDev is the square root of the variance; cv is the quotient of stdDev by the
mean when the sum is positive, in which case the mean is not zero, and the mean
and cv are 0 when the sum is 0.  When the mean is a natural number `m`, the
variance is the population variance: the Number nearest to the exact sum of the
squares of the distances to `m` divided by N (not by N - 1).  A list of N
equal natural numbers `v` has mean `v`, variance 0, stdDev 0 and cv 0. -/
theorem getStatistics_formulas (P : Platform)
    (hpow : ∀ x : JSNum, P.pow x (ofNat 2) = mul x x) :
    getStatistics P [] =
      { mean := ofNat 0, variance := ofNat 0, stdDev := ofNat 0, cv := ofNat 0 } ∧
    (∀ vs : List Nat, vs ≠ [] → vs.sum < 2 ^ 53 → vs.length < 2 ^ 53 →
      (getStatistics P (vs.map ofNat)).mean = lit vs.sum vs.length ∧
      (getStatistics P (vs.map ofNat)).variance =
        div ((vs.map ofNat).foldl
          (fun s v => add s (mul (sub v (lit vs.sum vs.length)) (sub v (lit vs.sum vs.length))))
          (ofNat 0)) (ofNat vs.length) ∧
      (getStatistics P (vs.map ofNat)).stdDev = sqrt (getStatistics P (vs.map ofNat)).variance ∧
      (0 < vs.sum → truthy (getStatistics P (vs.map ofNat)).mean = true ∧
        (getStatistics P (vs.map ofNat)).cv =
          div (getStatistics P (vs.map ofNat)).stdDev (getStatistics P (vs.map ofNat)).mean) ∧
      (vs.sum = 0 → (getStatistics P (vs.map ofNat)).mean = ofNat 0 ∧
        (getStatistics P (vs.map ofNat)).cv = ofNat 0)) ∧
    (∀ (vs : List Nat) (m : Nat), vs ≠ [] → vs.sum = vs.length * m → vs.sum < 2 ^ 53 →
      vs.length < 2 ^ 53 → (vs.map fun v => Nat.dist v m ^ 2).sum < 2 ^ 53 →
      (getStatistics P (vs.map ofNat)).mean = ofNat m ∧
      (getStatistics P (vs.map ofNat)).variance =
        lit (vs.map fun v => Nat.dist v m ^ 2).sum vs.length) ∧
    (∀ n v : Nat, 0 < n → n * v < 2 ^ 53 →
      getStatistics P (List.replicate n (ofNat v)) =
        { mean := ofNat v, variance := ofNat 0, stdDev := ofNat 0, cv := ofNat 0 }) :=
  ⟨rfl, fun vs hne hsum hlen => stats_natural P hpow vs hne hsum hlen,
    fun vs m hne hmean hsum hlen hsq => variance_ofNat P hpow vs m hne hmean hsum hlen hsq,
    fun n v hn h => getStatistics_equal P (pow_zero_of_square P hpow) n v hn h⟩

theorem getStatistics_formulas_witness :
    ((getStatistics referencePlatform ([2, 2, 5].map ofNat)).mean = ofNat 3 ∧
      (getStatistics referencePlatform ([2, 2, 5].map ofNat)).variance = lit 6 3) ∧
    lit 6 3 = ofNat 2 ∧
    (getStatistics referencePlatform ([2, 2, 5].map ofNat)).stdDev = sqrt (ofNat 2) ∧
    (getStatistics referencePlatform ([2, 2, 5].map ofNat)).cv = div (sqrt (ofNat 2)) (ofNat 3) ∧
    getStatistics referencePlatform (List.replicate 3 (ofNat 7)) =
      { mean := ofNat 7, variance := ofNat 0, stdDev := ofNat 0, cv := ofNat 0 } ∧
    (getStatistics referencePlatform ([2, 3, 4, 5].map ofNat)).mean = lit 7 2 ∧
    (getStatistics referencePlatform ([2, 3, 4, 5].map ofNat)).variance = lit 5 4 ∧
    lt (getStatistics referencePlatform ([2, 3, 4, 5].map ofNat)).cv (lit 25 100) = false :=
  ⟨(getStatistics_formulas referencePlatform (fun _ => rfl)).2.2.1 [2, 2, 5] 3 (by decide)
      (by decide) (by decide) (by decide) (by decide),
    by decide!, by decide!, by decide!,
    (getStatistics_formulas referencePlatform (fun _ => rfl)).2.2.2 3 7 (by decide) (by decide),
    by decide!, by decide!, by decide!⟩

end PlagiarismDetector
